import Mathlib

/-!
# nanoglk: window tree, split geometry, event queue and text-buffer flow

A shallow embedding of the window compositor of nanoglk
(`nanoglk/window.c`, `nanoglk/event.c`, `nanoglk/wintextbuffer.c`,
`nanoglk/wintextgrid.c`, `nanoglk/wingraphics.c`) together with theorems about
it.

Conventions of the embedding:

* A pointer to a heap object is a natural number (its address), a possibly
  null pointer is an `Option Nat`, and the heap is a map from addresses to
  objects.  `free` removes the object, so that a later dereference of the
  dangling pointer is visible: every function that dereferences a pointer
  returns `none` when the address holds no live object.  `nano_fail` is
  modelled by `none` as well.
* `malloc` may return any address that holds no live object; the address is
  an argument of the embedded function.
* `int` values are mathematical integers: signed overflow is undefined in C,
  so the embedding describes exactly the runs without overflow.  The
  exception is `window_calc_sizes`, whose sums and differences of `int`s are
  reduced to the range of `int` as the compiled code does (`wrap32`), since
  the sizes that the interface accepts reach this range.  Values of type
  `glui32` are natural numbers and arithmetic in `unsigned int` is reduced
  modulo `2 ^ 32`.
* Loops and recursions over the heap carry a fuel argument and return `none`
  when it runs out.
-/

namespace Nanoglk

/-! ## Parameters: `glk.h`, fonts, configuration -/

/-- The environment of the window code: the constants of the Glk header
`glk.h` (which is not among the sources), the font metrics computed in
`main.c` and the window size factors read from the configuration.  The size
factors are `double`s in the source; the four `scale_` fields stand for the
floating-point part of `window_calc_sizes`, i.e. the multiplication of an
`unsigned int` by the factor (followed by the division by 100 in the
proportional case) and the conversion of the result to `int`.  The fields
`texture_w` and `texture_h` are the width and height of
`nanoglk_output_texture`, which `nanoglk_window_init` creates with the width
and height of the display. -/
structure Env where
  winmethod_Left : Nat
  winmethod_Right : Nat
  winmethod_Above : Nat
  winmethod_Below : Nat
  winmethod_DirMask : Nat
  winmethod_Fixed : Nat
  winmethod_Proportional : Nat
  winmethod_DivisionMask : Nat
  winmethod_Border : Nat
  winmethod_BorderMask : Nat
  wintype_Pair : Nat
  wintype_TextBuffer : Nat
  wintype_TextGrid : Nat
  wintype_Graphics : Nat
  evtype_None : Nat
  evtype_Timer : Nat
  evtype_CharInput : Nat
  evtype_LineInput : Nat
  style_Normal : Nat
  style_Input : Nat
  buffer_space_width : Nat → Int
  buffer_text_height : Nat → Int
  grid_space_width : Nat → Int
  grid_text_height : Nat → Int
  scale_horizontal_fixed : Nat → Int
  scale_vertical_fixed : Nat → Int
  scale_horizontal_proportional : Nat → Int
  scale_vertical_proportional : Nat → Int
  texture_w : Int
  texture_h : Int

/-- The case labels of each `switch` of the window code are pairwise distinct
(a C compiler rejects the program otherwise). -/
def Env.LabelsDistinct (E : Env) : Prop :=
  [E.winmethod_Left, E.winmethod_Right, E.winmethod_Above, E.winmethod_Below].Nodup ∧
  E.winmethod_Fixed ≠ E.winmethod_Proportional ∧
  [E.wintype_Pair, E.wintype_TextBuffer, E.wintype_TextGrid, E.wintype_Graphics].Nodup

instance (E : Env) : Decidable E.LabelsDistinct := by
  unfold Env.LabelsDistinct; infer_instance

/-- The values of `glk.h` (Glk API 0.7.x), all size factors equal to 1, a
text-buffer font with a 5 pixel space and 10 pixel lines, a grid font with
8 x 16 cells, and a 100 x 100 display.  With the factor 1 a fixed size is the
`unsigned int` itself if it is in the range of `int`; for a larger value the
conversion from `double` to `int` is not defined by C, and the value given
here, the least `int`, is what the conversion instruction of x86 returns.
A proportional size is the `unsigned int` divided by 100, rounded down.  That
these are the values of the `double` arithmetic of the code (`scale_fixed`,
`scale_proportional`) is the theorem `stdEnv_scale_double`. -/
def stdEnv : Env where
  winmethod_Left := 0
  winmethod_Right := 1
  winmethod_Above := 2
  winmethod_Below := 3
  winmethod_DirMask := 0x0f
  winmethod_Fixed := 0x10
  winmethod_Proportional := 0x20
  winmethod_DivisionMask := 0xf0
  winmethod_Border := 0x000
  winmethod_BorderMask := 0x100
  wintype_Pair := 1
  wintype_TextBuffer := 3
  wintype_TextGrid := 4
  wintype_Graphics := 5
  evtype_None := 0
  evtype_Timer := 1
  evtype_CharInput := 2
  evtype_LineInput := 3
  style_Normal := 0
  style_Input := 8
  buffer_space_width := fun _ => 5
  buffer_text_height := fun _ => 10
  grid_space_width := fun _ => 8
  grid_text_height := fun _ => 16
  scale_horizontal_fixed := fun n => if n < 2147483648 then (n : Int) else -2147483648
  scale_vertical_fixed := fun n => if n < 2147483648 then (n : Int) else -2147483648
  scale_horizontal_proportional := fun n => (n : Int) / 100
  scale_vertical_proportional := fun n => (n : Int) / 100
  texture_w := 100
  texture_h := 100

/-! ## The window tree (`window.c`) -/

/-- The rectangle type of SDL2: `int x, y, w, h`. -/
structure SDL_Rect where
  x : Int
  y : Int
  w : Int
  h : Int
deriving DecidableEq, Repr

/-- The fields of `struct glk_window_struct` that the tree and geometry code
reads or writes.  The stream, the colours, the dispatch rocks and the
type-specific `data` are not part of the tree structure. -/
structure glk_window_struct where
  parent : Option Nat
  left : Option Nat
  right : Option Nat
  method : Nat
  size : Nat
  wintype : Nat
  rock : Nat
  area : SDL_Rect
deriving DecidableEq, Repr

/-- The heap of window objects. -/
abbrev WinHeap := Nat → Option glk_window_struct

/-- The global state of `window.c` (and the call counter of
`wintextgrid.c`, which decides whether a text grid resize stores the new
area). -/
structure WinState where
  heap : WinHeap
  root : Option Nat
  wtg_resize_callcount : Nat

/-- The state at program start: no window, `root == NULL`. -/
def WinState.init : WinState :=
  { heap := fun _ => none, root := none, wtg_resize_callcount := 0 }

/-- Store `w` at address `a`. -/
def WinHeap.set (h : WinHeap) (a : Nat) (w : glk_window_struct) : WinHeap :=
  fun b => if b = a then some w else h b

/-- The effect of `free(a)`. -/
def WinHeap.free (h : WinHeap) (a : Nat) : WinHeap :=
  fun b => if b = a then none else h b

/-- Embedding of `outer_left_window`: follow `left` until a window without left child is
found. -/
def outer_left_window (h : WinHeap) : Nat → Nat → Option Nat
  | 0, _ => none
  | fuel + 1, win =>
    match h win with
    | none => none
    | some w =>
      match w.left with
      | some l => outer_left_window h fuel l
      | none => some win

/-- Embedding of `glk_window_iterate(win, NULL)`.  The outer `Option` is `none` when the
call fails (`nano_fail`, or a dereference of a pointer that is null or
dangling), the inner one is the returned, possibly null, window. -/
def glk_window_iterate (fuel : Nat) (s : WinState) (win : Option Nat) :
    Option (Option Nat) :=
  match s.root with
  | none => some none
  | some r =>
    match win with
    | none => (outer_left_window s.heap fuel r).map some
    | some a =>
      match s.heap a with
      | none => none
      | some w =>
        match w.parent with
        | none => some none
        | some p =>
          match s.heap p with
          | none => none
          | some pw =>
            if pw.left = some a then
              match pw.right with
              | none => none
              | some r => (outer_left_window s.heap fuel r).map some
            else if pw.right = some a then some (some p)
            else none

/-- The loop of a caller that starts with `glk_window_iterate(NULL, NULL)`
and passes each returned window back in until `NULL` is returned: the
windows returned before the `NULL`, in order.  At most `calls` calls are
made; the result is `none` when a call fails or when none of them returns
`NULL`. -/
def window_iterate_all (fuel : Nat) (s : WinState) : Nat → Option Nat → Option (List Nat)
  | 0, _ => none
  | calls + 1, cur =>
    match glk_window_iterate fuel s cur with
    | none => none
    | some none => some []
    | some (some nxt) => (window_iterate_all fuel s calls (some nxt)).map (fun l => nxt :: l)

/-- The shape of a window tree: the address of every window, with the two
subtrees of a window that has children. -/
inductive WTree where
  | leaf (a : Nat) : WTree
  | pair (a : Nat) (l r : WTree) : WTree
deriving DecidableEq, Repr

/-- The address of the topmost window of a tree. -/
def WTree.addr : WTree → Nat
  | .leaf a => a
  | .pair a _ _ => a

/-- The number of windows of a tree. -/
def WTree.size : WTree → Nat
  | .leaf _ => 1
  | .pair _ l r => l.size + r.size + 1

/-- The windows of a tree in post-order: left subtree, right subtree, then
the window itself. -/
def WTree.postorder : WTree → List Nat
  | .leaf a => [a]
  | .pair a l r => l.postorder ++ r.postorder ++ [a]

/-- The leftmost leaf of a tree. -/
def WTree.leftmost : WTree → Nat
  | .leaf a => a
  | .pair _ l _ => l.leftmost

/-- The heap holds the tree `t` below the parent `par`: the topmost window of
`t` is live and its parent link is `par`; a leaf has no children; the
children of a pair are the topmost windows of the two subtrees, which are
held below the pair. -/
def Shape (h : WinHeap) : Option Nat → WTree → Prop
  | par, .leaf a =>
    match h a with
    | none => False
    | some w => w.parent = par ∧ w.left = none ∧ w.right = none
  | par, .pair a l r =>
    match h a with
    | none => False
    | some w =>
      w.parent = par ∧ w.left = some l.addr ∧ w.right = some r.addr ∧
        Shape h (some a) l ∧ Shape h (some a) r

/-- A well-formed window tree: `root` is null and there is no tree, or `root`
is the topmost window of a tree held by the heap whose windows are pairwise
distinct, the root being the one without parent. -/
def WellFormed (s : WinState) : Option WTree → Prop
  | none => s.root = none
  | some t => s.root = some t.addr ∧ Shape s.heap none t ∧ t.postorder.Nodup

/-- The windows of an optional tree in post-order. -/
def postorderOf : Option WTree → List Nat
  | none => []
  | some t => t.postorder

/-- One call of `glk_window_iterate` on the window `a` returns the window
`b`. -/
def IterNext (fuel : Nat) (s : WinState) (a b : Nat) : Prop :=
  glk_window_iterate fuel s (some a) = some (some b)

/-- A window without children. -/
def leafWin (par : Option Nat) : glk_window_struct :=
  { parent := par, left := none, right := none, method := 0, size := 0, wintype := 5,
    rock := 0, area := ⟨0, 0, 0, 0⟩ }

/-- A window with two children. -/
def pairWin (par : Option Nat) (l r : Nat) : glk_window_struct :=
  { parent := par, left := some l, right := some r, method := 0, size := 0, wintype := 1,
    rock := 0, area := ⟨0, 0, 0, 0⟩ }

/-- A state with five windows: the root pair 3, whose left child is the leaf 0
and whose right child is the pair 4 with the leaves 1 and 2. -/
def iterExampleState : WinState :=
  { heap := fun a =>
      if a = 0 then some (leafWin (some 3))
      else if a = 1 then some (leafWin (some 4))
      else if a = 2 then some (leafWin (some 4))
      else if a = 3 then some (pairWin none 0 4)
      else if a = 4 then some (pairWin (some 3) 1 2)
      else none,
    root := some 3,
    wtg_resize_callcount := 0 }

/-- The tree held by `iterExampleState`. -/
def iterExampleTree : WTree :=
  .pair 3 (.leaf 0) (.pair 4 (.leaf 1) (.leaf 2))

/-! ### Split geometry -/

/-- Conversion of an integer to `unsigned int` (`glui32`). -/
def toU32 (z : Int) : Nat := (z % 4294967296).toNat

/-- The value of an `int` expression whose exact value is `z`: the value
modulo 2^32 that lies in the range of `int` (two's complement; the value
that the compiled code computes where the exact value is out of range). -/
def wrap32 (z : Int) : Int :=
  if z % 4294967296 < 2147483648 then z % 4294967296 else z % 4294967296 - 4294967296

/-- The integer lies in the range of `int`. -/
def IntRange (z : Int) : Prop := -2147483648 ≤ z ∧ z < 2147483648

instance (z : Int) : Decidable (IntRange z) := by
  unfold IntRange; infer_instance

/-- Embedding of `BORDER_WIDTH`: thickness of the border between two windows. -/
def BORDER_WIDTH : Int := 1

/-- Embedding of `window_size_base_width`: the base for fixed window sizes in horizontal
direction. -/
def window_size_base_width (E : Env) (win : glk_window_struct) : Int :=
  if win.wintype = E.wintype_TextBuffer then E.buffer_space_width E.style_Normal
  else if win.wintype = E.wintype_TextGrid then E.grid_space_width E.style_Normal
  else 1

/-- Embedding of `window_size_base_height`: the base for fixed window sizes in vertical
direction. -/
def window_size_base_height (E : Env) (win : glk_window_struct) : Int :=
  if win.wintype = E.wintype_TextBuffer then E.buffer_text_height E.style_Normal
  else if win.wintype = E.wintype_TextGrid then E.grid_text_height E.style_Normal
  else 1

/-- Step 1 of `window_calc_sizes`: the size in pixels of the right window
(`size_px`, an `int`), from the method and size of the right window `right`
and the area of the pair.  `none` is `nano_fail`.  The product is computed in
`unsigned int`, the scale function of `E` is the `double` arithmetic and the
conversion to `int` (`scale_fixed`, `scale_proportional`), and `wrap32` keeps
the value in the range of `int` for every `E`. -/
def window_calc_size_px (E : Env) (pair_area : SDL_Rect) (right : glk_window_struct) :
    Option Int :=
  let dir := right.method &&& E.winmethod_DirMask
  let division := right.method &&& E.winmethod_DivisionMask
  if division = E.winmethod_Fixed then
    if dir = E.winmethod_Above ∨ dir = E.winmethod_Below then
      some (wrap32
        (E.scale_vertical_fixed (toU32 (window_size_base_height E right * right.size))))
    else if dir = E.winmethod_Left ∨ dir = E.winmethod_Right then
      some (wrap32
        (E.scale_horizontal_fixed (toU32 (window_size_base_width E right * right.size))))
    else none
  else if division = E.winmethod_Proportional then
    if dir = E.winmethod_Above ∨ dir = E.winmethod_Below then
      some (wrap32 (E.scale_vertical_proportional (toU32 (right.size * pair_area.h))))
    else if dir = E.winmethod_Left ∨ dir = E.winmethod_Right then
      some (wrap32 (E.scale_horizontal_proportional (toU32 (right.size * pair_area.w))))
    else none
  else none

/-- The thickness of the border between the left and the right window, as
computed in `window_calc_sizes`. -/
def window_border (E : Env) (right : glk_window_struct) : Int :=
  if right.method &&& E.winmethod_BorderMask = E.winmethod_Border then BORDER_WIDTH else 0

/-- Embedding of `window_calc_sizes(pair, &left_area, &right_area)`: the areas of the left
and the right child of `pair`.  The arguments `left_area` and `right_area`
are the contents of the two output rectangles before the call; the result
is their contents after it.  The sums and differences are `int` expressions:
their values are taken modulo 2^32 into the range of `int` (`wrap32`). -/
def window_calc_sizes (E : Env) (h : WinHeap) (pair : Nat) (left_area right_area : SDL_Rect) :
    Option (SDL_Rect × SDL_Rect) :=
  match h pair with
  | none => none
  | some pw =>
    match pw.right with
    | none => none
    | some r =>
      match h r with
      | none => none
      | some right =>
        match window_calc_size_px E pw.area right with
        | none => none
        | some size_px =>
          let border := window_border E right
          let dir := right.method &&& E.winmethod_DirMask
          -- 2.1 parts depending on the orientation
          let lr1 : SDL_Rect × SDL_Rect :=
            if dir = E.winmethod_Above ∨ dir = E.winmethod_Below then
              ({ left_area with h := wrap32 (pw.area.h - size_px - border), w := pw.area.w,
                                x := pw.area.x },
               { right_area with h := size_px, w := pw.area.w, x := pw.area.x })
            else if dir = E.winmethod_Left ∨ dir = E.winmethod_Right then
              ({ left_area with w := wrap32 (pw.area.w - size_px - border), h := pw.area.h,
                                y := pw.area.y },
               { right_area with w := size_px, h := pw.area.h, y := pw.area.y })
            else (left_area, right_area)
          -- 2.1 parts depending furthermore on the exact direction
          let lr2 : SDL_Rect × SDL_Rect :=
            if dir = E.winmethod_Above then
              ({ lr1.1 with y := wrap32 (pw.area.y + size_px + border) },
               { lr1.2 with y := pw.area.y })
            else if dir = E.winmethod_Below then
              ({ lr1.1 with y := pw.area.y },
               { lr1.2 with y := wrap32 (pw.area.y + pw.area.h - size_px) })
            else if dir = E.winmethod_Left then
              ({ lr1.1 with x := wrap32 (pw.area.x + size_px + border) },
               { lr1.2 with x := pw.area.x })
            else if dir = E.winmethod_Right then
              ({ lr1.1 with x := pw.area.x },
               { lr1.2 with x := wrap32 (pw.area.x + pw.area.w - size_px) })
            else lr1
          some lr2

/-- The border strip between the two children of a pair, for the method and
the area of the right child: the rectangle that the `switch` of
`window_draw_border` passes to `nano_fill_rect`.  That `switch` stands under
`#ifdef SDL12F`, which no file of the source defines, so this build draws
nothing there; the rectangle is used here as the place of the strip that
`window_calc_sizes` leaves between the children.  `none` when the method
requests no border (or has no valid direction). -/
def window_draw_border_rect (E : Env) (method : Nat) (area : SDL_Rect) : Option SDL_Rect :=
  if method &&& E.winmethod_BorderMask = E.winmethod_Border then
    let dir := method &&& E.winmethod_DirMask
    if dir = E.winmethod_Above then
      some ⟨area.x, area.y + area.h, area.w, BORDER_WIDTH⟩
    else if dir = E.winmethod_Below then
      some ⟨area.x, area.y - BORDER_WIDTH, area.w, BORDER_WIDTH⟩
    else if dir = E.winmethod_Left then
      some ⟨area.x + area.w, area.y, BORDER_WIDTH, area.h⟩
    else if dir = E.winmethod_Right then
      some ⟨area.x - BORDER_WIDTH, area.y, BORDER_WIDTH, area.h⟩
    else none
  else none

/-- The pixel `(px, py)` lies in the rectangle `r`. -/
def SDL_Rect.Contains (r : SDL_Rect) (px py : Int) : Prop :=
  r.x ≤ px ∧ px < r.x + r.w ∧ r.y ≤ py ∧ py < r.y + r.h

/-- The pixel `(px, py)` lies in the optional rectangle `r`. -/
def inOptRect (r : Option SDL_Rect) (px py : Int) : Prop :=
  match r with
  | none => False
  | some r => r.Contains px py

/-- The rectangles `l` and `r` and the optional strip `b` partition `p`: every
pixel of `p` lies in exactly one of them, and they contain no other pixel. -/
def Partitions (p l r : SDL_Rect) (b : Option SDL_Rect) : Prop :=
  ∀ px py : Int,
    (p.Contains px py ↔ (l.Contains px py ∨ r.Contains px py ∨ inOptRect b px py)) ∧
    ¬ (l.Contains px py ∧ r.Contains px py) ∧
    ¬ (l.Contains px py ∧ inOptRect b px py) ∧
    ¬ (r.Contains px py ∧ inOptRect b px py)

/-- The method has one of the four directions. -/
def ValidDir (E : Env) (method : Nat) : Prop :=
  method &&& E.winmethod_DirMask = E.winmethod_Above ∨
  method &&& E.winmethod_DirMask = E.winmethod_Below ∨
  method &&& E.winmethod_DirMask = E.winmethod_Left ∨
  method &&& E.winmethod_DirMask = E.winmethod_Right

/-- The method has one of the two sizing units. -/
def ValidDivision (E : Env) (method : Nat) : Prop :=
  method &&& E.winmethod_DivisionMask = E.winmethod_Fixed ∨
  method &&& E.winmethod_DivisionMask = E.winmethod_Proportional

/-- A heap with the pair 2 of area 100 x 100 at the origin, its left child 0
and its right child 1, a graphics window opened below with a fixed size of
40 and a border (method `winmethod_Below | winmethod_Fixed | winmethod_Border`,
which is 19 with the values of `stdEnv`). -/
def geomExampleHeap : WinHeap := fun a =>
  if a = 0 then
    some { parent := some 2, left := none, right := none, method := 0, size := 0,
           wintype := 5, rock := 0, area := ⟨0, 0, 100, 100⟩ }
  else if a = 1 then
    some { parent := some 2, left := none, right := none, method := 19, size := 40,
           wintype := 5, rock := 0, area := ⟨0, 0, 100, 100⟩ }
  else if a = 2 then
    some { parent := none, left := some 0, right := some 1, method := 0, size := 0,
           wintype := 1, rock := 0, area := ⟨0, 0, 100, 100⟩ }
  else none

/-! ### Resizing, opening and closing windows -/

/-- The contents of a local `SDL_Rect` before `window_calc_sizes` fills it in
(indeterminate in C; every field is overwritten when the call returns). -/
def uninit_rect : SDL_Rect := ⟨0, 0, 0, 0⟩

/-- Embedding of `win->area = area` for the live window `win`. -/
def WinState.set_area (s : WinState) (win : Nat) (area : SDL_Rect) : Option WinState :=
  match s.heap win with
  | none => none
  | some w => some { s with heap := s.heap.set win { w with area := area } }

/-- The body of `window_rearrange(pair)`, with the function that resizes a
child as an argument: compute both areas with `window_calc_sizes`, then
resize first the child that has become smaller.  (`window_draw_border` only
draws.) -/
def window_rearrange_with (E : Env) (resize : WinState → Nat → SDL_Rect → Option WinState)
    (s : WinState) (pair : Nat) : Option WinState :=
  match window_calc_sizes E s.heap pair uninit_rect uninit_rect with
  | none => none
  | some (left_area, right_area) =>
    match s.heap pair with
    | none => none
    | some pw =>
      match pw.right, pw.left with
      | some r, some l =>
        match s.heap r, s.heap l with
        | some rw, some lw =>
          let orient := rw.method &&& E.winmethod_DirMask
          if ((orient = E.winmethod_Above ∨ orient = E.winmethod_Below) ∧
                left_area.h < lw.area.h) ∨
              ((orient = E.winmethod_Left ∨ orient = E.winmethod_Right) ∧
                left_area.w < lw.area.w) then
            match resize s l left_area with
            | none => none
            | some s1 =>
              match s1.heap pair with
              | none => none
              | some pw1 =>
                match pw1.right with
                | none => none
                | some r1 => resize s1 r1 right_area
          else
            match resize s r right_area with
            | none => none
            | some s1 =>
              match s1.heap pair with
              | none => none
              | some pw1 =>
                match pw1.left with
                | none => none
                | some l1 => resize s1 l1 left_area
        | _, _ => none
      | _, _ => none

/-- Embedding of `window_resize(win, area)`.  For a text buffer window and a graphics
window the new area is stored (`nanoglk_wintextbuffer_resize` stores it in
every branch); `nanoglk_wintextgrid_resize` counts its calls and stores the
new area in every call but the sixth; a pair window stores the area and
rearranges its children. -/
def window_resize (E : Env) : Nat → WinState → Nat → SDL_Rect → Option WinState
  | 0, _, _, _ => none
  | fuel + 1, s, win, area =>
    match s.heap win with
    | none => none
    | some w =>
      if w.wintype = E.wintype_TextBuffer then s.set_area win area
      else if w.wintype = E.wintype_TextGrid then
        let s1 := { s with wtg_resize_callcount := s.wtg_resize_callcount + 1 }
        if s1.wtg_resize_callcount = 6 then some s1 else s1.set_area win area
      else if w.wintype = E.wintype_Graphics then s.set_area win area
      else if w.wintype = E.wintype_Pair then
        match s.set_area win area with
        | none => none
        | some s1 => window_rearrange_with E (window_resize E fuel) s1 win
      else s.set_area win area

/-- Embedding of `window_rearrange(pair)`. -/
def window_rearrange (E : Env) (fuel : Nat) (s : WinState) (pair : Nat) : Option WinState :=
  window_rearrange_with E (window_resize E fuel) s pair

/-- The block "Rearrange tree: pair takes over the place of split" of
`glk_window_open`, where `parent` is `pair->parent` (the former parent of
`split`): the root reference or the child slot of the parent that held
`split` is set to `pair`. -/
def glk_window_open_replace (s : WinState) (split pair : Nat) (parent : Option Nat) :
    Option WinState :=
  match parent with
  | none => some { s with root := some pair }
  | some p =>
    match s.heap p with
    | none => none
    | some ppw =>
      if ppw.left = some split then
        some { s with heap := s.heap.set p { ppw with left := some pair } }
      else if ppw.right = some split then
        some { s with heap := s.heap.set p { ppw with right := some pair } }
      else none

/-- Embedding of `glk_window_open(split, method, size, wintype, rock)`.  The arguments
`win` and `pair` are the addresses returned by the two calls of
`nano_malloc`.  The result is the new state and the returned window. -/
def glk_window_open (E : Env) (fuel : Nat) (s : WinState) (win pair : Nat)
    (split : Option Nat) (method size wintype rock : Nat) : Option (WinState × Nat) :=
  match split with
  | none =>
    if s.root ≠ none then none
    else
      some ({ s with
                heap := s.heap.set win
                  { parent := none, left := none, right := none, method := method,
                    size := size, wintype := wintype, rock := rock,
                    area := ⟨0, 0, E.texture_w, E.texture_h⟩ },
                root := some win }, win)
  | some sp =>
    match s.heap sp with
    | none => none
    | some spw =>
      let pairw : glk_window_struct :=
        { parent := spw.parent, left := some sp, right := some win, method := spw.method,
          size := spw.size, wintype := E.wintype_Pair, rock := 0, area := spw.area }
      let winw : glk_window_struct :=
        { parent := some pair, left := none, right := none, method := method, size := size,
          wintype := wintype, rock := rock, area := spw.area }
      match glk_window_open_replace s sp pair spw.parent with
      | none => none
      | some s1 =>
        match s1.heap sp with
        | none => none
        | some spw1 =>
          let s2 : WinState :=
            { s1 with heap := ((s1.heap.set sp { spw1 with parent := some pair }).set win
                winw).set pair pairw }
          match window_calc_sizes E s2.heap pair uninit_rect uninit_rect with
          | none => none
          | some (split_area, win_area) =>
            match window_resize E fuel s2 sp split_area with
            | none => none
            | some s3 =>
              match s3.set_area win win_area with
              | none => none
              | some s4 => some (s4, win)

/-- Embedding of `window_destroy(win)`: free the window and, before, its children. -/
def window_destroy : Nat → WinHeap → Nat → Option WinHeap
  | 0, _, _ => none
  | fuel + 1, h, win =>
    match h win with
    | none => none
    | some w =>
      let h1 : Option WinHeap :=
        match w.left with
        | some l => window_destroy fuel h l
        | none => some h
      match h1 with
      | none => none
      | some h1 =>
        match h1 win with
        | none => none
        | some w1 =>
          let h2 : Option WinHeap :=
            match w1.right with
            | some r => window_destroy fuel h1 r
            | none => some h1
          match h2 with
          | none => none
          | some h2 => some (h2.free win)

/-- Embedding of `glk_window_get_sibling(win)` for a non-null `win`. -/
def glk_window_get_sibling (h : WinHeap) (win : Nat) : Option (Option Nat) :=
  match h win with
  | none => none
  | some w =>
    match w.parent with
    | none => some none
    | some p =>
      match h p with
      | none => none
      | some pw =>
        if pw.left = some win then some pw.right
        else if pw.right = some win then some pw.left
        else none

/-- Embedding of `glk_window_close(win, result)`. -/
def glk_window_close (fuel : Nat) (s : WinState) (win : Nat) : Option WinState :=
  match s.heap win with
  | none => none
  | some w =>
    let s1 : Option WinState :=
      match w.parent with
      | none => some { s with root := none }
      | some pair =>
        -- Replace parent by sibling.
        match glk_window_get_sibling s.heap win, s.heap pair with
        | some (some sibling), some pw =>
          match s.heap sibling with
          | none => none
          | some sw =>
            let ha := s.heap.set sibling { sw with area := pw.area, parent := pw.parent }
            let hb : Option WinHeap :=
              match pw.parent with
              | none => some ha
              | some g =>
                match ha g with
                | none => none
                | some gw =>
                  if gw.left = some pair then some (ha.set g { gw with left := some sibling })
                  else if gw.right = some pair then
                    some (ha.set g { gw with right := some sibling })
                  else none
            match hb with
            | none => none
            | some hb => some { s with heap := hb.free pair }
        | _, _ => none
    match s1 with
    | none => none
    | some s1 =>
      match window_destroy fuel s1.heap win with
      | none => none
      | some h => some { s1 with heap := h }

/-- A call of the window interface: `glk_window_open` (with the two addresses
returned by `nano_malloc`) or `glk_window_close`. -/
inductive WinCall where
  | open (win pair : Nat) (split : Option Nat) (method size wintype rock : Nat) : WinCall
  | close (win : Nat) : WinCall
deriving DecidableEq, Repr

/-- Run a sequence of calls; `none` when one of them fails. -/
def run_calls (E : Env) (fuel : Nat) : WinState → List WinCall → Option WinState
  | s, [] => some s
  | s, .open win pair split method size wintype rock :: cs =>
    match glk_window_open E fuel s win pair split method size wintype rock with
    | none => none
    | some (s1, _) => run_calls E fuel s1 cs
  | s, .close win :: cs =>
    match glk_window_close fuel s win with
    | none => none
    | some s1 => run_calls E fuel s1 cs

/-- A window with its area forgotten: the links and attributes of the
window. -/
def glk_window_struct.links (w : glk_window_struct) : glk_window_struct :=
  { w with area := uninit_rect }

/-- The two states have the same root and the same live windows, with the same
links and attributes; only areas (and the resize counter) may differ. -/
def LinksEq (s s' : WinState) : Prop :=
  s'.root = s.root ∧
  ∀ a, (s'.heap a).map glk_window_struct.links = (s.heap a).map glk_window_struct.links

/-- The windows of the tree can be resized: a window without children is not
a pair window, and the right child of every window with children has a
method with a valid direction and sizing unit. -/
def TreeOK (E : Env) (h : WinHeap) : WTree → Prop
  | .leaf a =>
    match h a with
    | none => False
    | some w => w.wintype ≠ E.wintype_Pair
  | .pair _ l r =>
    (match h r.addr with
     | none => False
     | some rw => ValidDir E rw.method ∧ ValidDivision E rw.method) ∧
    TreeOK E h l ∧ TreeOK E h r

/-- The state after `glk_window_open(NULL, 0, 0, wintype_Graphics, 0)` on a
100 x 100 display, the window being stored at address 0. -/
def rootOnlyState : WinState :=
  { heap := fun a =>
      if a = 0 then
        some { parent := none, left := none, right := none, method := 0, size := 0,
               wintype := 5, rock := 0, area := ⟨0, 0, 100, 100⟩ }
      else none,
    root := some 0,
    wtg_resize_callcount := 0 }

/-- The state after the root window 0 has been split: the pair 2 is the root,
its left child is the window 0 and its right child is the window 1, opened
below with a fixed size of 40 and a border. -/
def splitRootState : WinState :=
  { heap := fun a =>
      if a = 0 then
        some { parent := some 2, left := none, right := none, method := 0, size := 0,
               wintype := 5, rock := 0, area := ⟨0, 0, 100, 59⟩ }
      else if a = 1 then
        some { parent := some 2, left := none, right := none, method := 19, size := 40,
               wintype := 5, rock := 0, area := ⟨0, 60, 100, 40⟩ }
      else if a = 2 then
        some { parent := none, left := some 0, right := some 1, method := 0, size := 0,
               wintype := 1, rock := 0, area := ⟨0, 0, 100, 100⟩ }
      else none,
    root := some 2,
    wtg_resize_callcount := 0 }

/-! ## The event queue (`event.c`) -/

/-- Embedding of `struct queued_event`.  Windows and buffers are represented by their
addresses. -/
structure queued_event where
  prev : Option Nat
  type : Nat
  uni : Nat
  win : Nat
  buf : Option Nat
  maxlen : Nat
  initlen : Nat
deriving DecidableEq, Repr

/-- The heap of `struct queued_event` objects. -/
abbrev EvHeap := Nat → Option queued_event

/-- The global state of `event.c`. -/
structure EvState where
  heap : EvHeap
  first_qe : Option Nat
  last_qe : Option Nat
  timer_millisecs : Nat

/-- The state at program start: `first_qe = NULL, last_qe = NULL`. -/
def EvState.init : EvState :=
  { heap := fun _ => none, first_qe := none, last_qe := none, timer_millisecs := 0 }

/-- Store `e` at address `a`. -/
def EvHeap.set (h : EvHeap) (a : Nat) (e : queued_event) : EvHeap :=
  fun b => if b = a then some e else h b

/-- The effect of `free(a)`. -/
def EvHeap.free (h : EvHeap) (a : Nat) : EvHeap :=
  fun b => if b = a then none else h b

/-- The first loop of `put_event`:
`for(qe = last_qe; qe; qe = qe->prev) if(qe->win == win) return;`.
The result is `some true` when an event for `win` is found. -/
def put_event_find (h : EvHeap) (win : Nat) : Nat → Option Nat → Option Bool
  | 0, _ => none
  | _ + 1, none => some false
  | fuel + 1, some q =>
    match h q with
    | none => none
    | some e => if e.win = win then some true else put_event_find h win fuel e.prev

/-- Embedding of `put_event(type, uni, win, buf, maxlen, initlen)`; `a` is the address that
`nano_malloc` returns when the event is put in the queue. -/
def put_event (fuel : Nat) (s : EvState) (a : Nat) (type uni win : Nat) (buf : Option Nat)
    (maxlen initlen : Nat) : Option EvState :=
  match put_event_find s.heap win fuel s.last_qe with
  | none => none
  | some true => some s
  | some false =>
    let qe : queued_event :=
      { prev := none, type := type, uni := uni, win := win, buf := buf, maxlen := maxlen,
        initlen := initlen }
    let h1 := s.heap.set a qe
    match s.first_qe with
    | none => some { s with heap := h1, first_qe := some a, last_qe := some a }
    | some f =>
      match h1 f with
      | none => none
      | some fe =>
        let h2 := h1.set f { fe with prev := some a }
        match h2 a with
        | none => none
        | some e => some { s with heap := h2.set a { e with prev := none }, first_qe := some a }

/-- Embedding of `get_event()`: the first event of the queue, which is removed from the
queue but not freed; the inner `Option` is `NULL` when the queue is empty. -/
def get_event (s : EvState) : Option (Option Nat × EvState) :=
  match s.last_qe with
  | none => some (none, s)
  | some qe =>
    match s.heap qe with
    | none => none
    | some e =>
      let s1 := { s with last_qe := e.prev }
      some (some qe, if s1.last_qe = none then { s1 with first_qe := none } else s1)

/-- The part of `event_t` that `glk_select` determines without user input:
the type and the window, together with the request that is served (whose
`uni`, `buf`, `maxlen` and `initlen` are passed on to the function that reads
the character or the line; `val1` is what the user enters). -/
structure event_t where
  type : Nat
  win : Option Nat
  served : Option queued_event
deriving DecidableEq, Repr

/-- Embedding of `glk_select(event)`, as far as the queue is concerned: take the first
event from the queue, fill in the event and free the queue entry. -/
def glk_select (E : Env) (s : EvState) : Option (event_t × EvState) :=
  match get_event s with
  | none => none
  | some (none, s1) =>
    some ({ type := if s1.timer_millisecs > 0 then E.evtype_Timer else E.evtype_None,
            win := none, served := none }, s1)
  | some (some qe, s1) =>
    match s1.heap qe with
    | none => none
    | some e =>
      some ({ type := e.type, win := some e.win, served := some { e with prev := none } },
            { s1 with heap := s1.heap.free qe })

/-- Embedding of `glk_request_char_event(win)`. -/
def glk_request_char_event (E : Env) (fuel : Nat) (s : EvState) (a : Nat) (win : Nat) :
    Option EvState :=
  put_event fuel s a E.evtype_CharInput 0 win none 0 0

/-- Embedding of `glk_request_char_event_uni(win)`. -/
def glk_request_char_event_uni (E : Env) (fuel : Nat) (s : EvState) (a : Nat) (win : Nat) :
    Option EvState :=
  put_event fuel s a E.evtype_CharInput 1 win none 0 0

/-- Embedding of `glk_request_line_event(win, buf, maxlen, initlen)`, as far as the queue
is concerned (the registration of the buffer with the dispatch layer is not
part of the state). -/
def glk_request_line_event (E : Env) (fuel : Nat) (s : EvState) (a : Nat) (win : Nat)
    (buf : Option Nat) (maxlen initlen : Nat) : Option EvState :=
  put_event fuel s a E.evtype_LineInput 0 win buf maxlen initlen

/-- Embedding of `glk_request_line_event_uni(win, buf, maxlen, initlen)`, as far as the
queue is concerned. -/
def glk_request_line_event_uni (E : Env) (fuel : Nat) (s : EvState) (a : Nat) (win : Nat)
    (buf : Option Nat) (maxlen initlen : Nat) : Option EvState :=
  put_event fuel s a E.evtype_LineInput 1 win buf maxlen initlen

/-- The loop of `cancel_event(win, type)`, entered with the current values of
`qe` and `pr`. -/
def cancel_event_loop (win type : Nat) : Nat → EvState → Option Nat → Option Nat →
    Option (Option Nat × EvState)
  | 0, _, _, _ => none
  | _ + 1, s, none, _ => some (none, s)
  | fuel + 1, s, some qe, pr =>
    match s.heap qe with
    | none => none
    | some e =>
      if e.type = type ∧ e.win = win then
        match pr with
        | some p =>
          match s.heap p with
          | none => none
          | some pe =>
            let s1 := { s with heap := s.heap.set p { pe with prev := e.prev } }
            match s1.heap p with
            | none => none
            | some pe1 =>
              some (some qe, if pe1.prev = none then { s1 with last_qe := some p } else s1)
        | none =>
          let s1 := { s with first_qe := e.prev }
          match s1.first_qe with
          | none => some (some qe, { s1 with last_qe := s1.first_qe })
          | some f =>
            match s1.heap f with
            | none => none
            | some fe =>
              some (some qe, if fe.prev = none then { s1 with last_qe := s1.first_qe } else s1)
      else cancel_event_loop win type fuel s e.prev (some qe)

/-- Embedding of `cancel_event(win, type)`: the removed event (not freed) or `NULL`. -/
def cancel_event (fuel : Nat) (s : EvState) (win type : Nat) : Option (Option Nat × EvState) :=
  cancel_event_loop win type fuel s s.last_qe none

/-- Embedding of `glk_cancel_char_event(win)`. -/
def glk_cancel_char_event (E : Env) (fuel : Nat) (s : EvState) (win : Nat) : Option EvState :=
  match cancel_event fuel s win E.evtype_CharInput with
  | none => none
  | some (none, s1) => some s1
  | some (some qe, s1) => some { s1 with heap := s1.heap.free qe }

/-- Embedding of `glk_cancel_line_event(win, event)`, as far as the queue is concerned. -/
def glk_cancel_line_event (E : Env) (fuel : Nat) (s : EvState) (win : Nat) : Option EvState :=
  match cancel_event fuel s win E.evtype_LineInput with
  | none => none
  | some (none, s1) => some s1
  | some (some qe, s1) => some { s1 with heap := s1.heap.free qe }

/-- A call of the event interface.  A request carries the address `a` that
`nano_malloc` returns if the request is queued. -/
inductive EvCall where
  | request_char (a win : Nat) : EvCall
  | request_char_uni (a win : Nat) : EvCall
  | request_line (a win : Nat) (buf : Option Nat) (maxlen initlen : Nat) : EvCall
  | request_line_uni (a win : Nat) (buf : Option Nat) (maxlen initlen : Nat) : EvCall
  | select : EvCall
  | cancel_char (win : Nat) : EvCall
  | cancel_line (win : Nat) : EvCall
deriving DecidableEq, Repr

/-- The call is a request or a `glk_select`, not a cancel. -/
def EvCall.isCancel : EvCall → Bool
  | .cancel_char _ => true
  | .cancel_line _ => true
  | _ => false

/-- The address that `nano_malloc` returns in the call, if the call is a
request. -/
def EvCall.alloc : EvCall → Option Nat
  | .request_char a _ => some a
  | .request_char_uni a _ => some a
  | .request_line a _ _ _ _ => some a
  | .request_line_uni a _ _ _ _ => some a
  | _ => none

/-- One call: the event that the call delivers, if it is a `glk_select`, and
the new state; `none` when the call fails. -/
def ev_step (E : Env) (fuel : Nat) (s : EvState) : EvCall → Option (Option event_t × EvState)
  | .request_char a win => (glk_request_char_event E fuel s a win).map (fun s1 => (none, s1))
  | .request_char_uni a win =>
    (glk_request_char_event_uni E fuel s a win).map (fun s1 => (none, s1))
  | .request_line a win buf maxlen initlen =>
    (glk_request_line_event E fuel s a win buf maxlen initlen).map (fun s1 => (none, s1))
  | .request_line_uni a win buf maxlen initlen =>
    (glk_request_line_event_uni E fuel s a win buf maxlen initlen).map (fun s1 => (none, s1))
  | .select => (glk_select E s).map (fun r => (some r.1, r.2))
  | .cancel_char win => (glk_cancel_char_event E fuel s win).map (fun s1 => (none, s1))
  | .cancel_line win => (glk_cancel_line_event E fuel s win).map (fun s1 => (none, s1))

/-- Run a sequence of calls: the events delivered by the `glk_select` calls, in
order, and the final state; `none` when a call fails. -/
def ev_run (E : Env) (fuel : Nat) : EvState → List EvCall → Option (List event_t × EvState)
  | s, [] => some ([], s)
  | s, c :: cs =>
    match ev_step E fuel s c with
    | none => none
    | some (ev, s1) =>
      match ev_run E fuel s1 cs with
      | none => none
      | some (evs, s2) => some (ev.toList ++ evs, s2)

/-- Every address returned by `nano_malloc` during the run holds no live
object at the time of the call. -/
def AllocsFresh (E : Env) (fuel : Nat) : EvState → List EvCall → Bool
  | _, [] => true
  | s, c :: cs =>
    (match c.alloc with
     | none => true
     | some a => (s.heap a).isNone) &&
    (match ev_step E fuel s c with
     | none => true
     | some (_, s1) => AllocsFresh E fuel s1 cs)

/-- The requests in the queue, from `last_qe` along the `prev` links (the
order in which `get_event` returns them); `none` when the walk meets a
dangling pointer or needs more than `fuel` steps. -/
def queue_events (h : EvHeap) : Nat → Option Nat → Option (List queued_event)
  | 0, _ => none
  | _ + 1, none => some []
  | fuel + 1, some q =>
    match h q with
    | none => none
    | some e => (queue_events h fuel e.prev).map (fun l => { e with prev := none } :: l)

/-! ### The queue as the specification describes it -/

/-- The request that a call registers. -/
def EvCall.request (E : Env) : EvCall → Option queued_event
  | .request_char _ win =>
    some { prev := none, type := E.evtype_CharInput, uni := 0, win := win, buf := none,
           maxlen := 0, initlen := 0 }
  | .request_char_uni _ win =>
    some { prev := none, type := E.evtype_CharInput, uni := 1, win := win, buf := none,
           maxlen := 0, initlen := 0 }
  | .request_line _ win buf maxlen initlen =>
    some { prev := none, type := E.evtype_LineInput, uni := 0, win := win, buf := buf,
           maxlen := maxlen, initlen := initlen }
  | .request_line_uni _ win buf maxlen initlen =>
    some { prev := none, type := E.evtype_LineInput, uni := 1, win := win, buf := buf,
           maxlen := maxlen, initlen := initlen }
  | _ => none

/-- The queue of the specification, one call: `pending` is the list of the
outstanding requests in the order of their registration.  A request for a
window that already has a pending request is ignored, any other request is
registered behind all pending ones; `glk_select` delivers and removes the
request registered earliest; a cancel removes the pending request of the
given kind for the window, if there is one. -/
def fifo_step (E : Env) (pending : List queued_event) (c : EvCall) :
    Option event_t × List queued_event :=
  match c with
  | .select =>
    match pending with
    | [] => (some { type := E.evtype_None, win := none, served := none }, [])
    | r :: rest => (some { type := r.type, win := some r.win, served := some r }, rest)
  | .cancel_char win =>
    (none, pending.filter (fun r => ¬ (r.type = E.evtype_CharInput ∧ r.win = win)))
  | .cancel_line win =>
    (none, pending.filter (fun r => ¬ (r.type = E.evtype_LineInput ∧ r.win = win)))
  | c =>
    match c.request E with
    | none => (none, pending)
    | some r => (none, if ∃ q ∈ pending, q.win = r.win then pending else pending ++ [r])

/-- The queue of the specification: the events delivered by a sequence of
calls and the requests still pending afterwards. -/
def fifo_run (E : Env) : List queued_event → List EvCall → List event_t × List queued_event
  | pending, [] => ([], pending)
  | pending, c :: cs =>
    let r := fifo_step E pending c
    let rs := fifo_run E r.2 cs
    (r.1.toList ++ rs.1, rs.2)

/-! ### The queue held by a state -/

/-- The `prev` chain that starts at `p` runs through the addresses of `l`, in
order, and ends with `NULL`; the second components are the requests stored
there. -/
def IsQueue (h : EvHeap) : Option Nat → List (Nat × queued_event) → Prop
  | p, [] => p = none
  | p, (a, r) :: l =>
    p = some a ∧
    match h a with
    | none => False
    | some e => { e with prev := none } = r ∧ IsQueue h e.prev l

/-- The state holds the queue `l` (oldest request first): the chain from
`last_qe` runs through `l`, `first_qe` points to the newest entry, the
entries are pairwise distinct, and no timer has been requested. -/
structure QueueInv (s : EvState) (l : List (Nat × queued_event)) : Prop where
  chain : IsQueue s.heap s.last_qe l
  first : s.first_qe = (l.map Prod.fst).getLast?
  nodup : (l.map Prod.fst).Nodup
  timer : s.timer_millisecs = 0

/-- A run of requests and selects in which an address is reused after its
entry has been freed: requests for the windows 10 and 11, a select, a
request for the window 12, three selects. -/
def fifoExampleCalls : List EvCall :=
  [.request_char 0 10, .request_line 1 11 (some 100) 80 0, .select,
   .request_char_uni 0 12, .select, .select, .select]

/-- Three character requests, for the windows 10, 11 and 12 in this order. -/
def threeRequests : List EvCall :=
  [.request_char 0 10, .request_char 1 11, .request_char 2 12]

/-- The state after `glk_request_char_event` for the window 10, the queue
entry being stored at address 0. -/
def oneRequestState : EvState :=
  { heap := fun a =>
      if a = 0 then
        some { prev := none, type := 2, uni := 0, win := 10, buf := none, maxlen := 0,
               initlen := 0 }
      else none,
    first_qe := some 0,
    last_qe := some 0,
    timer_millisecs := 0 }

/-! ## Text buffer windows (`wintextbuffer.c`) -/

namespace wintextbuffer

/-- The size of an `SDL_Surface`: a rendered part of a word, or an image. -/
structure Surface where
  w : Int
  h : Int
deriving DecidableEq, Repr

/-- The value `-1` of `space_styl` (a `glui32`): there is no space before the
current word. -/
def NO_SPACE : Nat := 4294967295

/-- Embedding of `struct textbuffer`.  The current word is the list of its characters with
their styles (`curword`, `curword_styles`, `curword_len`). -/
structure textbuffer where
  cur_x : Int
  cur_y : Int
  line_height : Int
  last_line_height : Int
  read_until : Int
  curword : List (Nat × Nat)
  space_styl : Nat
deriving DecidableEq, Repr

/-- A text buffer window: the fields of `struct glk_window_struct` used by
`wintextbuffer.c`, the `struct textbuffer` in `win->data`, and a record of
what the window has put on the screen: the destination rectangles of the
word parts copied to the screen (`drawn`), the number of times the
"- more -" message has been shown and a key awaited (`prompts`), and the
distances by which the content has been scrolled (`scrolled`). -/
structure TextWin where
  area : SDL_Rect
  cur_styl : Nat
  tb : textbuffer
  drawn : List SDL_Rect
  prompts : Nat
  scrolled : List Int
deriving DecidableEq, Repr

/-- Embedding of `ensure_space(win, space)`: make sure that there are `space` pixels below
the cursor; if not, scroll, after showing "- more -" and waiting for a key
when unread text would be scrolled away. -/
def ensure_space (win : TextWin) (space : Int) : TextWin :=
  if win.tb.cur_y + space > win.area.h then
    let d := win.tb.cur_y + space - win.area.h
    let win1 : TextWin :=
      if d > win.tb.read_until then
        { win with
            prompts := win.prompts + 1,
            tb := { win.tb with read_until := win.tb.cur_y - win.tb.last_line_height } }
      else win
    { win1 with
        scrolled := win1.scrolled ++ [d],
        tb := { win1.tb with cur_y := win1.tb.cur_y - d,
                             read_until := win1.tb.read_until - d } }
  else win

/-- Embedding of `new_line(win)`: begin a new line. -/
def new_line (E : Env) (win : TextWin) : TextWin :=
  let h := if win.tb.line_height > 0 then win.tb.line_height
    else E.buffer_text_height win.cur_styl
  let win1 := ensure_space win h
  { win1 with
      tb := { win1.tb with cur_x := 0, cur_y := win1.tb.cur_y + h,
                           last_line_height := win1.tb.line_height, line_height := 0,
                           space_styl := NO_SPACE } }

/-- Embedding of `width_word(t)`: the width of a rendered word. -/
def width_word (t : List Surface) : Int :=
  t.foldl (fun w p => w + p.w) 0

/-- The loop of `add_word` that copies the parts of the word to the screen. -/
def add_word_parts (win : TextWin) : List Surface → TextWin
  | [] => win
  | p :: ps =>
    let win1 := ensure_space win p.h
    let rs : SDL_Rect := ⟨win1.area.x + win1.tb.cur_x, win1.area.y + win1.tb.cur_y, p.w, p.h⟩
    add_word_parts
      { win1 with
          drawn := win1.drawn ++ [rs],
          tb := { win1.tb with cur_x := win1.tb.cur_x + p.w,
                               line_height := max win1.tb.line_height p.h } } ps

/-- The width of the pending space, as computed in `add_word`. -/
def space_width (E : Env) (win : TextWin) : Int :=
  if win.tb.space_styl ≠ NO_SPACE then E.buffer_space_width win.tb.space_styl else 0

/-- Embedding of `add_word(win, word)`: add a rendered word. -/
def add_word (E : Env) (win : TextWin) (word : List Surface) : TextWin :=
  let w_space := space_width E win
  let w_word := width_word word
  let win1 : TextWin :=
    if win.tb.cur_x ≠ 0 ∧ win.tb.cur_x + w_space + w_word > win.area.w then new_line E win
    else if win.tb.cur_x ≠ 0 then { win with tb := { win.tb with cur_x := win.tb.cur_x + w_space } }
    else win
  add_word_parts win1 word

/-- A text buffer window 100 pixels wide and high whose cursor is at the start
of the first line, with a space of style 0 pending. -/
def lineStartWin : TextWin :=
  { area := ⟨0, 0, 100, 100⟩, cur_styl := 0,
    tb := { cur_x := 0, cur_y := 0, line_height := 0, last_line_height := 0, read_until := 0,
            curword := [], space_styl := 0 },
    drawn := [], prompts := 0, scrolled := [] }

/-- A text buffer window 100 pixels wide and high whose cursor is behind a
word 60 pixels wide and 10 pixels high on the first line, with a space of
style 0 pending. -/
def midLineWin : TextWin :=
  { area := ⟨0, 0, 100, 100⟩, cur_styl := 0,
    tb := { cur_x := 60, cur_y := 0, line_height := 10, last_line_height := 0,
            read_until := 0, curword := [], space_styl := 0 },
    drawn := [⟨0, 0, 60, 10⟩], prompts := 0, scrolled := [] }

end wintextbuffer

namespace wintextbuffer

/-! ### Characters, words and reads in a text buffer window -/

/-- `MAX_WORD_LEN`: the capacity of the current word. -/
def MAX_WORD_LEN : Nat := 2000

/-- The glyph provider (`TTF_RenderUNICODE_Shaded` with the font of a style):
the size of the surface rendered for a style and a text, the text being the
list of its 16-bit characters without the terminating 0.  The call is
taken to succeed. -/
abbrev Renderer := Nat → List Nat → Surface

/-- The parts of the current word: the maximal runs of characters of one
style, each with its style (the two loops of `render_word` that count the
style changes and search for the end of each part). -/
def render_runs : List (Nat × Nat) → List (Nat × List Nat)
  | [] => []
  | (c, styl) :: rest =>
    match render_runs rest with
    | [] => [(styl, [c])]
    | (styl1, cs) :: runs =>
      if styl = styl1 then (styl, c :: cs) :: runs else (styl, [c]) :: (styl1, cs) :: runs

/-- Embedding of `render_word(win)`: one surface for each part of the current word.  The
text of a part is passed 0-terminated, so it ends before a character 0 that
the word contains. -/
def render_word (R : Renderer) (win : TextWin) : List Surface :=
  (render_runs win.tb.curword).map (fun part => R part.1 (part.2.takeWhile (fun c => c ≠ 0)))

/-- Embedding of `nanoglk_wintextbuffer_clear(win)`. -/
def nanoglk_wintextbuffer_clear (win : TextWin) : TextWin :=
  { win with
      tb := { cur_x := 0, cur_y := 0, line_height := 0, last_line_height := 0,
              read_until := 0, curword := [], space_styl := NO_SPACE } }

/-- Embedding of `nanoglk_wintextbuffer_resize(win, area)`. -/
def nanoglk_wintextbuffer_resize (win : TextWin) (area : SDL_Rect) : TextWin :=
  if area.w ≠ win.area.w then
    nanoglk_wintextbuffer_clear { win with area := area }
  else
    let win1 : TextWin :=
      if area.h = win.area.h then win
      else if area.h > win.area.h then win
      else if area.h ≥ win.tb.cur_y + win.tb.line_height then win
      else
        let d := win.tb.cur_y + win.tb.line_height - area.h
        { win with
            tb := { win.tb with cur_y := max (win.tb.cur_y - d) 0,
                                read_until := max (win.tb.read_until - d) 0 } }
    { win1 with area := area }

/-- Embedding of `nanoglk_wintextbuffer_flush(win)`: display the pending word. -/
def nanoglk_wintextbuffer_flush (E : Env) (R : Renderer) (win : TextWin) : TextWin :=
  let win1 : TextWin :=
    if win.tb.curword.length > 0 then add_word E win (render_word R win) else win
  { win1 with tb := { win1.tb with curword := [] } }

/-- Embedding of `nanoglk_wintextbuffer_put_char(win, c)`.  The characters of the current
word are stored as `Uint16`. -/
def nanoglk_wintextbuffer_put_char (E : Env) (R : Renderer) (win : TextWin) (c : Nat) :
    TextWin :=
  if c = 32 then
    let win1 := nanoglk_wintextbuffer_flush E R win
    { win1 with tb := { win1.tb with space_styl := win1.cur_styl } }
  else if c = 10 then
    new_line E (nanoglk_wintextbuffer_flush E R win)
  else if win.tb.curword.length < MAX_WORD_LEN then
    { win with tb := { win.tb with curword := win.tb.curword ++ [(c % 65536, win.cur_styl)] } }
  else win

/-- Embedding of `nanoglk_wintextbuffer_put_image(win, image, val1, val2)`. -/
def nanoglk_wintextbuffer_put_image (E : Env) (R : Renderer) (win : TextWin)
    (image : Surface) : TextWin :=
  add_word E (nanoglk_wintextbuffer_flush E R win) [image]

/-- Embedding of `user_has_read(win)`. -/
def user_has_read (win : TextWin) : TextWin :=
  { win with tb := { win.tb with read_until := win.tb.cur_y } }

/-- Embedding of `nanoglk_wintextbuffer_get_char_uni(win)`, completed by a key press: the
effect on the window. -/
def nanoglk_wintextbuffer_get_char_uni (win : TextWin) : TextWin :=
  user_has_read win

/-- Embedding of `nanoglk_wintextbuffer_get_line16(win, text, max_len, max_char)`, completed
by the return key: the effect on the window.  (The input history and the
text that is read are not part of the window state.) -/
def nanoglk_wintextbuffer_get_line16 (E : Env) (R : Renderer) (win : TextWin) : TextWin :=
  let win1 := nanoglk_wintextbuffer_flush E R win
  let w_space := space_width E win1
  let w_input := max (Int.tdiv win1.area.w 3) (min win1.area.w 10)
  let win2 : TextWin :=
    if win1.tb.cur_x ≠ 0 ∧ win1.tb.cur_x + w_space + w_input > win1.area.w then new_line E win1
    else if win1.tb.cur_x ≠ 0 then
      { win1 with tb := { win1.tb with cur_x := win1.tb.cur_x + w_space } }
    else win1
  new_line E (user_has_read win2)

/-- Embedding of `nanoglk_set_style(win, styl)` for a text buffer window. -/
def nanoglk_set_style (win : TextWin) (styl : Nat) : TextWin :=
  { win with cur_styl := styl }

/-- An operation on a text buffer window. -/
inductive TbOp where
  | put_char (c : Nat) : TbOp
  | flush : TbOp
  | put_image (image : Surface) : TbOp
  | new_line : TbOp
  | ensure_space (space : Int) : TbOp
  | resize (area : SDL_Rect) : TbOp
  | clear : TbOp
  | get_char : TbOp
  | get_line : TbOp
  | set_style (styl : Nat) : TbOp
deriving DecidableEq, Repr

/-- The effect of one operation. -/
def tb_step (E : Env) (R : Renderer) (win : TextWin) : TbOp → TextWin
  | .put_char c => nanoglk_wintextbuffer_put_char E R win c
  | .flush => nanoglk_wintextbuffer_flush E R win
  | .put_image image => nanoglk_wintextbuffer_put_image E R win image
  | .new_line => new_line E win
  | .ensure_space space => ensure_space win space
  | .resize area => nanoglk_wintextbuffer_resize win area
  | .clear => nanoglk_wintextbuffer_clear win
  | .get_char => nanoglk_wintextbuffer_get_char_uni win
  | .get_line => nanoglk_wintextbuffer_get_line16 E R win
  | .set_style styl => nanoglk_set_style win styl

/-- The effect of a sequence of operations. -/
def tb_run (E : Env) (R : Renderer) (win : TextWin) (ops : List TbOp) : TextWin :=
  ops.foldl (tb_step E R) win

/-- A renderer that gives every character a width of 20 pixels and every text
a height of 10 pixels. -/
def monoRenderer : Renderer := fun _ text => ⟨20 * text.length, 10⟩

/-- A text buffer window 100 pixels wide and high, cleared. -/
def clearedWin : TextWin :=
  { area := ⟨0, 0, 100, 100⟩, cur_styl := 0,
    tb := { cur_x := 0, cur_y := 0, line_height := 0, last_line_height := 0, read_until := 0,
            curword := [], space_styl := NO_SPACE },
    drawn := [], prompts := 0, scrolled := [] }

end wintextbuffer

namespace wintextbuffer

end wintextbuffer

namespace wintextbuffer

end wintextbuffer

namespace wintextbuffer

end wintextbuffer

namespace wintextbuffer

/-- Putting the characters of three words, separated by single spaces. -/
def three_words (w1 w2 w3 : List Nat) : List TbOp :=
  w1.map .put_char ++ [.put_char 32] ++ w2.map .put_char ++ [.put_char 32] ++ w3.map .put_char

end wintextbuffer

/-! ## Text grid windows (`wintextgrid.c`) -/

/-- Conversion of a `glui32` to `int`: the value modulo 2^32 that lies in the
range of `int`. -/
def toInt32 (n : Nat) : Int :=
  if n % 4294967296 < 2147483648 then ((n % 4294967296 : Nat) : Int)
  else ((n % 4294967296 : Nat) : Int) - 4294967296

namespace wintextgrid

/-- Embedding of `struct textgrid`: the position at which new text is inserted. -/
structure textgrid where
  cur_x : Int
  cur_y : Int
deriving DecidableEq, Repr

/-- A text grid window: the fields of `struct glk_window_struct` used by
`wintextgrid.c`, the `struct textgrid` in `win->data`, and a record of the
glyphs copied to the screen: the character (as `Uint16`) and the destination
rectangle of each (`drawn`). -/
structure GridWin where
  area : SDL_Rect
  cur_styl : Nat
  tg : textgrid
  drawn : List (Nat × SDL_Rect)
deriving DecidableEq, Repr

/-- Embedding of `nanoglk_wintextgrid_clear(win)`. -/
def nanoglk_wintextgrid_clear (win : GridWin) : GridWin :=
  { win with tg := ⟨0, 0⟩ }

/-- Embedding of `new_line(win)` of `wintextgrid.c`. -/
def new_line (E : Env) (win : GridWin) : GridWin :=
  { win with tg := ⟨0, win.tg.cur_y + E.grid_text_height E.style_Normal⟩ }

/-- Embedding of `nanoglk_wintextgrid_put_char(win, c)`. -/
def nanoglk_wintextgrid_put_char (E : Env) (win : GridWin) (c : Nat) : GridWin :=
  let gw := E.grid_space_width E.style_Normal
  let gh := E.grid_text_height E.style_Normal
  let win1 : GridWin := if c = 10 then new_line E win else win
  if win1.tg.cur_y < win1.area.h then
    let r2 : SDL_Rect := ⟨win1.tg.cur_x, win1.tg.cur_y, gw, gh⟩
    let win2 : GridWin :=
      { win1 with
          drawn := win1.drawn ++ [(c % 65536, r2)],
          tg := { win1.tg with cur_x := win1.tg.cur_x + gw } }
    if win2.tg.cur_x ≥ win2.area.w then new_line E win2 else win2
  else win1

/-- A text grid window of 10 columns and 2 rows of cells 8 pixels wide and 16
pixels high, with the cursor at the given position. -/
def gridWin (x y : Int) : GridWin :=
  { area := ⟨0, 0, 80, 32⟩, cur_styl := 0, tg := ⟨x, y⟩, drawn := [] }

end wintextgrid

/-- The parameters `stdEnv` with a display of 640 x 480 pixels. -/
def vgaEnv : Env := { stdEnv with texture_w := 640, texture_h := 480 }

/-! ### The `double` arithmetic of `window_calc_sizes` -/

/-- The integer nearest to `q`; of two nearest integers the even one (the
rounding of the default mode of IEEE 754). -/
def round_even (q : ℚ) : Int :=
  if q - ⌊q⌋ < 1 / 2 then ⌊q⌋
  else if 1 / 2 < q - ⌊q⌋ then ⌊q⌋ + 1
  else if ⌊q⌋ % 2 = 0 then ⌊q⌋ else ⌊q⌋ + 1

/-- The value of type `double` (IEEE 754 binary64, a significand of 53 bits)
that is nearest to the exact value `q`: with 2^e ≤ |q| < 2^(e+1), the multiple
of 2^(e-52) nearest to `q`, ties to the even significand.  This is the result
of an arithmetic operation of C on `double`s whose exact result is `q`, and of
the conversion of an integer `q` to `double`.  The range of the exponent is not
modelled (no infinities, no subnormal numbers). -/
def to_double (q : ℚ) : ℚ :=
  if q = 0 then 0
  else (round_even (q * 2 ^ (52 - Int.log 2 |q|)) : ℚ) * 2 ^ (Int.log 2 |q| - 52)

/-- Conversion of a `double` to `int` in an assignment: the fractional part is
discarded.  For a value whose integral part is not in the range of `int` the
conversion is not defined by C; the value given here, the least `int`, is
what the conversion instruction of x86 returns. -/
def double_to_int (q : ℚ) : Int :=
  if -2147483648 ≤ (if 0 ≤ q then ⌊q⌋ else ⌈q⌉) ∧ (if 0 ≤ q then ⌊q⌋ else ⌈q⌉) < 2147483648
  then (if 0 ≤ q then ⌊q⌋ else ⌈q⌉)
  else -2147483648

/-- The floating-point part of the fixed case of `window_calc_sizes`:
`n * factor`, with `n` of type `unsigned int` and `factor` of type `double`,
assigned to the `int` variable `size_px`. -/
def scale_fixed (factor : ℚ) (n : Nat) : Int :=
  double_to_int (to_double (to_double (n : ℚ) * factor))

/-- The floating-point part of the proportional case of `window_calc_sizes`:
`n * factor / 100`, with `n` of type `unsigned int` and `factor` of type
`double`, assigned to the `int` variable `size_px`. -/
def scale_proportional (factor : ℚ) (n : Nat) : Int :=
  double_to_int (to_double (to_double (to_double (n : ℚ) * factor) / 100))

/-- The parameters `vgaEnv` with the four scale functions computed by the
`double` arithmetic of the code with all factors equal to 1. -/
def vgaDoubleEnv : Env :=
  { vgaEnv with
    scale_horizontal_fixed := scale_fixed 1
    scale_vertical_fixed := scale_fixed 1
    scale_horizontal_proportional := scale_proportional 1
    scale_vertical_proportional := scale_proportional 1 }

/-! ## Style colours (`window.c`) -/

/-- Embedding of `SDL_Color`. -/
structure SDL_Color where
  r : Nat
  g : Nat
  b : Nat
  a : Nat
deriving DecidableEq, Repr

/-- The values of `glk.h` used by the style hints, and the colours of the fonts
that the user has configured (`nanoglk_buffer_font[i]->fg` and so on). -/
structure StyleEnv where
  stylehint_TextColor : Nat
  stylehint_BackColor : Nat
  stylehint_ReverseColor : Nat
  wintype_AllTypes : Nat
  style_NUMSTYLES : Nat
  buffer_font_fg : Nat → SDL_Color
  buffer_font_bg : Nat → SDL_Color
  grid_font_fg : Nat → SDL_Color
  grid_font_bg : Nat → SDL_Color

/-- The three arrays that `set_hint` and `clear_hint` work on.  Of an entry of
`next_rev`, a `char`, only the low byte of the assigned value is kept. -/
structure HintTables where
  next_fg : Nat → SDL_Color
  next_bg : Nat → SDL_Color
  next_rev : Nat → Nat

/-- The colours of the styles: the arrays for the next text buffer window and
the next text grid window, and the arrays `fg` and `bg` of every window, by
the address of the window. -/
structure StyleState where
  next_buffer_fg : Nat → SDL_Color
  next_buffer_bg : Nat → SDL_Color
  next_buffer_rev : Nat → Nat
  next_grid_fg : Nat → SDL_Color
  next_grid_bg : Nat → SDL_Color
  next_grid_rev : Nat → Nat
  win_fg : Nat → Nat → SDL_Color
  win_bg : Nat → Nat → SDL_Color

/-- The loop of `nanoglk_window_init` that sets the colours for the next windows from
the fonts; `st` gives the arrays of the windows. -/
def nanoglk_window_init (F : StyleEnv) (st : StyleState) : StyleState :=
  { st with
      next_buffer_fg := fun i => if i < F.style_NUMSTYLES then F.buffer_font_fg i
        else st.next_buffer_fg i,
      next_buffer_bg := fun i => if i < F.style_NUMSTYLES then F.buffer_font_bg i
        else st.next_buffer_bg i,
      next_buffer_rev := fun i => if i < F.style_NUMSTYLES then 0 else st.next_buffer_rev i,
      next_grid_fg := fun i => if i < F.style_NUMSTYLES then F.grid_font_fg i
        else st.next_grid_fg i,
      next_grid_bg := fun i => if i < F.style_NUMSTYLES then F.grid_font_bg i
        else st.next_grid_bg i,
      next_grid_rev := fun i => if i < F.style_NUMSTYLES then 0 else st.next_grid_rev i }

/-- Embedding of `set_color(col, val)`: convert a Glk colour (a `glsi32`) into an SDL
colour. -/
def set_color (col : SDL_Color) (val : Int) : SDL_Color :=
  { col with
      r := (toU32 val &&& 0xff0000) >>> 16,
      g := (toU32 val &&& 0xff00) >>> 8,
      b := toU32 val &&& 0xff }

/-- Embedding of `set_hint(styl, hint, val, next_fg, next_bg, next_rev)`.  `none` is an
access beyond the end of an array. -/
def set_hint (F : StyleEnv) (styl hint : Nat) (val : Int) (t : HintTables) :
    Option HintTables :=
  if hint = F.stylehint_TextColor then
    if styl < F.style_NUMSTYLES then
      some { t with next_fg := Function.update t.next_fg styl (set_color (t.next_fg styl) val) }
    else none
  else if hint = F.stylehint_BackColor then
    if styl < F.style_NUMSTYLES then
      some { t with next_bg := Function.update t.next_bg styl (set_color (t.next_bg styl) val) }
    else none
  else if hint = F.stylehint_ReverseColor then
    if styl < F.style_NUMSTYLES then
      if (t.next_rev styl ≠ 0 ∧ val = 0) ∨ (t.next_rev styl = 0 ∧ val ≠ 0) then
        some { next_fg := Function.update t.next_fg styl (t.next_bg styl),
               next_bg := Function.update t.next_bg styl (t.next_fg styl),
               next_rev := Function.update t.next_rev styl (toU32 val % 256) }
      else some t
    else none
  else some t

/-- Embedding of `clear_hint(styl, hint, next_fg, next_bg, next_rev, font)`, the colours
of `font` being `font_fg` and `font_bg`. -/
def clear_hint (F : StyleEnv) (styl hint : Nat) (t : HintTables)
    (font_fg font_bg : Nat → SDL_Color) : Option HintTables :=
  if hint = F.stylehint_TextColor then
    if styl < F.style_NUMSTYLES then
      some { t with next_fg := Function.update t.next_fg styl (font_fg styl) }
    else none
  else if hint = F.stylehint_BackColor then
    if styl < F.style_NUMSTYLES then
      some { t with next_bg := Function.update t.next_bg styl (font_bg styl) }
    else none
  else if hint = F.stylehint_ReverseColor then
    if styl < F.style_NUMSTYLES then
      if t.next_rev styl ≠ 0 then
        some { next_fg := Function.update t.next_fg styl (t.next_bg styl),
               next_bg := Function.update t.next_bg styl (t.next_fg styl),
               next_rev := Function.update t.next_rev styl 0 }
      else some t
    else none
  else some t

/-- The arrays for the next text buffer window. -/
def StyleState.buffer (st : StyleState) : HintTables :=
  ⟨st.next_buffer_fg, st.next_buffer_bg, st.next_buffer_rev⟩

/-- The arrays for the next text grid window. -/
def StyleState.grid (st : StyleState) : HintTables :=
  ⟨st.next_grid_fg, st.next_grid_bg, st.next_grid_rev⟩

/-- Store the arrays for the next text buffer window. -/
def StyleState.set_buffer (st : StyleState) (t : HintTables) : StyleState :=
  { st with next_buffer_fg := t.next_fg, next_buffer_bg := t.next_bg,
            next_buffer_rev := t.next_rev }

/-- Store the arrays for the next text grid window. -/
def StyleState.set_grid (st : StyleState) (t : HintTables) : StyleState :=
  { st with next_grid_fg := t.next_fg, next_grid_bg := t.next_bg, next_grid_rev := t.next_rev }

/-- Embedding of `glk_stylehint_set(wintype, styl, hint, val)`. -/
def glk_stylehint_set (E : Env) (F : StyleEnv) (st : StyleState) (wintype styl hint : Nat)
    (val : Int) : Option StyleState :=
  let r1 : Option StyleState :=
    if wintype = E.wintype_TextBuffer ∨ wintype = F.wintype_AllTypes then
      (set_hint F styl hint val st.buffer).map st.set_buffer
    else some st
  match r1 with
  | none => none
  | some st1 =>
    if wintype = E.wintype_TextGrid ∨ wintype = F.wintype_AllTypes then
      (set_hint F styl hint val st1.grid).map st1.set_grid
    else some st1

/-- Embedding of `glk_stylehint_clear(wintype, styl, hint)`. -/
def glk_stylehint_clear (E : Env) (F : StyleEnv) (st : StyleState) (wintype styl hint : Nat) :
    Option StyleState :=
  let r1 : Option StyleState :=
    if wintype = E.wintype_TextBuffer ∨ wintype = F.wintype_AllTypes then
      (clear_hint F styl hint st.buffer F.buffer_font_fg F.buffer_font_bg).map st.set_buffer
    else some st
  match r1 with
  | none => none
  | some st1 =>
    if wintype = E.wintype_TextGrid ∨ wintype = F.wintype_AllTypes then
      (clear_hint F styl hint st1.grid F.grid_font_fg F.grid_font_bg).map st1.set_grid
    else some st1

/-- The block "Colors for styles" of `glk_window_open`, for the new window at
the address `win`: the colours for the next window of its type are copied
into the window. -/
def glk_window_open_colors (E : Env) (F : StyleEnv) (st : StyleState) (win wintype : Nat) :
    StyleState :=
  if wintype = E.wintype_TextBuffer then
    { st with
        win_fg := Function.update st.win_fg win
          (fun i => if i < F.style_NUMSTYLES then st.next_buffer_fg i else st.win_fg win i),
        win_bg := Function.update st.win_bg win
          (fun i => if i < F.style_NUMSTYLES then st.next_buffer_bg i else st.win_bg win i) }
  else if wintype = E.wintype_TextGrid then
    { st with
        win_fg := Function.update st.win_fg win
          (fun i => if i < F.style_NUMSTYLES then st.next_grid_fg i else st.win_fg win i),
        win_bg := Function.update st.win_bg win
          (fun i => if i < F.style_NUMSTYLES then st.next_grid_bg i else st.win_bg win i) }
  else st

/-- A call that reads or writes the colours of the styles. -/
inductive StyleCall where
  | hint_set (wintype styl hint : Nat) (val : Int) : StyleCall
  | hint_clear (wintype styl hint : Nat) : StyleCall
  | window_open (win wintype : Nat) : StyleCall
deriving DecidableEq, Repr

/-- The effect of one call on the colours. -/
def style_step (E : Env) (F : StyleEnv) (st : StyleState) : StyleCall → Option StyleState
  | .hint_set wintype styl hint val => glk_stylehint_set E F st wintype styl hint val
  | .hint_clear wintype styl hint => glk_stylehint_clear E F st wintype styl hint
  | .window_open win wintype => some (glk_window_open_colors E F st win wintype)

/-- The effect of a sequence of calls on the colours. -/
def style_run (E : Env) (F : StyleEnv) : StyleState → List StyleCall → Option StyleState
  | st, [] => some st
  | st, c :: cs =>
    match style_step E F st c with
    | none => none
    | some st1 => style_run E F st1 cs

/-- The style of a style hint call is one of the `style_NUMSTYLES` styles. -/
def StyleCall.StyleValid (F : StyleEnv) : StyleCall → Prop
  | .hint_set _ styl _ _ => styl < F.style_NUMSTYLES
  | .hint_clear _ styl _ => styl < F.style_NUMSTYLES
  | .window_open _ _ => True

/-- The call opens a window at the address `win`. -/
def StyleCall.Opens (win : Nat) : StyleCall → Prop
  | .window_open w _ => w = win
  | _ => False

/-- The values of `glk.h` (Glk API 0.7.x); every font black on white. -/
def stdStyleEnv : StyleEnv where
  stylehint_TextColor := 7
  stylehint_BackColor := 8
  stylehint_ReverseColor := 9
  wintype_AllTypes := 0
  style_NUMSTYLES := 11
  buffer_font_fg := fun _ => ⟨0, 0, 0, 0⟩
  buffer_font_bg := fun _ => ⟨255, 255, 255, 0⟩
  grid_font_fg := fun _ => ⟨0, 0, 0, 0⟩
  grid_font_bg := fun _ => ⟨255, 255, 255, 0⟩

/-- The colours after `nanoglk_window_init` with the fonts of `stdStyleEnv`, before any
window is open. -/
def initStyleState : StyleState :=
  nanoglk_window_init stdStyleEnv
    { next_buffer_fg := fun _ => ⟨0, 0, 0, 0⟩, next_buffer_bg := fun _ => ⟨0, 0, 0, 0⟩,
      next_buffer_rev := fun _ => 0, next_grid_fg := fun _ => ⟨0, 0, 0, 0⟩,
      next_grid_bg := fun _ => ⟨0, 0, 0, 0⟩, next_grid_rev := fun _ => 0,
      win_fg := fun _ _ => ⟨0, 0, 0, 0⟩, win_bg := fun _ _ => ⟨0, 0, 0, 0⟩ }

instance (F : StyleEnv) (c : StyleCall) : Decidable (c.StyleValid F) := by
  cases c <;> unfold StyleCall.StyleValid <;> infer_instance

instance (win : Nat) (c : StyleCall) : Decidable (c.Opens win) := by
  cases c <;> unfold StyleCall.Opens <;> infer_instance

/-! ## 16-bit strings (`string.c`) -/

/-- Embedding of `nano_strcmp16(s1, s2)`.  A 0-terminated string is the list of its
characters before the terminating 0. -/
def nano_strcmp16 : List Nat → List Nat → Int
  | [], [] => 0
  | [], b :: _ => 0 - (b : Int)
  | a :: _, [] => (a : Int) - 0
  | a :: r1, b :: r2 => if a ≠ 0 ∧ a = b then nano_strcmp16 r1 r2 else (a : Int) - (b : Int)

/-- No character of the string is 0. -/
def NonZero (s : List Nat) : Prop := ∀ c ∈ s, c ≠ 0

instance (s : List Nat) : Decidable (NonZero s) := by
  unfold NonZero; infer_instance

namespace wintextbuffer

/-! ### The input history of `nanoglk_wintextbuffer_get_line16` -/

/-- `MAX_HISTORY`: the capacity of the input history. -/
def MAX_HISTORY : Nat := 100

/-- The keys that the loop of `nanoglk_wintextbuffer_get_line16` tells apart. -/
inductive Key where
  | RETURN : Key
  | UP : Key
  | DOWN : Key
  | other : Key
deriving DecidableEq, Repr

/-- What one call of `nano_input_text16` hands back to the loop: the text as the
user has left it (`none`: as it was passed) and the event that ended the
call, a key press (`some`) or an event of another type (`none`).  The type
allows every text and every key; which of them `nano_input_text16` really
hands back is described by `nano_input_text16` and `get_line16_events` below:
it consumes `SDLK_UP` and `SDLK_DOWN` itself, and a key whose scancode is a
printable character is inserted into the text. -/
structure InputEvent where
  edited : Option (List Nat)
  key : Option Key
deriving DecidableEq, Repr

/-- The input history (`history`, the oldest entry first; `num_history` is its
length) and the variables of the loop of `nanoglk_wintextbuffer_get_line16`: the
buffer `text`, `history_pos`, `history_repl`; `shown` lists the texts with
which `nano_input_text16` has been called, which it displays. -/
structure LineInput where
  history : List (List Nat)
  text : List Nat
  history_pos : Nat
  history_repl : Nat → Option (List Nat)
  shown : List (List Nat)

/-- The block "History buffer is full: remove oldest entry" at the start of
`nanoglk_wintextbuffer_get_line16`. -/
def history_evict (history : List (List Nat)) : List (List Nat) :=
  if history.length ≥ MAX_HISTORY then (history.drop 1).take (MAX_HISTORY - 1) else history

/-- The state in which the loop of `nanoglk_wintextbuffer_get_line16` is entered, for
the history and the contents of `text` at the call. -/
def line_input_start (history : List (List Nat)) (text : List Nat) : LineInput :=
  { history := history_evict history, text := text,
    history_pos := (history_evict history).length,
    history_repl := fun _ => none, shown := [] }

/-- The text displayed for the position `pos`: the changed entry if there is
one, else the entry of the history.  `none`: `history[pos]` is read beyond
the entries of the history, or the text does not fit in the buffer of
`max_len` characters. -/
def history_entry (max_len : Nat) (s : LineInput) (pos : Nat) : Option (List Nat) :=
  match s.history_repl pos with
  | some t => if t.length ≤ max_len then some t else none
  | none =>
    match s.history.get? pos with
    | some t => if t.length ≤ max_len then some t else none
    | none => none

/-- The end of `nanoglk_wintextbuffer_get_line16` for the key `SDLK_RETURN`: the
history after the line `text` has been submitted. -/
def history_submit (history : List (List Nat)) (text : List Nat) : List (List Nat) :=
  if text ≠ [] ∧
      (history.length = 0 ∨
        nano_strcmp16 text (history.getD (history.length - 1) []) ≠ 0) then
    history ++ [text]
  else history

/-- The result of the loop: the call has returned with the given history and
text, or it waits for the next event. -/
inductive LineOutcome where
  | returned (history : List (List Nat)) (text : List Nat) : LineOutcome
  | waiting (s : LineInput) : LineOutcome

/-- One turn of the loop after `nano_input_text16` has handed back `e`: the
`switch` on the key of the event.  `none`: an access outside an array.  The
branches of `SDLK_UP` and `SDLK_DOWN` are part of the source and of this
function, though `nano_input_text16` never hands back these keys
(`nano_input_text16_turn_not_up_down`). -/
def line_input_step (max_len : Nat) (s : LineInput) (e : InputEvent) : Option LineOutcome :=
  let text := e.edited.getD s.text
  let s1 : LineInput := { s with text := text }
  match e.key with
  | some .RETURN => some (.returned (history_submit s.history text) text)
  | some .UP =>
    if s1.history_pos > 0 then
      let s2 : LineInput :=
        { s1 with history_repl := Function.update s1.history_repl s1.history_pos (some text),
                  history_pos := s1.history_pos - 1 }
      match history_entry max_len s2 s2.history_pos with
      | none => none
      | some t => some (.waiting { s2 with text := t })
    else some (.waiting s1)
  | some .DOWN =>
    if s1.history_pos < s1.history.length then
      let s2 : LineInput :=
        { s1 with history_repl := Function.update s1.history_repl s1.history_pos (some text),
                  history_pos := s1.history_pos + 1 }
      match history_entry max_len s2 s2.history_pos with
      | none => none
      | some t => some (.waiting { s2 with text := t })
    else some (.waiting s1)
  | some .other => some (.waiting s1)
  | none => some (.waiting s1)

/-- The loop of `nanoglk_wintextbuffer_get_line16` for the events that the calls of
`nano_input_text16` hand back, one after the other. -/
def line_input_loop (max_len : Nat) : LineInput → List InputEvent → Option LineOutcome
  | s, [] => some (.waiting { s with shown := s.shown ++ [s.text] })
  | s, e :: es =>
    match line_input_step max_len { s with shown := s.shown ++ [s.text] } e with
    | none => none
    | some (.returned history text) => some (.returned history text)
    | some (.waiting s1) => line_input_loop max_len s1 es

/-- The input history in `nanoglk_wintextbuffer_get_line16(win, text, max_len, max_char)`. -/
def get_line16_history (max_len : Nat) (history : List (List Nat)) (text : List Nat)
    (events : List InputEvent) : Option LineOutcome :=
  line_input_loop max_len (line_input_start history text) events

/-- The texts displayed so far, for a call that waits. -/
def LineOutcome.shown : LineOutcome → List (List Nat)
  | .returned _ _ => []
  | .waiting s => s.shown

/-- The history as the call has left it (on return) or holds it (while it
waits). -/
def LineOutcome.history : LineOutcome → List (List Nat)
  | .returned history _ => history
  | .waiting s => s.history

/-- A key press without a change of the text. -/
def press (k : Key) : InputEvent := ⟨none, some k⟩

/-- The line "foo". -/
def foo : List Nat := [102, 111, 111]

/-- The line "bar". -/
def bar : List Nat := [98, 97, 114]

end wintextbuffer

namespace wintextbuffer

/-- The text that an event carries fits in the buffer and contains no 0. -/
def InputEvent.Fits (max_len : Nat) (e : InputEvent) : Prop :=
  ∀ t, e.edited = some t → t.length ≤ max_len ∧ NonZero t

instance (max_len : Nat) (e : InputEvent) : Decidable (e.Fits max_len) := by
  unfold InputEvent.Fits
  cases e.edited with
  | none => exact isTrue (fun t h => by cases h)
  | some u =>
    exact decidable_of_iff (u.length ≤ max_len ∧ NonZero u)
      ⟨fun h t ht => by cases ht; exact h, fun h => h u rfl⟩

/-- What holds of the variables of the loop of `nanoglk_wintextbuffer_get_line16`
whenever `nano_input_text16` is called, `H` being the history at the start
of the loop. -/
structure LineInv (max_len : Nat) (H : List (List Nat)) (s : LineInput) : Prop where
  hist : s.history = H
  pos_le : s.history_pos ≤ H.length
  repl_end : s.history_pos < H.length → ∃ t, s.history_repl H.length = some t
  text_fit : s.text.length ≤ max_len
  repl_fit : ∀ i t, s.history_repl i = some t → t.length ≤ max_len
  text_nz : NonZero s.text
  repl_nz : ∀ i t, s.history_repl i = some t → NonZero t

/-- A full history: the 100 lines of one character 1, 2, ..., 100. -/
def fullHistory : List (List Nat) := (List.range 100).map (fun i => [i + 1])

end wintextbuffer

namespace wintextbuffer

end wintextbuffer

/-! ## Configuration (`conf.c`) -/

namespace conf

/-- A component of a pattern: a string, `CONF_WILD_ONE` ("?") or
`CONF_WILD_ANY` ("*"). -/
inductive Component where
  | lit (s : String) : Component
  | CONF_WILD_ONE : Component
  | CONF_WILD_ANY : Component
deriving DecidableEq, Repr

/-- Embedding of `struct node`: a definition of the configuration.  The value may be
`NULL`. -/
structure node where
  pattern : List Component
  value : Option String
  specifity : Nat
deriving DecidableEq, Repr

/-- Embedding of `specifity(pattern)`.  (The sum stays in the range of `int` for
patterns of up to 214748 components; `read_line` makes patterns of at most
64.) -/
def specifity : List Component → Nat
  | [] => 0
  | .CONF_WILD_ANY :: rest => 1 + specifity rest
  | .CONF_WILD_ONE :: rest => 100 + specifity rest
  | .lit _ :: rest => 10000 + specifity rest

/-- Embedding of `new_node(pattern, value)`. -/
def new_node (pattern : List Component) (value : Option String) : node :=
  { pattern := pattern, value := value, specifity := specifity pattern }

/-- The loop of `match` for "*": whether the rest of the pattern, tested by
`m`, matches `path + i` for some `i` with `path[i]` not `NULL`. -/
def match_any (m : List String → Bool) : List String → Bool
  | [] => false
  | p :: path => m (p :: path) || match_any m path

/-- Embedding of `match(pattern, path)`: whether a path matches a pattern. -/
def conf_match : List Component → List String → Bool
  | [], path => path.isEmpty
  | .CONF_WILD_ONE :: pattern, path =>
    match path with
    | [] => false
    | _ :: rest => conf_match pattern rest
  | .CONF_WILD_ANY :: pattern, path =>
    if pattern.isEmpty then true else match_any (conf_match pattern) path
  | .lit s :: pattern, path =>
    match path with
    | [] => false
    | p :: rest => p = s && conf_match pattern rest

/-- The loop of `nano_conf_put`: the new node is linked in before the first
node that is not more specific, or at the end. -/
def conf_insert (n : node) : List node → List node
  | [] => [n]
  | i :: rest =>
    if i.specifity ≤ n.specifity then n :: i :: rest else i :: conf_insert n rest

/-- Embedding of `nano_conf_put(conf, pattern, value)`; a configuration is the list of
its nodes, from `conf->first`. -/
def nano_conf_put (conf : List node) (pattern : List Component) (value : Option String) :
    List node :=
  conf_insert (new_node pattern value) conf

/-- Embedding of `nano_conf_get(conf, path, def)`. -/
def nano_conf_get : List node → List String → Option String → Option String
  | [], _, d => d
  | i :: rest, path, d => if conf_match i.pattern path then i.value else nano_conf_get rest path d

/-- Embedding of `nano_conf_init()` followed by a call of `nano_conf_put` for each of the
definitions, in their order. -/
def conf_of (puts : List (List Component × Option String)) : List node :=
  puts.foldl (fun c pv => nano_conf_put c pv.1 pv.2) []

/-- The matching of the specification: a literal component consumes one equal
component of the path, "?" one component, "*" none or more. -/
inductive Matches : List Component → List String → Prop where
  | nil : Matches [] []
  | lit (s : String) (pattern : List Component) (path : List String) :
    Matches pattern path → Matches (.lit s :: pattern) (s :: path)
  | one (p : String) (pattern : List Component) (path : List String) :
    Matches pattern path → Matches (.CONF_WILD_ONE :: pattern) (p :: path)
  | any_none (pattern : List Component) (path : List String) :
    Matches pattern path → Matches (.CONF_WILD_ANY :: pattern) path
  | any_more (p : String) (pattern : List Component) (path : List String) :
    Matches (.CONF_WILD_ANY :: pattern) path → Matches (.CONF_WILD_ANY :: pattern) (p :: path)

/-- The definitions of `conftest.c`: a.*.c = val1, a.?.c = val2, a.b.c = val3. -/
def testPuts : List (List Component × Option String) :=
  [([.lit "a", .CONF_WILD_ANY, .lit "c"], some "val1"),
   ([.lit "a", .CONF_WILD_ONE, .lit "c"], some "val2"),
   ([.lit "a", .lit "b", .lit "c"], some "val3")]

end conf

/-! ## Windows and the event queue together -/

/-- A call of the window interface or of the event interface. -/
inductive GlkCall where
  | window (c : WinCall) : GlkCall
  | event (c : EvCall) : GlkCall
deriving DecidableEq, Repr

/-- Run a sequence of calls on the window tree and the event queue: the events
delivered by the `glk_select` calls, in order, and the final states; `none`
when a call fails.  `glk_window_open` and `glk_window_close` contain no access to
the queue, and the queue functions none to the tree. -/
def glk_run (E : Env) (fuel : Nat) :
    WinState → EvState → List GlkCall → Option (List event_t × WinState × EvState)
  | ws, es, [] => some ([], ws, es)
  | ws, es, .window c :: cs =>
    match run_calls E fuel ws [c] with
    | none => none
    | some ws1 => glk_run E fuel ws1 es cs
  | ws, es, .event c :: cs =>
    match ev_step E fuel es c with
    | none => none
    | some (ev, es1) =>
      match glk_run E fuel ws es1 cs with
      | none => none
      | some (evs, ws2, es2) => some (ev.toList ++ evs, ws2, es2)

/-! ## Memory streams (`stream.c`) -/

namespace stream

/-- The values of `seekmode_Start`, `seekmode_Current` and `seekmode_End` of `glk.h`. -/
structure SeekEnv where
  seekmode_Start : Nat
  seekmode_Current : Nat
  seekmode_End : Nat

/-- The values of `glk.h` (Glk API 0.7.x). -/
def stdSeekEnv : SeekEnv := ⟨0, 1, 2⟩

/-- A stream of type `streamtype_Buffer`: the fields `x.buf.pos` and `x.buf.len` (both
`int`; sums and differences are taken to stay in its range), whether
`x.buf.b.u8` is not `NULL`, and the memory that `x.buf.b.u8` points into, by
the index relative to it: the buffer is the indices from 0 to `len - 1`.
`stored` and `fetched` list the indices at which the stream has written and
read. -/
structure BufStream where
  has_buf : Bool
  pos : Int
  len : Int
  mem : Int → Nat
  stored : List Int
  fetched : List Int

/-- Embedding of `glk_stream_open_memory(buf, buflen, fmode, rock)` for a buffer in the memory
`mem`. -/
def glk_stream_open_memory (mem : Int → Nat) (has_buf : Bool) (buflen : Nat) : BufStream :=
  { has_buf := has_buf, pos := 0, len := toInt32 buflen, mem := mem, stored := [],
    fetched := [] }

/-- Embedding of `put_char_uni(str, ch)` for `streamtype_Buffer`; the character is stored in a
`char`. -/
def put_char_uni (str : BufStream) (ch : Nat) : BufStream :=
  let str1 : BufStream :=
    if str.has_buf = true ∧ str.pos < str.len then
      { str with mem := Function.update str.mem str.pos (ch % 256),
                 stored := str.stored ++ [str.pos] }
    else str
  { str1 with pos := str1.pos + 1 }

/-- The value of a `char` as a `glsi32`. -/
def char_value (b : Nat) : Int :=
  if b % 256 < 128 then ((b % 256 : Nat) : Int) else ((b % 256 : Nat) : Int) - 256

/-- Embedding of `get_char_uni(str)` for `streamtype_Buffer`: the value returned and the
stream. -/
def get_char_uni (str : BufStream) : Int × BufStream :=
  if str.has_buf = true ∧ str.pos < str.len then
    (char_value (str.mem str.pos),
     { str with fetched := str.fetched ++ [str.pos], pos := str.pos + 1 })
  else (-1, str)

/-- Embedding of `glk_get_buffer_stream(str, buf, len)` for `streamtype_Buffer`: the characters
copied to `buf` (their number is the value returned) and the stream. -/
def glk_get_buffer_stream : BufStream → Nat → List Nat × BufStream
  | str, 0 => ([], str)
  | str, len + 1 =>
    if str.has_buf = true ∧ str.pos < str.len then
      let r := glk_get_buffer_stream
        { str with fetched := str.fetched ++ [str.pos], pos := str.pos + 1 } len
      (str.mem str.pos :: r.1, r.2)
    else ([], str)

/-- Embedding of `glk_stream_set_position(str, pos, seekmode)` for `streamtype_Buffer`; `none`
is `nano_fail`. -/
def glk_stream_set_position (K : SeekEnv) (str : BufStream) (pos : Int) (seekmode : Nat) :
    Option BufStream :=
  if seekmode = K.seekmode_Start then some { str with pos := pos }
  else if seekmode = K.seekmode_Current then some { str with pos := str.pos + pos }
  else if seekmode = K.seekmode_End then some { str with pos := str.len - pos }
  else none

/-- A call on a memory stream. -/
inductive StreamCall where
  | put_char (ch : Nat) : StreamCall
  | get_char : StreamCall
  | get_buffer (len : Nat) : StreamCall
  | set_position (pos : Int) (seekmode : Nat) : StreamCall
deriving DecidableEq, Repr

/-- The effect of one call on the stream. -/
def stream_step (K : SeekEnv) (str : BufStream) : StreamCall → Option BufStream
  | .put_char ch => some (put_char_uni str ch)
  | .get_char => some (get_char_uni str).2
  | .get_buffer len => some (glk_get_buffer_stream str len).2
  | .set_position pos seekmode => glk_stream_set_position K str pos seekmode

/-- The effect of a sequence of calls on the stream. -/
def stream_run (K : SeekEnv) : BufStream → List StreamCall → Option BufStream
  | str, [] => some str
  | str, c :: cs =>
    match stream_step K str c with
    | none => none
    | some str1 => stream_run K str1 cs

/-- A memory stream over a buffer of 4 characters, all memory 0. -/
def stream4 : BufStream := glk_stream_open_memory (fun _ => 0) true 4

end stream

/-- The heap `geomExampleHeap` with a fixed size of 150 for the right child 1:
more than the 100 rows of the pair. -/
def oversizeHeap : WinHeap := fun a =>
  if a = 0 then
    some { parent := some 2, left := none, right := none, method := 0, size := 0,
           wintype := 5, rock := 0, area := ⟨0, 0, 100, 100⟩ }
  else if a = 1 then
    some { parent := some 2, left := none, right := none, method := 19, size := 150,
           wintype := 5, rock := 0, area := ⟨0, 0, 100, 100⟩ }
  else if a = 2 then
    some { parent := none, left := some 0, right := some 1, method := 0, size := 0,
           wintype := 1, rock := 0, area := ⟨0, 0, 100, 100⟩ }
  else none

/-! ## UTF-8 (`string.c`) -/

/-- The inner loop of the second loop of `nano_strduputf8from16` for the character `c`,
from `j` with the given `mask`: the bytes written for `c`.  `none`: the loop has
not ended within `fuel` turns (for a 16-bit character it ends with `j` at
most 1).  The shift count `5 - j + (j + 1) * 6` of the source is written with
the subtraction last. -/
def utf8from16_char (c : Nat) : Nat → Nat → Nat → Option (List Nat)
  | 0, _, _ => none
  | fuel + 1, j, mask =>
    if c < 2 <<< (5 + (j + 1) * 6 - j) then
      some (((mask ||| (c >>> ((j + 1) * 6))) % 256) ::
        List.replicate (j + 1) ((0x80 ||| ((c >>> (j * 6)) &&& 0x3f)) % 256))
    else utf8from16_char c fuel (j + 1) (0x80 ||| (mask >>> 1))

/-- Embedding of `nano_strduputf8from16(src)`: the bytes of the result before the
terminating 0, for the 16-bit string `src`.  (The first loop of the function
computes the number of these bytes, with the same tests.) -/
def nano_strduputf8from16 : List Nat → Option (List Nat)
  | [] => some []
  | c :: rest =>
    if c = 0 then some []
    else
      match (if c < 0x80 then some [c] else utf8from16_char c 4 0 0xc0),
          nano_strduputf8from16 rest with
      | some bytes, some more => some (bytes ++ more)
      | _, _ => none

/-- The loop of `nano_strdup16fromutf8` that finds the length of a sequence from its
first byte `b`: the number `j` of bytes that follow and the `mask`. -/
def utf8_lead (b : Nat) : Nat → Nat → Nat → Nat → Option (Nat × Nat)
  | 0, _, _, _ => none
  | fuel + 1, j, mask, bits =>
    if j < 7 then
      if b &&& mask = bits then some (j, mask)
      else utf8_lead b fuel (j + 1) (0x80 ||| (mask >>> 1)) (0x80 ||| (bits >>> 1))
    else none

/-- The loop of `nano_strdup16fromutf8` over the `k` bytes that follow the first byte
of a sequence: the character, which is stored in a `Uint16`, and the rest of
the string; `none` if one of the bytes is not of the form 10xxxxxx. -/
def utf8_cont : Nat → Nat → List Nat → Option (Nat × List Nat)
  | 0, acc, src => some (acc, src)
  | _ + 1, _, [] => none
  | k + 1, acc, b :: src =>
    if b &&& 0xc0 = 0x80 then utf8_cont k (((acc <<< 6) ||| (b &&& 0x3f)) % 65536) src
    else none

/-- The loops of `nano_strdup16fromutf8` over the string; every turn takes at least
one byte, and `fuel` is at least the number of bytes. -/
def utf8_decode : Nat → List Nat → Option (List Nat)
  | 0, _ => some []
  | _ + 1, [] => some []
  | fuel + 1, b :: src =>
    if b = 0 then some []
    else if b &&& 0x80 = 0 then (utf8_decode fuel src).map (fun l => b :: l)
    else
      match utf8_lead b 7 1 0xe0 0xc0 with
      | none => none
      | some (j, mask) =>
        match utf8_cont j (b &&& (255 - mask) &&& 0xff) src with
        | none => none
        | some (c, rest) => (utf8_decode fuel rest).map (fun l => c :: l)

/-- Embedding of `nano_strdup16fromutf8(src)`: the 16-bit characters of the result before
the terminating 0, for the bytes `src`; `none` is the result `NULL`.  The
loops write one character for each sequence into `dest`; a sequence that
encodes 0 (such as c0 80) writes a 0, and the result, a 0-terminated string,
ends there. -/
def nano_strdup16fromutf8 (src : List Nat) : Option (List Nat) :=
  (utf8_decode src.length src).map (fun dest => dest.takeWhile (fun c => c ≠ 0))

/-- The tests and values of the two conversions for a character `c` from U+0080
to U+07FF and the two bytes written for it. -/
def twoByteOK (c : Nat) : Bool :=
  decide (utf8from16_char c 4 0 0xc0 = some [0xc0 ||| (c >>> 6), 0x80 ||| (c &&& 0x3f)]) &&
  decide ((0xc0 ||| (c >>> 6)) ≠ 0) &&
  decide ((0xc0 ||| (c >>> 6)) &&& 0x80 ≠ 0) &&
  decide (utf8_lead (0xc0 ||| (c >>> 6)) 7 1 0xe0 0xc0 = some (1, 0xe0)) &&
  decide ((0x80 ||| (c &&& 0x3f)) &&& 0xc0 = 0x80) &&
  decide ((((((0xc0 ||| (c >>> 6)) &&& (255 - 0xe0) &&& 0xff) <<< 6) |||
    ((0x80 ||| (c &&& 0x3f)) &&& 0x3f)) % 65536) = c)

namespace conf

/-- Every component of the pattern is "*". -/
def all_any : List Component → Bool
  | [] => true
  | .CONF_WILD_ANY :: rest => all_any rest
  | _ :: _ => false

/-- Every "*" of the pattern is its last component or is followed, somewhere,
by a component other than "*": the pattern does not end with two "*". -/
def StarsLeaveRest : List Component → Prop
  | [] => True
  | c :: rest =>
    (c = .CONF_WILD_ANY → rest = [] ∨ all_any rest = false) ∧ StarsLeaveRest rest

end conf

/-- The fields of the rectangle and the coordinates of its far corner lie in
the range of `int`. -/
def SDL_Rect.InInt (r : SDL_Rect) : Prop :=
  IntRange r.x ∧ IntRange r.y ∧ IntRange r.w ∧ IntRange r.h ∧
  IntRange (r.x + r.w) ∧ IntRange (r.y + r.h)

instance (r : SDL_Rect) : Decidable r.InInt := by
  unfold SDL_Rect.InInt; infer_instance

/-- A heap with the pair 2 of area 100 x 100 at the origin, its left child 0
and its right child 1, a graphics window opened with the given method and
size. -/
def splitHeap (method size : Nat) : WinHeap := fun a =>
  if a = 0 then
    some { parent := some 2, left := none, right := none, method := 0, size := 0,
           wintype := 5, rock := 0, area := ⟨0, 0, 100, 100⟩ }
  else if a = 1 then
    some { parent := some 2, left := none, right := none, method := method, size := size,
           wintype := 5, rock := 0, area := ⟨0, 0, 100, 100⟩ }
  else if a = 2 then
    some { parent := none, left := some 0, right := some 1, method := 0, size := 0,
           wintype := 1, rock := 0, area := ⟨0, 0, 100, 100⟩ }
  else none

namespace wintextbuffer

/-! ### Line input from the events of SDL (`nano_input_text16` of `ui.c`) -/

/-- The key of a key press (`event.key.keysym.sym`) as far as the line input
tells keys apart: the case labels of the `switch` of `nano_input_text16`,
`SDLK_RETURN`, and any other key. -/
inductive Keysym where
  | SDLK_UP : Keysym
  | SDLK_DOWN : Keysym
  | SDLK_LEFT : Keysym
  | SDLK_RIGHT : Keysym
  | SDLK_BACKSPACE : Keysym
  | SDLK_DELETE : Keysym
  | SDLK_HOME : Keysym
  | SDLK_END : Keysym
  | SDLK_RETURN : Keysym
  | other : Keysym
deriving DecidableEq, Repr

/-- The part of an `SDL_Event` that the line input reads: the type of the
event and, for a key press, the key and its scancode. -/
inductive SDL_Event where
  | SDL_TEXTINPUT : SDL_Event
  | SDL_KEYDOWN (sym : Keysym) (scancode : Nat) : SDL_Event
  | other : SDL_Event
deriving DecidableEq, Repr

/-- One turn of the loop of `nano_input_text16` after `nano_wait_event` has
delivered `ev`: the text, the cursor position `pos`, and whether the function
returns, handing `ev` back to its caller (`true`), or waits for the next
event (`false`).  The character inserted by the `default` branch is the
scancode of the key, stored in a `Uint16`. -/
def nano_input_text16_turn (max_len max_char : Nat) (text : List Nat) (pos : Nat)
    (ev : SDL_Event) : List Nat × Nat × Bool :=
  match ev with
  | .SDL_TEXTINPUT => (text, pos, false)
  | .SDL_KEYDOWN .SDLK_UP _ => (text, pos, false)
  | .SDL_KEYDOWN .SDLK_DOWN _ => (text, pos, false)
  | .SDL_KEYDOWN .SDLK_LEFT _ => (text, if pos > 0 then pos - 1 else pos, false)
  | .SDL_KEYDOWN .SDLK_RIGHT _ => (text, if pos < text.length then pos + 1 else pos, false)
  | .SDL_KEYDOWN .SDLK_BACKSPACE _ =>
    if pos > 0 then (text.eraseIdx (pos - 1), pos - 1, false) else (text, pos, false)
  | .SDL_KEYDOWN .SDLK_DELETE _ =>
    if pos < text.length then (text.eraseIdx pos, pos, false) else (text, pos, false)
  | .SDL_KEYDOWN .SDLK_HOME _ => (text, 0, false)
  | .SDL_KEYDOWN .SDLK_END _ => (text, text.length, false)
  | .SDL_KEYDOWN _ c =>
    if (32 ≤ c ∧ c ≤ 126) ∨ (160 ≤ c ∧ c ≤ max_char) then
      if text.length < max_len then
        (text.take pos ++ [c % 65536] ++ text.drop pos, pos + 1, false)
      else (text, pos, false)
    else (text, pos, true)
  | .other => (text, pos, true)

/-- Embedding of `nano_input_text16(..., &event, text, max_len, max_char, ..., &state)`
for the events that `nano_wait_event` delivers, `pos` being the cursor
position at the start: the event handed back together with the events not
yet read (`none`: the call still waits after the last event), the text and
the cursor position.  The drawing is left out (it stands under
`#ifdef SDL12P`, which no source file defines), and so is the scroll offset
`ox`. -/
def nano_input_text16 (max_len max_char : Nat) :
    List Nat → Nat → List SDL_Event → Option (SDL_Event × List SDL_Event) × List Nat × Nat
  | text, pos, [] => (none, text, pos)
  | text, pos, ev :: evs =>
    match nano_input_text16_turn max_len max_char text pos ev with
    | (t, p, true) => (some (ev, evs), t, p)
    | (t, p, false) => nano_input_text16 max_len max_char t p evs

/-- The key that the `switch` of the loop of `nanoglk_wintextbuffer_get_line16`
finds in the event handed back (`none`: the event is no key press). -/
def SDL_Event.key : SDL_Event → Option Key
  | .SDL_KEYDOWN .SDLK_RETURN _ => some .RETURN
  | .SDL_KEYDOWN .SDLK_UP _ => some .UP
  | .SDL_KEYDOWN .SDLK_DOWN _ => some .DOWN
  | .SDL_KEYDOWN _ _ => some .other
  | _ => none

/-- The loop of `nanoglk_wintextbuffer_get_line16` sets `state = -1` in this turn:
the branch of `SDLK_UP` or `SDLK_DOWN` has moved in the history. -/
def state_reset (s : LineInput) (k : Option Key) : Bool :=
  (k = some .UP ∧ s.history_pos > 0) ∨ (k = some .DOWN ∧ s.history_pos < s.history.length)

/-- The loop of `nanoglk_wintextbuffer_get_line16` together with the loop of
`nano_input_text16` that it calls, for the events that `nano_wait_event`
delivers one after the other; `pos` is the cursor position of the running
call of `nano_input_text16`.  An event that `nano_input_text16` does not hand
back is one more turn of its loop; an event that it hands back goes through
`line_input_step`, after which `nano_input_text16` is called again, with the
cursor at the end of the text if `state` is -1 and where it was
otherwise.  (`state` keeps the cursor position in 15 bits; the model keeps
the position itself.) -/
def get_line16_events (max_len max_char : Nat) :
    LineInput → Nat → List SDL_Event → Option LineOutcome
  | s, _, [] => some (.waiting s)
  | s, pos, ev :: evs =>
    match nano_input_text16_turn max_len max_char s.text pos ev with
    | (t, p, false) => get_line16_events max_len max_char { s with text := t } p evs
    | (t, p, true) =>
      match line_input_step max_len { s with text := t } ⟨some t, ev.key⟩ with
      | none => none
      | some (.returned history text) => some (.returned history text)
      | some (.waiting s1) =>
        get_line16_events max_len max_char { s1 with shown := s1.shown ++ [s1.text] }
          (if state_reset { s with text := t } ev.key then s1.text.length else p) evs

/-- The line input of `nanoglk_wintextbuffer_get_line16(win, text, max_len, max_char)` for
the history and the contents of `text` at the call and the events that
`nano_wait_event` delivers during the call: the first call of
`nano_input_text16` has `state` -1, so the cursor is at the end of the text. -/
def get_line16_input (max_len max_char : Nat) (history : List (List Nat))
    (text : List Nat) (events : List SDL_Event) : Option LineOutcome :=
  get_line16_events max_len max_char
    { line_input_start history text with shown := [text] } text.length events

/-- The text of the line, for a call that waits or has returned. -/
def LineOutcome.text : LineOutcome → List Nat
  | .returned _ text => text
  | .waiting s => s.text

/-- The position in the history, for a call that waits. -/
def LineOutcome.history_pos : LineOutcome → Option Nat
  | .returned _ _ => none
  | .waiting s => some s.history_pos

/-- The key Up as SDL delivers it: `SDLK_UP` with `SDL_SCANCODE_UP`. -/
def keyUp : SDL_Event := .SDL_KEYDOWN .SDLK_UP 82

/-- The key Down as SDL delivers it: `SDLK_DOWN` with `SDL_SCANCODE_DOWN`. -/
def keyDown : SDL_Event := .SDL_KEYDOWN .SDLK_DOWN 81

end wintextbuffer

/-! # Theorems -/

/-! ### Iteration over a well-formed tree -/

theorem Shape.top {h : WinHeap} {par : Option Nat} {t : WTree} (hs : Shape h par t) :
    ∃ w, h t.addr = some w ∧ w.parent = par := by
  cases t with
  | leaf a =>
    simp only [Shape] at hs
    cases hw : h a with
    | none => simp [hw] at hs
    | some w => simp only [hw] at hs; exact ⟨w, hw, hs.1⟩
  | pair a l r =>
    simp only [Shape] at hs
    cases hw : h a with
    | none => simp [hw] at hs
    | some w => simp only [hw] at hs; exact ⟨w, hw, hs.1⟩

theorem Shape.pair_inv {h : WinHeap} {par : Option Nat} {a : Nat} {l r : WTree}
    (hs : Shape h par (.pair a l r)) :
    ∃ w, h a = some w ∧ w.parent = par ∧ w.left = some l.addr ∧ w.right = some r.addr ∧
      Shape h (some a) l ∧ Shape h (some a) r := by
  simp only [Shape] at hs
  cases hw : h a with
  | none => simp [hw] at hs
  | some w => simp only [hw] at hs; exact ⟨w, rfl, hs⟩

theorem Shape.leaf_inv {h : WinHeap} {par : Option Nat} {a : Nat}
    (hs : Shape h par (.leaf a)) :
    ∃ w, h a = some w ∧ w.parent = par ∧ w.left = none ∧ w.right = none := by
  simp only [Shape] at hs
  cases hw : h a with
  | none => simp [hw] at hs
  | some w => simp only [hw] at hs; exact ⟨w, rfl, hs⟩

theorem WTree.size_pos (t : WTree) : 0 < t.size := by
  cases t <;> simp [WTree.size]

theorem WTree.length_postorder (t : WTree) : t.postorder.length = t.size := by
  induction t with
  | leaf a => rfl
  | pair a l r ihl ihr => simp [WTree.postorder, WTree.size, ihl, ihr, Nat.add_assoc]

theorem WTree.head_postorder (t : WTree) : t.postorder.head? = some t.leftmost := by
  induction t with
  | leaf a => rfl
  | pair a l r ihl _ =>
    simp only [WTree.postorder, WTree.leftmost, List.append_assoc]
    rw [List.head?_append_of_ne_nil]
    · exact ihl
    · intro hnil
      have := l.length_postorder
      rw [hnil] at this
      have := l.size_pos
      simp_all

theorem WTree.getLast_postorder (t : WTree) : t.postorder.getLast? = some t.addr := by
  cases t <;> simp [WTree.postorder, WTree.addr]

theorem WTree.addr_mem_postorder (t : WTree) : t.addr ∈ t.postorder := by
  cases t <;> simp [WTree.postorder, WTree.addr]

theorem outer_left_window_shape {h : WinHeap} {par : Option Nat} {t : WTree} {fuel : Nat}
    (hs : Shape h par t) (hf : t.size ≤ fuel) :
    outer_left_window h fuel t.addr = some t.leftmost := by
  induction t generalizing par fuel with
  | leaf a =>
    obtain ⟨w, hw, -, hl, -⟩ := hs.leaf_inv
    cases fuel with
    | zero => simp [WTree.size] at hf
    | succ f => simp [outer_left_window, WTree.addr, WTree.leftmost, hw, hl]
  | pair a l r ihl _ =>
    obtain ⟨w, hw, -, hl, -, hsl, -⟩ := hs.pair_inv
    cases fuel with
    | zero => simp [WTree.size] at hf
    | succ f =>
      simp only [outer_left_window, WTree.addr, WTree.leftmost, hw, hl]
      exact ihl hsl (by simp [WTree.size] at hf; omega)

theorem iterNext_chain {s : WinState} {root : Nat} (hroot : s.root = some root) {fuel : Nat}
    {par : Option Nat} {t : WTree} (hs : Shape s.heap par t) (hnd : t.postorder.Nodup)
    (hf : t.size ≤ fuel) : List.Chain' (IterNext fuel s) t.postorder := by
  induction t generalizing par with
  | leaf a => simp [WTree.postorder]
  | pair a l r ihl ihr =>
    obtain ⟨w, hw, -, hl, hr, hsl, hsr⟩ := hs.pair_inv
    obtain ⟨wl, hwl, hpl⟩ := hsl.top
    obtain ⟨wr, hwr, hpr⟩ := hsr.top
    simp only [WTree.postorder] at hnd ⊢
    have hndl : l.postorder.Nodup := (List.nodup_append.1 (List.nodup_append.1 hnd).1).1
    have hndr : r.postorder.Nodup := (List.nodup_append.1 (List.nodup_append.1 hnd).1).2.1
    have hne : l.addr ≠ r.addr := by
      intro heq
      have hdis := (List.nodup_append.1 (List.nodup_append.1 hnd).1).2.2
      exact hdis l.addr_mem_postorder (heq ▸ r.addr_mem_postorder)
    have hsz : l.size ≤ fuel ∧ r.size ≤ fuel := by
      simp [WTree.size] at hf; omega
    rw [List.chain'_append, List.chain'_append]
    refine ⟨⟨ihl hsl hndl hsz.1, ihr hsr hndr hsz.2, ?_⟩, List.chain'_singleton _, ?_⟩
    · intro x hx y hy
      rw [l.getLast_postorder] at hx
      rw [r.head_postorder] at hy
      cases hx; cases hy
      simp [IterNext, glk_window_iterate, hroot, hwl, hpl, hw, hl, hr,
        outer_left_window_shape hsr hsz.2]
    · intro x hx y hy
      rw [List.getLast?_append_of_ne_nil _ (by
        intro hnil
        have := r.length_postorder
        rw [hnil] at this
        have := r.size_pos
        simp_all), r.getLast_postorder] at hx
      cases hx
      simp only [List.head?_cons, Option.mem_def, Option.some.injEq] at hy
      subst hy
      have hne2 : ¬ (l.addr = r.addr) := hne
      simp [IterNext, glk_window_iterate, hroot, hwr, hpr, hw, hl, hr, hne2]

theorem window_iterate_all_chain {fuel : Nat} {s : WinState} (l : List Nat) (a : Nat)
    (hch : List.Chain' (IterNext fuel s) (a :: l))
    (hlast : ∀ z, (a :: l).getLast? = some z → glk_window_iterate fuel s (some z) = some none) :
    window_iterate_all fuel s (l.length + 1) (some a) = some l := by
  induction l generalizing a with
  | nil =>
    have := hlast a rfl
    simp [window_iterate_all, this]
  | cons b l ih =>
    rw [List.chain'_cons] at hch
    have hstep : glk_window_iterate fuel s (some a) = some (some b) := hch.1
    have hrec := ih b hch.2 (by
      intro z hz
      apply hlast z
      rw [List.getLast?_cons_cons]
      exact hz)
    rw [List.length_cons, window_iterate_all, hstep]
    simp only [hrec, Option.map_some']

/-- C1: on a well-formed window tree (possibly empty), the loop that starts
with `glk_window_iterate(NULL)` and feeds every returned window back in
returns the windows of the tree in post-order, every window exactly once, and
then `NULL`; it needs exactly one call more than there are windows.  The
first window is the leftmost leaf of the root, the last one is the root, and
on the empty tree the first call returns `NULL`. -/
theorem glk_window_iterate_postorder (s : WinState) (ot : Option WTree) (fuel : Nat)
    (hwf : WellFormed s ot) (hfuel : (postorderOf ot).length ≤ fuel) :
    window_iterate_all fuel s ((postorderOf ot).length + 1) none = some (postorderOf ot) ∧
    (postorderOf ot).Nodup ∧
    (ot = none → glk_window_iterate fuel s none = some none) ∧
    (∀ t, ot = some t →
      glk_window_iterate fuel s none = some (some t.leftmost) ∧
      t.postorder.getLast? = some t.addr ∧
      glk_window_iterate fuel s (some t.addr) = some none) := by
  cases ot with
  | none =>
    have hroot : s.root = none := hwf
    refine ⟨?_, List.nodup_nil, ?_, ?_⟩
    · simp [postorderOf, window_iterate_all, glk_window_iterate, hroot]
    · intro _; simp [glk_window_iterate, hroot]
    · intro t ht; cases ht
  | some t =>
    obtain ⟨hroot, hs, hnd⟩ := hwf
    have hsz : t.size ≤ fuel := by
      have := t.length_postorder
      simp only [postorderOf] at hfuel
      omega
    have hfirst : glk_window_iterate fuel s none = some (some t.leftmost) := by
      simp [glk_window_iterate, hroot, outer_left_window_shape hs hsz]
    have hlast : glk_window_iterate fuel s (some t.addr) = some none := by
      obtain ⟨w, hw, hp⟩ := hs.top
      simp [glk_window_iterate, hroot, hw, hp]
    refine ⟨?_, hnd, ?_, ?_⟩
    · obtain ⟨rest, hrest⟩ : ∃ rest, t.postorder = t.leftmost :: rest := by
        have hh := t.head_postorder
        cases hpo : t.postorder with
        | nil => rw [hpo] at hh; cases hh
        | cons x rest =>
          rw [hpo] at hh
          simp only [List.head?_cons, Option.some.injEq] at hh
          exact ⟨rest, by rw [hh]⟩
      have hch := iterNext_chain hroot hs hnd hsz
      rw [hrest] at hch
      have hall := window_iterate_all_chain rest t.leftmost hch (by
        intro z hz
        rw [← hrest, t.getLast_postorder] at hz
        cases hz
        exact hlast)
      simp only [postorderOf, hrest, List.length_cons]
      rw [window_iterate_all, hfirst]
      simp only [hall, Option.map_some']
    · intro h; cases h
    · intro t2 ht2
      cases ht2
      exact ⟨hfirst, t.getLast_postorder, hlast⟩

theorem iterExample_wellFormed : WellFormed iterExampleState (some iterExampleTree) := by
  refine ⟨rfl, ?_, by decide⟩
  simp [Shape, iterExampleState, iterExampleTree, WTree.addr, leafWin, pairWin]

/-- C1 at the five-window example: the windows are returned in the order
0, 1, 2, 4, 3. -/
theorem glk_window_iterate_postorder_witness :
    WellFormed iterExampleState (some iterExampleTree) ∧
    window_iterate_all 5 iterExampleState 6 none = some [0, 1, 2, 4, 3] :=
  ⟨iterExample_wellFormed,
    (glk_window_iterate_postorder iterExampleState (some iterExampleTree) 5
      iterExample_wellFormed (by decide)).1⟩

/-! ### Resizing preserves the links -/

theorem LinksEq.refl (s : WinState) : LinksEq s s := ⟨rfl, fun _ => rfl⟩

theorem LinksEq.trans {s1 s2 s3 : WinState} (h12 : LinksEq s1 s2) (h23 : LinksEq s2 s3) :
    LinksEq s1 s3 :=
  ⟨h23.1.trans h12.1, fun a => (h23.2 a).trans (h12.2 a)⟩

theorem LinksEq.lookup {s s' : WinState} (hl : LinksEq s s') {a : Nat} {w : glk_window_struct}
    (hw : s.heap a = some w) :
    ∃ w', s'.heap a = some w' ∧ w'.parent = w.parent ∧ w'.left = w.left ∧
      w'.right = w.right ∧ w'.method = w.method ∧ w'.size = w.size ∧
      w'.wintype = w.wintype ∧ w'.rock = w.rock := by
  have h := hl.2 a
  rw [hw] at h
  cases hw' : s'.heap a with
  | none => rw [hw'] at h; simp at h
  | some w' =>
    rw [hw'] at h
    simp only [Option.map_some', Option.some.injEq, glk_window_struct.links] at h
    refine ⟨w', rfl, ?_⟩
    cases w; cases w'
    simp only [glk_window_struct.mk.injEq] at h
    simp only
    tauto

theorem LinksEq.lookup_none {s s' : WinState} (hl : LinksEq s s') {a : Nat}
    (hw : s.heap a = none) : s'.heap a = none := by
  have h := hl.2 a
  rw [hw] at h
  cases hw' : s'.heap a with
  | none => rfl
  | some w' => rw [hw'] at h; simp at h

theorem set_area_linksEq {s s' : WinState} {win : Nat} {area : SDL_Rect}
    (h : s.set_area win area = some s') : LinksEq s s' := by
  unfold WinState.set_area at h
  cases hw : s.heap win with
  | none => simp [hw] at h
  | some w =>
    simp only [hw, Option.some.injEq] at h
    subst h
    refine ⟨rfl, fun a => ?_⟩
    by_cases ha : a = win
    · subst ha; simp [WinHeap.set, hw, glk_window_struct.links]
    · simp [WinHeap.set, ha]

theorem set_area_isSome {s : WinState} {win : Nat} {w : glk_window_struct} (area : SDL_Rect)
    (hw : s.heap win = some w) : ∃ s', s.set_area win area = some s' := by
  simp [WinState.set_area, hw]

theorem Shape.transfer {s s' : WinState} (hl : LinksEq s s') {par : Option Nat} {t : WTree}
    (hs : Shape s.heap par t) : Shape s'.heap par t := by
  induction t generalizing par with
  | leaf a =>
    obtain ⟨w, hw, hp, hle, hr⟩ := hs.leaf_inv
    obtain ⟨w', hw', hp', hl', hr', -⟩ := hl.lookup hw
    simp only [Shape, hw']
    exact ⟨hp'.trans hp, hl'.trans hle, hr'.trans hr⟩
  | pair a l r ihl ihr =>
    obtain ⟨w, hw, hp, hle, hr, hsl, hsr⟩ := hs.pair_inv
    obtain ⟨w', hw', hp', hl', hr', -⟩ := hl.lookup hw
    simp only [Shape, hw']
    exact ⟨hp'.trans hp, hl'.trans hle, hr'.trans hr, ihl hsl, ihr hsr⟩

theorem TreeOK.transfer_ok {E : Env} {s s' : WinState} (hl : LinksEq s s') {t : WTree}
    (hs : TreeOK E s.heap t) : TreeOK E s'.heap t := by
  induction t with
  | leaf a =>
    simp only [TreeOK] at hs ⊢
    cases hw : s.heap a with
    | none => simp [hw] at hs
    | some w =>
      obtain ⟨w', hw', -, -, -, -, -, ht, -⟩ := hl.lookup hw
      simp only [hw] at hs
      simp only [hw', ht]
      exact hs
  | pair a l r ihl ihr =>
    simp only [TreeOK] at hs ⊢
    obtain ⟨hm, hsl, hsr⟩ := hs
    refine ⟨?_, ihl hsl, ihr hsr⟩
    cases hw : s.heap r.addr with
    | none => simp [hw] at hm
    | some w =>
      obtain ⟨w', hw', -, -, -, hme, -⟩ := hl.lookup hw
      simp only [hw] at hm
      simp only [hw', hme]
      exact hm

theorem window_calc_size_px_isSome (E : Env) (area : SDL_Rect) (right : glk_window_struct)
    (hdir : ValidDir E right.method) (hdiv : ValidDivision E right.method) :
    ∃ size_px, window_calc_size_px E area right = some size_px := by
  unfold window_calc_size_px
  simp only
  split_ifs <;> first | exact ⟨_, rfl⟩ | (exfalso; unfold ValidDir ValidDivision at *; tauto)

theorem window_calc_sizes_isSome (E : Env) (h : WinHeap) (pair r : Nat)
    (pw right : glk_window_struct) (la ra : SDL_Rect)
    (hp : h pair = some pw) (hr : pw.right = some r) (hrw : h r = some right)
    (hdir : ValidDir E right.method) (hdiv : ValidDivision E right.method) :
    ∃ LR, window_calc_sizes E h pair la ra = some LR := by
  obtain ⟨size_px, hsize⟩ := window_calc_size_px_isSome E pw.area right hdir hdiv
  simp only [window_calc_sizes, hp, hr, hrw, hsize]
  exact ⟨_, rfl⟩

theorem window_resize_not_pair (E : Env) (f : Nat) (s : WinState) (win : Nat)
    (w : glk_window_struct) (area : SDL_Rect) (hw : s.heap win = some w)
    (hnp : w.wintype = E.wintype_TextBuffer ∨ w.wintype = E.wintype_TextGrid ∨
      w.wintype = E.wintype_Graphics ∨ w.wintype ≠ E.wintype_Pair) :
    ∃ s', window_resize E (f + 1) s win area = some s' ∧ LinksEq s s' := by
  obtain ⟨s1, hs1⟩ := set_area_isSome area hw
  have hl1 := set_area_linksEq hs1
  simp only [window_resize, hw]
  by_cases h1 : w.wintype = E.wintype_TextBuffer
  · rw [if_pos h1]; exact ⟨s1, hs1, hl1⟩
  rw [if_neg h1]
  by_cases h2 : w.wintype = E.wintype_TextGrid
  · rw [if_pos h2]
    by_cases h6 : s.wtg_resize_callcount + 1 = 6
    · rw [if_pos h6]
      exact ⟨_, rfl, rfl, fun _ => rfl⟩
    · rw [if_neg h6]
      have hw2 : ({ s with wtg_resize_callcount := s.wtg_resize_callcount + 1 } :
          WinState).heap win = some w := hw
      obtain ⟨s2, hs2⟩ := set_area_isSome area hw2
      refine ⟨s2, hs2, ?_⟩
      have hl2 := set_area_linksEq hs2
      exact ⟨hl2.1, hl2.2⟩
  rw [if_neg h2]
  by_cases h3 : w.wintype = E.wintype_Graphics
  · rw [if_pos h3]; exact ⟨s1, hs1, hl1⟩
  rw [if_neg h3]
  have h4 : w.wintype ≠ E.wintype_Pair := by tauto
  rw [if_neg h4]
  exact ⟨s1, hs1, hl1⟩

theorem window_resize_linksEq (E : Env) (t : WTree) :
    ∀ (fuel : Nat) (s : WinState) (par : Option Nat) (area : SDL_Rect),
      Shape s.heap par t → TreeOK E s.heap t → t.size ≤ fuel →
      ∃ s', window_resize E fuel s t.addr area = some s' ∧ LinksEq s s' := by
  induction t with
  | leaf a =>
    intro fuel s par area hs hok hf
    obtain ⟨w, hw, -⟩ := hs.leaf_inv
    cases fuel with
    | zero => simp [WTree.size] at hf
    | succ f =>
      have hnp : w.wintype ≠ E.wintype_Pair := by simpa [TreeOK, hw] using hok
      exact window_resize_not_pair E f s a w area hw (Or.inr (Or.inr (Or.inr hnp)))
  | pair a l r ihl ihr =>
    intro fuel s par area hs hok hf
    obtain ⟨w, hw, -, hle, hr, hsl, hsr⟩ := hs.pair_inv
    cases fuel with
    | zero => simp [WTree.size] at hf
    | succ f =>
      have hfl : l.size ≤ f := by simp [WTree.size] at hf; omega
      have hfr : r.size ≤ f := by simp [WTree.size] at hf; omega
      by_cases hp : w.wintype = E.wintype_TextBuffer ∨ w.wintype = E.wintype_TextGrid ∨
          w.wintype = E.wintype_Graphics ∨ w.wintype ≠ E.wintype_Pair
      · exact window_resize_not_pair E f s a w area hw hp
      simp only [not_or, not_not] at hp
      obtain ⟨hp1, hp2, hp3, hp4⟩ := hp
      obtain ⟨s1, hs1⟩ := set_area_isSome area hw
      have hl1 := set_area_linksEq hs1
      obtain ⟨hrv, hokl, hokr⟩ : (match s.heap r.addr with
          | none => False
          | some rw => ValidDir E rw.method ∧ ValidDivision E rw.method) ∧
          TreeOK E s.heap l ∧ TreeOK E s.heap r := hok
      -- the state after the area of the pair has been stored
      obtain ⟨w1, hw1, -, hle1, hr1, -⟩ := hl1.lookup hw
      rw [hle] at hle1
      rw [hr] at hr1
      obtain ⟨rw0, hrw0, -⟩ := hsr.top
      obtain ⟨lw0, hlw0, -⟩ := hsl.top
      obtain ⟨rw1, hrw1, -, -, -, hrm1, -⟩ := hl1.lookup hrw0
      obtain ⟨lw1, hlw1, -⟩ := hl1.lookup hlw0
      simp only [hrw0] at hrv
      rw [← hrm1] at hrv
      obtain ⟨⟨la, ra⟩, hcalc⟩ := window_calc_sizes_isSome E s1.heap a r.addr w1 rw1
        uninit_rect uninit_rect hw1 hr1 hrw1 hrv.1 hrv.2
      have hsl1 := hsl.transfer hl1
      have hsr1 := hsr.transfer hl1
      have hokl1 := hokl.transfer_ok hl1
      have hokr1 := hokr.transfer_ok hl1
      have hbody : ∃ s', window_rearrange_with E (window_resize E f) s1 a = some s' ∧
          LinksEq s1 s' := by
        simp only [window_rearrange_with, hcalc, hw1, hle1, hr1, hrw1, hlw1]
        split_ifs
        · obtain ⟨s2, hs2, hl2⟩ := ihl f s1 (some a) la hsl1 hokl1 hfl
          obtain ⟨w2, hw2, -, -, hr2, -⟩ := hl2.lookup hw1
          rw [hr1] at hr2
          obtain ⟨s3, hs3, hl3⟩ := ihr f s2 (some a) ra (hsr1.transfer hl2)
            (hokr1.transfer_ok hl2) hfr
          simp only [hs2, hw2, hr2, hs3]
          exact ⟨s3, rfl, hl2.trans hl3⟩
        · obtain ⟨s2, hs2, hl2⟩ := ihr f s1 (some a) ra hsr1 hokr1 hfr
          obtain ⟨w2, hw2, -, hle2, -⟩ := hl2.lookup hw1
          rw [hle1] at hle2
          obtain ⟨s3, hs3, hl3⟩ := ihl f s2 (some a) la (hsl1.transfer hl2)
            (hokl1.transfer_ok hl2) hfl
          simp only [hs2, hw2, hle2, hs3]
          exact ⟨s3, rfl, hl2.trans hl3⟩
      obtain ⟨s', hs', hl'⟩ := hbody
      refine ⟨s', ?_, hl1.trans hl'⟩
      simp only [window_resize, WTree.addr, hw]
      rw [if_neg hp1, if_neg hp2, if_neg hp3, if_pos hp4]
      simp only [hs1, hs']

/-! ### Split geometry -/

theorem wrap32_of_range {z : Int} (h : IntRange z) : wrap32 z = z := by
  unfold IntRange at h
  unfold wrap32
  split_ifs <;> omega

theorem wrap32_range (z : Int) : IntRange (wrap32 z) := by
  unfold IntRange wrap32
  split_ifs <;> omega

theorem window_calc_size_px_range (E : Env) (area : SDL_Rect) (right : glk_window_struct)
    (size_px : Int) (h : window_calc_size_px E area right = some size_px) :
    IntRange size_px := by
  unfold window_calc_size_px at h
  simp only at h
  split_ifs at h <;> (cases h; exact wrap32_range _)

/-- C2 as stated fails where a sum or difference leaves the range of `int`.  A
pair of 100 x 100 at the origin whose right child was opened above with a
fixed size of 2147483647 pixels and a border: the right rectangle is at
y = 0 with the height 2147483647, and the y of the left rectangle,
0 + 2147483647 + 1, comes out as -2147483648, which is not behind the right
rectangle and the border.  Opened below with a fixed size of 3000000000 and a
border: the heights are -2147483549 and -2147483648 and do not add up, with
the border, to 100. -/
theorem window_calc_sizes_overflow :
    ValidDir stdEnv 18 ∧ ValidDivision stdEnv 18 ∧
    window_calc_sizes stdEnv (splitHeap 18 2147483647) 2 ⟨0, 0, 0, 0⟩ ⟨0, 0, 0, 0⟩ =
      some (⟨0, -2147483648, 100, -2147483548⟩, ⟨0, 0, 100, 2147483647⟩) ∧
    (-2147483648 : Int) ≠ 0 + 2147483647 + 1 ∧
    ValidDir stdEnv 19 ∧ ValidDivision stdEnv 19 ∧
    window_calc_sizes stdEnv (splitHeap 19 3000000000) 2 ⟨0, 0, 0, 0⟩ ⟨0, 0, 0, 0⟩ =
      some (⟨0, 0, 100, -2147483549⟩, ⟨0, -2147483548, 100, -2147483648⟩) ∧
    (-2147483549 : Int) + -2147483648 + 1 ≠ 100 := by
  refine ⟨?_, ?_, by decide, by decide, ?_, ?_, by decide, by decide⟩
  · unfold ValidDir; decide
  · unfold ValidDivision; decide
  · unfold ValidDir; decide
  · unfold ValidDivision; decide

set_option maxHeartbeats 1600000 in
/-- C2, amended: for a pair whose right child has a method with a valid
direction and sizing unit, `window_calc_sizes` returns a left and a right
rectangle that (a) have the origin and extent of the pair on the axis across
the split, (b) satisfy left extent + right extent + border = pair extent
along the split axis, the right extent being the computed size and the
border being 1 when the method of the right child requests a border and 0
otherwise, provided that the difference pair extent - size - border is in
the range of `int`, and (c) are adjacent with the border strip between them,
the right child first for above and left, the left child first for below and
right, provided that the position computed for the second of them is in the
range of `int` too.  Whenever 0 ≤ computed size ≤ pair extent - border and
the rectangle of the pair lies in the range of `int`, the two rectangles and
the border strip partition the rectangle of the pair. -/
theorem window_calc_sizes_partition (E : Env) (h : WinHeap) (pair r : Nat)
    (pw right : glk_window_struct) (la ra : SDL_Rect)
    (hE : E.LabelsDistinct) (hp : h pair = some pw) (hr : pw.right = some r)
    (hrw : h r = some right)
    (hdir : ValidDir E right.method) (hdiv : ValidDivision E right.method) :
    ∃ (size_px : Int) (L R : SDL_Rect),
      window_calc_size_px E pw.area right = some size_px ∧
      window_calc_sizes E h pair la ra = some (L, R) ∧
      ∀ border : Int,
        border = (if right.method &&& E.winmethod_BorderMask = E.winmethod_Border
          then 1 else 0) →
        ((right.method &&& E.winmethod_DirMask = E.winmethod_Above ∨
          right.method &&& E.winmethod_DirMask = E.winmethod_Below) →
            L.x = pw.area.x ∧ L.w = pw.area.w ∧ R.x = pw.area.x ∧ R.w = pw.area.w ∧
            R.h = size_px ∧
            (IntRange (pw.area.h - size_px - border) → L.h + R.h + border = pw.area.h)) ∧
        (right.method &&& E.winmethod_DirMask = E.winmethod_Above →
            R.y = pw.area.y ∧
            (IntRange (pw.area.y + size_px + border) → L.y = R.y + R.h + border)) ∧
        (right.method &&& E.winmethod_DirMask = E.winmethod_Below →
            L.y = pw.area.y ∧
            (IntRange (pw.area.h - size_px - border) →
              IntRange (pw.area.y + pw.area.h - size_px) → R.y = L.y + L.h + border)) ∧
        ((right.method &&& E.winmethod_DirMask = E.winmethod_Left ∨
          right.method &&& E.winmethod_DirMask = E.winmethod_Right) →
            L.y = pw.area.y ∧ L.h = pw.area.h ∧ R.y = pw.area.y ∧ R.h = pw.area.h ∧
            R.w = size_px ∧
            (IntRange (pw.area.w - size_px - border) → L.w + R.w + border = pw.area.w)) ∧
        (right.method &&& E.winmethod_DirMask = E.winmethod_Left →
            R.x = pw.area.x ∧
            (IntRange (pw.area.x + size_px + border) → L.x = R.x + R.w + border)) ∧
        (right.method &&& E.winmethod_DirMask = E.winmethod_Right →
            L.x = pw.area.x ∧
            (IntRange (pw.area.w - size_px - border) →
              IntRange (pw.area.x + pw.area.w - size_px) → R.x = L.x + L.w + border)) ∧
        ((0 ≤ size_px ∧ pw.area.InInt ∧
          ((right.method &&& E.winmethod_DirMask = E.winmethod_Above ∨
            right.method &&& E.winmethod_DirMask = E.winmethod_Below) →
              size_px ≤ pw.area.h - border) ∧
          ((right.method &&& E.winmethod_DirMask = E.winmethod_Left ∨
            right.method &&& E.winmethod_DirMask = E.winmethod_Right) →
              size_px ≤ pw.area.w - border)) →
          Partitions pw.area L R (window_draw_border_rect E right.method R)) := by
  obtain ⟨hd, hfp, -⟩ := hE
  simp only [List.nodup_cons, List.mem_cons, List.mem_singleton, not_or, List.not_mem_nil,
    not_false_eq_true, List.nodup_nil, and_true] at hd
  obtain ⟨⟨hLR, hLA, hLB⟩, ⟨hRA, hRB⟩, hAB⟩ := hd
  obtain ⟨size_px, hsize⟩ := window_calc_size_px_isSome E pw.area right hdir hdiv
  obtain ⟨⟨L, R⟩, hLRres⟩ := window_calc_sizes_isSome E h pair r pw right la ra hp hr hrw
    hdir hdiv
  refine ⟨size_px, L, R, hsize, hLRres, ?_⟩
  intro border hborder
  simp only [window_calc_sizes, hp, hr, hrw, hsize, Option.some.injEq, window_border,
    BORDER_WIDTH, ← hborder] at hLRres
  have hb : border = 0 ∨ border = 1 := by
    rw [hborder]; split <;> simp
  rcases hdir with hx | hx | hx | hx
  all_goals
    simp only [hx, true_or, or_true, if_true, Ne.symm hLA, Ne.symm hLB, Ne.symm hRA,
      Ne.symm hRB, Ne.symm hAB, Ne.symm hLR, hLR, hLA, hLB, hRA, hRB, hAB, or_self,
      if_false, Prod.mk.injEq] at hLRres
    obtain ⟨hL, hR⟩ := hLRres
    subst hL hR
    refine ⟨?_, ?_, ?_, ?_, ?_, ?_, ?_⟩
    iterate 6
      · intro hcase
        first
        | (simp only [hx, Ne.symm hLA, Ne.symm hLB, Ne.symm hRA, Ne.symm hRB, Ne.symm hAB,
            Ne.symm hLR, hLR, hLA, hLB, hRA, hRB, hAB, or_self] at hcase; done)
        | (refine ⟨rfl, rfl, rfl, rfl, rfl, fun h1 => ?_⟩
           have e1 := wrap32_of_range h1
           dsimp only
           omega)
        | (refine ⟨rfl, fun h1 => ?_⟩
           have e1 := wrap32_of_range h1
           dsimp only
           omega)
        | (refine ⟨rfl, fun h1 h2 => ?_⟩
           have e1 := wrap32_of_range h1
           have e2 := wrap32_of_range h2
           dsimp only
           omega)
    · rintro ⟨h0, ⟨rx, ry, rw, rh, rxw, ryh⟩, h1, h2⟩
      unfold IntRange at rx ry rw rh rxw ryh
      have hh : size_px ≤ pw.area.h - border →
          wrap32 (pw.area.h - size_px - border) = pw.area.h - size_px - border ∧
          wrap32 (pw.area.y + size_px + border) = pw.area.y + size_px + border ∧
          wrap32 (pw.area.y + pw.area.h - size_px) = pw.area.y + pw.area.h - size_px :=
        fun hf => ⟨wrap32_of_range ⟨by omega, by omega⟩,
          wrap32_of_range ⟨by omega, by omega⟩, wrap32_of_range ⟨by omega, by omega⟩⟩
      have hw : size_px ≤ pw.area.w - border →
          wrap32 (pw.area.w - size_px - border) = pw.area.w - size_px - border ∧
          wrap32 (pw.area.x + size_px + border) = pw.area.x + size_px + border ∧
          wrap32 (pw.area.x + pw.area.w - size_px) = pw.area.x + pw.area.w - size_px :=
        fun hf => ⟨wrap32_of_range ⟨by omega, by omega⟩,
          wrap32_of_range ⟨by omega, by omega⟩, wrap32_of_range ⟨by omega, by omega⟩⟩
      first
      | (have hf := h1 (Or.inl hx); obtain ⟨e1, e2, e3⟩ := hh hf)
      | (have hf := h1 (Or.inr hx); obtain ⟨e1, e2, e3⟩ := hh hf)
      | (have hf := h2 (Or.inl hx); obtain ⟨e1, e2, e3⟩ := hw hf)
      | (have hf := h2 (Or.inr hx); obtain ⟨e1, e2, e3⟩ := hw hf)
      clear hh hw h1 h2
      intro px py
      unfold window_draw_border_rect
      by_cases hbm : right.method &&& E.winmethod_BorderMask = E.winmethod_Border
      · have hb1 : border = 1 := by rw [hborder]; simp [hbm]
        subst hb1
        simp only [hbm, if_true, hx, Ne.symm hLA, Ne.symm hLB, Ne.symm hRA,
          Ne.symm hRB, Ne.symm hAB, Ne.symm hLR, hLR, hLA, hLB, hRA, hRB, hAB, if_false,
          inOptRect, SDL_Rect.Contains, BORDER_WIDTH]
        omega
      · have hb0 : border = 0 := by rw [hborder]; simp [hbm]
        subst hb0
        simp only [hbm, if_false, inOptRect, SDL_Rect.Contains, or_false, and_false,
          not_false_eq_true, and_true]
        omega

/-- C2 at a 100 x 100 pair split below with a fixed size of 40 and a border:
the left child gets the rows 0 to 58, the border strip is row 59 and the
right child gets the rows 60 to 99. -/
theorem window_calc_sizes_partition_witness :
    stdEnv.LabelsDistinct ∧ ValidDir stdEnv 19 ∧ ValidDivision stdEnv 19 ∧
    window_calc_sizes stdEnv geomExampleHeap 2 ⟨0, 0, 0, 0⟩ ⟨0, 0, 0, 0⟩ =
      some (⟨0, 0, 100, 59⟩, ⟨0, 60, 100, 40⟩) ∧
    Partitions ⟨0, 0, 100, 100⟩ ⟨0, 0, 100, 59⟩ ⟨0, 60, 100, 40⟩ (some ⟨0, 59, 100, 1⟩) := by
  have hE : stdEnv.LabelsDistinct := by decide
  have hd : ValidDir stdEnv 19 := by unfold ValidDir; decide
  have hv : ValidDivision stdEnv 19 := by unfold ValidDivision; decide
  have hres : window_calc_sizes stdEnv geomExampleHeap 2 ⟨0, 0, 0, 0⟩ ⟨0, 0, 0, 0⟩ =
      some (⟨0, 0, 100, 59⟩, ⟨0, 60, 100, 40⟩) := by decide
  obtain ⟨sz, L, R, hsz, hLR, hall⟩ :=
    window_calc_sizes_partition stdEnv geomExampleHeap 2 1 _ _ ⟨0, 0, 0, 0⟩ ⟨0, 0, 0, 0⟩
      hE rfl rfl rfl hd hv
  have hsz40 : sz = 40 := by
    have h40 : window_calc_size_px stdEnv ⟨0, 0, 100, 100⟩
        { parent := some 2, left := none, right := none, method := 19, size := 40,
          wintype := 5, rock := 0, area := ⟨0, 0, 100, 100⟩ } = some 40 := by decide
    rw [h40] at hsz
    exact (Option.some.inj hsz).symm
  rw [hres] at hLR
  obtain ⟨hL, hR⟩ := Prod.mk.inj (Option.some.inj hLR)
  subst hL hR hsz40
  refine ⟨hE, hd, hv, hres, ?_⟩
  have hpart := (hall 1 (by decide)).2.2.2.2.2.2 (by decide)
  exact hpart

/-! ### Opening a window -/

theorem Shape.live {h : WinHeap} {par : Option Nat} {t : WTree} (hs : Shape h par t) :
    ∀ a ∈ t.postorder, ∃ w, h a = some w := by
  induction t generalizing par with
  | leaf a0 =>
    intro a ha
    obtain ⟨w, hw, -⟩ := hs.leaf_inv
    simp only [WTree.postorder, List.mem_singleton] at ha
    subst ha
    exact ⟨w, hw⟩
  | pair a0 l r ihl ihr =>
    intro a ha
    obtain ⟨w, hw, -, -, -, hsl, hsr⟩ := hs.pair_inv
    simp only [WTree.postorder, List.mem_append, List.mem_singleton] at ha
    rcases ha with (ha | ha) | ha
    · exact ihl hsl a ha
    · exact ihr hsr a ha
    · subst ha; exact ⟨w, hw⟩

theorem WTree.nodup_pair {a : Nat} {l r : WTree} (hnd : (WTree.pair a l r).postorder.Nodup) :
    l.postorder.Nodup ∧ r.postorder.Nodup ∧ a ∉ l.postorder ∧ a ∉ r.postorder := by
  simp only [WTree.postorder] at hnd
  have h1 := List.nodup_append.1 hnd
  have h2 := List.nodup_append.1 h1.1
  refine ⟨h2.1, h2.2.1, ?_, ?_⟩
  · intro ha
    exact h1.2.2 (List.mem_append_left _ ha) (List.mem_singleton_self a)
  · intro ha
    exact h1.2.2 (List.mem_append_right _ ha) (List.mem_singleton_self a)

theorem Shape.child_ne_top {h : WinHeap} {par : Option Nat} {t : WTree} (hs : Shape h par t)
    (hnd : t.postorder.Nodup) {a c : Nat} {w : glk_window_struct} (ha : a ∈ t.postorder)
    (hw : h a = some w) (hc : w.left = some c ∨ w.right = some c) :
    c ∈ t.postorder ∧ c ≠ t.addr := by
  induction t generalizing par with
  | leaf a0 =>
    obtain ⟨w0, hw0, -, hl0, hr0⟩ := hs.leaf_inv
    simp only [WTree.postorder, List.mem_singleton] at ha
    subst ha
    rw [hw0] at hw
    cases hw
    rw [hl0, hr0] at hc
    simp at hc
  | pair a0 l r ihl ihr =>
    obtain ⟨w0, hw0, -, hl0, hr0, hsl, hsr⟩ := hs.pair_inv
    obtain ⟨hndl, hndr, hal, har⟩ := WTree.nodup_pair hnd
    simp only [WTree.postorder, List.mem_append, List.mem_singleton, WTree.addr] at ha ⊢
    rcases ha with (ha | ha) | ha
    · obtain ⟨hc1, -⟩ := ihl hsl hndl ha
      exact ⟨Or.inl (Or.inl hc1), fun heq => hal (heq ▸ hc1)⟩
    · obtain ⟨hc1, -⟩ := ihr hsr hndr ha
      exact ⟨Or.inl (Or.inr hc1), fun heq => har (heq ▸ hc1)⟩
    · subst ha
      rw [hw0] at hw
      cases hw
      rw [hl0, hr0] at hc
      rcases hc with hc | hc
      · cases hc
        exact ⟨Or.inl (Or.inl l.addr_mem_postorder), fun heq => hal (heq ▸ l.addr_mem_postorder)⟩
      · cases hc
        exact ⟨Or.inl (Or.inr r.addr_mem_postorder), fun heq => har (heq ▸ r.addr_mem_postorder)⟩

theorem Shape.frame {h h' : WinHeap} {par : Option Nat} {t : WTree} (hs : Shape h par t)
    (hfr : ∀ a ∈ t.postorder, h' a = h a) : Shape h' par t := by
  induction t generalizing par with
  | leaf a0 =>
    have := hfr a0 (by simp [WTree.postorder])
    simp only [Shape, this] at hs ⊢
    exact hs
  | pair a0 l r ihl ihr =>
    obtain ⟨w, hw, hp, hle, hr, hsl, hsr⟩ := hs.pair_inv
    have h0 := hfr a0 (by simp [WTree.postorder])
    simp only [Shape, h0, hw]
    refine ⟨hp, hle, hr, ihl hsl ?_, ihr hsr ?_⟩
    · intro a ha; exact hfr a (by simp [WTree.postorder, ha])
    · intro a ha; exact hfr a (by simp [WTree.postorder, ha])

theorem Shape.update_top {h h' : WinHeap} {par par' : Option Nat} {t : WTree}
    (hs : Shape h par t) (hnd : t.postorder.Nodup) {w w' : glk_window_struct}
    (hw : h t.addr = some w) (hw' : h' t.addr = some w')
    (hle : w'.left = w.left) (hr : w'.right = w.right) (hp : w'.parent = par')
    (hfr : ∀ a ∈ t.postorder, a ≠ t.addr → h' a = h a) : Shape h' par' t := by
  cases t with
  | leaf a0 =>
    obtain ⟨w0, hw0, -, hl0, hr0⟩ := hs.leaf_inv
    simp only [WTree.addr] at hw hw'
    rw [hw0] at hw
    cases hw
    simp only [Shape, hw']
    exact ⟨hp, hle.trans hl0, hr.trans hr0⟩
  | pair a0 l r =>
    obtain ⟨w0, hw0, -, hl0, hr0, hsl, hsr⟩ := hs.pair_inv
    obtain ⟨-, -, hal, har⟩ := WTree.nodup_pair hnd
    simp only [WTree.addr] at hw hw' hfr
    rw [hw0] at hw
    cases hw
    simp only [Shape, hw']
    refine ⟨hp, hle.trans hl0, hr.trans hr0, hsl.frame ?_, hsr.frame ?_⟩
    · intro a ha
      exact hfr a (by simp [WTree.postorder, ha]) (fun heq => hal (heq ▸ ha))
    · intro a ha
      exact hfr a (by simp [WTree.postorder, ha]) (fun heq => har (heq ▸ ha))

theorem TreeOK.congr {E : Env} {h h' : WinHeap} {t : WTree} (hs : TreeOK E h t)
    (hfr : ∀ a ∈ t.postorder, (h' a).map (fun w => (w.wintype, w.method)) =
      (h a).map (fun w => (w.wintype, w.method))) : TreeOK E h' t := by
  induction t with
  | leaf a0 =>
    have h0 := hfr a0 (by simp [WTree.postorder])
    simp only [TreeOK] at hs ⊢
    cases hw : h a0 with
    | none => simp [hw] at hs
    | some w =>
      cases hw' : h' a0 with
      | none => simp [hw, hw'] at h0
      | some w' =>
        simp only [hw, hw', Option.map_some', Option.some.injEq, Prod.mk.injEq] at h0 hs ⊢
        rw [h0.1]; exact hs
  | pair a0 l r ihl ihr =>
    simp only [TreeOK] at hs ⊢
    obtain ⟨hm, hsl, hsr⟩ := hs
    refine ⟨?_, ihl hsl ?_, ihr hsr ?_⟩
    · have h0 := hfr r.addr (by simp [WTree.postorder, r.addr_mem_postorder])
      cases hw : h r.addr with
      | none => simp [hw] at hm
      | some w =>
        cases hw' : h' r.addr with
        | none => simp [hw, hw'] at h0
        | some w' =>
          simp only [hw, hw', Option.map_some', Option.some.injEq, Prod.mk.injEq] at h0 hm ⊢
          rw [h0.2]; exact hm
    · intro a ha; exact hfr a (by simp [WTree.postorder, ha])
    · intro a ha; exact hfr a (by simp [WTree.postorder, ha])

theorem glk_window_open_replace_spec (s : WinState) (sp pair : Nat) (parent : Option Nat)
    (hpar : ∀ p, parent = some p →
      ∃ ppw, s.heap p = some ppw ∧ (ppw.left = some sp ∨ ppw.right = some sp)) :
    ∃ s1, glk_window_open_replace s sp pair parent = some s1 ∧
      (∀ a, parent ≠ some a → s1.heap a = s.heap a) ∧
      (parent = none → s1.root = some pair) ∧
      (∀ p ppw, parent = some p → s.heap p = some ppw →
        s1.root = s.root ∧
        s1.heap p = some (if ppw.left = some sp then { ppw with left := some pair }
          else { ppw with right := some pair })) := by
  cases parent with
  | none =>
    refine ⟨_, rfl, fun a _ => rfl, fun _ => rfl, ?_⟩
    intro p ppw hp; cases hp
  | some p =>
    obtain ⟨ppw, hppw, hchild⟩ := hpar p rfl
    by_cases hl : ppw.left = some sp
    · refine ⟨{ s with heap := s.heap.set p { ppw with left := some pair } }, ?_, ?_, ?_, ?_⟩
      · simp [glk_window_open_replace, hppw, hl]
      · intro a ha
        have : a ≠ p := fun h => ha (by rw [h])
        simp [WinHeap.set, this]
      · intro h; cases h
      · intro p' ppw' hp' hw'
        cases hp'
        rw [hppw] at hw'
        cases hw'
        simp [WinHeap.set, hl]
    · have hr : ppw.right = some sp := by tauto
      refine ⟨{ s with heap := s.heap.set p { ppw with right := some pair } }, ?_, ?_, ?_, ?_⟩
      · simp [glk_window_open_replace, hppw, hl, hr]
      · intro a ha
        have : a ≠ p := fun h => ha (by rw [h])
        simp [WinHeap.set, this]
      · intro h; cases h
      · intro p' ppw' hp' hw'
        cases hp'
        rw [hppw] at hw'
        cases hw'
        simp [WinHeap.set, hl]

/-- C6 as stated fails for a method without sizing unit: splitting the root
window 0 of `rootOnlyState` with the method `winmethod_Below` alone (3 with
the values of `stdEnv`, neither `winmethod_Fixed` nor
`winmethod_Proportional`) makes `window_calc_sizes` call `nano_fail`; the
call does not return a window. -/
theorem glk_window_open_invalid_method_fails :
    rootOnlyState.root = some 0 ∧ rootOnlyState.heap 1 = none ∧
    rootOnlyState.heap 2 = none ∧ ¬ ValidDivision stdEnv 3 ∧
    window_calc_size_px stdEnv ⟨0, 0, 100, 100⟩
      { parent := some 2, left := none, right := none, method := 3, size := 40,
        wintype := 5, rock := 0, area := ⟨0, 0, 100, 100⟩ } = none ∧
    (glk_window_open stdEnv 5 rootOnlyState 1 2 (some 0) 3 40 5 0).isNone = true := by
  refine ⟨rfl, rfl, rfl, ?_, by decide, by decide⟩
  unfold ValidDivision
  decide

/-- C6, amended: `glk_window_open`.  With `split` null the call fails when a
root exists; when there is none, the new window becomes the root, with the
rectangle of the whole display, and no other window changes.  With `split`
a live window of a well-formed tree and a method with a valid direction and
sizing unit the call returns the new window; a new pair window takes the
former place of `split` (the root reference, or the left or right slot of
the former parent that held `split`), its left child is `split` and its
right child is the new window, which has no children and stores the given
method, size, type and rock; `split` keeps its children, and the links and
attributes of all other windows are unchanged. -/
theorem glk_window_open_links (E : Env) (fuel : Nat) (s : WinState) (win pair : Nat)
    (method size wintype rock : Nat) :
    (s.root ≠ none →
      glk_window_open E fuel s win pair none method size wintype rock = none) ∧
    (s.root = none →
      ∃ s', glk_window_open E fuel s win pair none method size wintype rock = some (s', win) ∧
        s'.root = some win ∧
        s'.heap win = some
          { parent := none, left := none, right := none, method := method, size := size,
            wintype := wintype, rock := rock, area := ⟨0, 0, E.texture_w, E.texture_h⟩ } ∧
        ∀ a, a ≠ win → s'.heap a = s.heap a) ∧
    (∀ (sp : Nat) (spw : glk_window_struct) (t : WTree),
      s.heap win = none → s.heap pair = none → win ≠ pair →
      s.heap sp = some spw → t.addr = sp →
      Shape s.heap spw.parent t → t.postorder.Nodup → TreeOK E s.heap t → t.size ≤ fuel →
      ValidDir E method → ValidDivision E method →
      (∀ p, spw.parent = some p →
        ∃ ppw, s.heap p = some ppw ∧ (ppw.left = some sp ∨ ppw.right = some sp)) →
      ∃ s', glk_window_open E fuel s win pair (some sp) method size wintype rock =
          some (s', win) ∧
        (∃ pw', s'.heap pair = some pw' ∧ pw'.wintype = E.wintype_Pair ∧
          pw'.parent = spw.parent ∧ pw'.left = some sp ∧ pw'.right = some win) ∧
        (∃ ww, s'.heap win = some ww ∧ ww.parent = some pair ∧ ww.left = none ∧
          ww.right = none ∧ ww.method = method ∧ ww.size = size ∧ ww.wintype = wintype ∧
          ww.rock = rock) ∧
        (∃ sw', s'.heap sp = some sw' ∧ sw'.parent = some pair ∧ sw'.left = spw.left ∧
          sw'.right = spw.right) ∧
        (spw.parent = none → s'.root = some pair) ∧
        (∀ p ppw, spw.parent = some p → s.heap p = some ppw →
          s'.root = s.root ∧
          ∃ ppw', s'.heap p = some ppw' ∧ ppw'.parent = ppw.parent ∧
            (ppw.left = some sp → ppw'.left = some pair ∧ ppw'.right = ppw.right) ∧
            (ppw.left ≠ some sp → ppw'.left = ppw.left ∧ ppw'.right = some pair)) ∧
        (∀ a, a ≠ win → a ≠ pair → a ≠ sp → spw.parent ≠ some a →
          (s'.heap a).map glk_window_struct.links =
            (s.heap a).map glk_window_struct.links)) := by
  refine ⟨?_, ?_, ?_⟩
  · intro hroot
    simp [glk_window_open, hroot]
  · intro hroot
    simp only [glk_window_open, hroot, ne_eq, not_true_eq_false, if_false]
    refine ⟨_, rfl, rfl, ?_, ?_⟩
    · simp [WinHeap.set]
    · intro a ha
      simp [WinHeap.set, ha]
  · intro sp spw t hwin hpair hne hsp hta hshape hnd hok hfuel hdir hdiv hpar
    subst hta
    -- addresses
    have hlive := hshape.live
    have hsp_win : t.addr ≠ win := fun h => by rw [h, hwin] at hsp; cases hsp
    have hsp_pair : t.addr ≠ pair := fun h => by rw [h, hpair] at hsp; cases hsp
    have hp_notin : ∀ p, spw.parent = some p → p ∉ t.postorder := by
      intro p hp hmem
      obtain ⟨ppw, hppw, hchild⟩ := hpar p hp
      exact (hshape.child_ne_top hnd hmem hppw hchild).2 rfl
    have hp_ne : ∀ p, spw.parent = some p → p ≠ t.addr := by
      intro p hp heq
      exact hp_notin p hp (heq ▸ t.addr_mem_postorder)
    -- the pair takes over the place of split
    obtain ⟨s1, hs1, hs1fr, hs1root, hs1par⟩ :=
      glk_window_open_replace_spec s t.addr pair spw.parent hpar
    have hs1sp : s1.heap t.addr = some spw := by
      rw [hs1fr t.addr (fun h => hp_ne _ h rfl)]; exact hsp
    -- the state before the sizes are computed
    obtain ⟨s2, hs2def⟩ : ∃ s2 : WinState, s2 =
        { s1 with heap := (((s1.heap.set t.addr { spw with parent := some pair }).set win
            { parent := some pair, left := none, right := none, method := method,
              size := size, wintype := wintype, rock := rock, area := spw.area }).set pair
            { parent := spw.parent, left := some t.addr, right := some win,
              method := spw.method, size := spw.size, wintype := E.wintype_Pair, rock := 0,
              area := spw.area }) } := ⟨_, rfl⟩
    have h2pair : s2.heap pair = some
        { parent := spw.parent, left := some t.addr, right := some win,
          method := spw.method, size := spw.size, wintype := E.wintype_Pair, rock := 0,
          area := spw.area } := by
      rw [hs2def]; simp [WinHeap.set]
    have h2win : s2.heap win = some
        { parent := some pair, left := none, right := none, method := method, size := size,
          wintype := wintype, rock := rock, area := spw.area } := by
      rw [hs2def]; simp [WinHeap.set, hne]
    have h2sp : s2.heap t.addr = some { spw with parent := some pair } := by
      rw [hs2def]; simp [WinHeap.set, hsp_win, hsp_pair]
    have h2fr : ∀ a, a ≠ win → a ≠ pair → a ≠ t.addr → s2.heap a = s1.heap a := by
      intro a h1 h2 h3
      rw [hs2def]; simp [WinHeap.set, h1, h2, h3]
    have h2root : s2.root = s1.root := by rw [hs2def]
    have h2tree : ∀ a ∈ t.postorder, a ≠ t.addr → s2.heap a = s.heap a := by
      intro a ha hat
      obtain ⟨w, hw⟩ := hlive a ha
      have h1 : a ≠ win := fun h => by rw [h, hwin] at hw; cases hw
      have h2 : a ≠ pair := fun h => by rw [h, hpair] at hw; cases hw
      rw [h2fr a h1 h2 hat]
      exact hs1fr a (fun h => hp_notin a h ha)
    obtain ⟨⟨split_area, win_area⟩, hcalc⟩ := window_calc_sizes_isSome E s2.heap pair win _ _
      uninit_rect uninit_rect h2pair rfl h2win hdir hdiv
    have hshape2 : Shape s2.heap (some pair) t :=
      hshape.update_top hnd hsp h2sp rfl rfl rfl h2tree
    have hok2 : TreeOK E s2.heap t := by
      apply hok.congr
      intro a ha
      by_cases hat : a = t.addr
      · subst hat; rw [h2sp, hsp]; rfl
      · rw [h2tree a ha hat]
    obtain ⟨s3, hs3, hl3⟩ := window_resize_linksEq E t fuel s2 (some pair) split_area
      hshape2 hok2 hfuel
    obtain ⟨ww3, hww3, -⟩ := hl3.lookup h2win
    obtain ⟨s4, hs4⟩ := set_area_isSome win_area hww3
    have hl4 : LinksEq s2 s4 := hl3.trans (set_area_linksEq hs4)
    refine ⟨s4, ?_, ?_, ?_, ?_, ?_, ?_, ?_⟩
    · simp only [glk_window_open, hsp, hs1, hs1sp]
      have hcalc2 := hcalc
      have hs32 := hs3
      simp only [hs2def] at hcalc2 hs32
      simp only [hcalc2, hs32, hs4]
    · obtain ⟨pw', hpw', hp1, hp2, hp3, -, -, hp6, -⟩ := hl4.lookup h2pair
      exact ⟨pw', hpw', hp6, hp1, hp2, hp3⟩
    · obtain ⟨ww, hww, hp1, hp2, hp3, hp4, hp5, hp6, hp7⟩ := hl4.lookup h2win
      exact ⟨ww, hww, hp1, hp2, hp3, hp4, hp5, hp6, hp7⟩
    · obtain ⟨sw', hsw', hp1, hp2, hp3, -⟩ := hl4.lookup h2sp
      exact ⟨sw', hsw', hp1, hp2, hp3⟩
    · intro hnone
      rw [hl4.1, h2root]
      exact hs1root hnone
    · intro p ppw hp hppw
      obtain ⟨hr1, hh1⟩ := hs1par p ppw hp hppw
      have hpw : p ≠ win := fun h => by rw [h, hwin] at hppw; cases hppw
      have hpp : p ≠ pair := fun h => by rw [h, hpair] at hppw; cases hppw
      have h2p := h2fr p hpw hpp (hp_ne p hp)
      rw [hh1] at h2p
      obtain ⟨ppw', hppw', hq1, hq2, hq3, -⟩ := hl4.lookup h2p
      refine ⟨by rw [hl4.1, h2root, hr1], ppw', hppw', ?_, ?_, ?_⟩
      · rw [hq1]; split_ifs <;> rfl
      · intro hleft
        rw [hq2, hq3, if_pos hleft]
        exact ⟨rfl, rfl⟩
      · intro hleft
        rw [hq2, hq3, if_neg hleft]
        exact ⟨rfl, rfl⟩
    · intro a h1 h2 h3 h4
      rw [hl4.2 a, h2fr a h1 h2 h3, hs1fr a h4]

/-- C6, amended, at concrete calls: opening a second root fails; opening the first
window of an empty tree makes it the root; splitting the root window 0 of
`rootOnlyState` (new window at address 1, pair at address 2) makes the pair 2
the root, with the children 0 and 1; splitting the right child 1 of the root
pair 2 of `splitRootState` (new window 3, pair 4) puts the pair 4 into the
right slot of the pair 2. -/
theorem glk_window_open_links_witness :
    glk_window_open stdEnv 5 rootOnlyState 1 2 none 19 40 5 7 = none ∧
    (∃ s', glk_window_open stdEnv 5 WinState.init 0 1 none 0 0 5 0 = some (s', 0) ∧
      s'.root = some 0) ∧
    Shape rootOnlyState.heap none (.leaf 0) ∧ TreeOK stdEnv rootOnlyState.heap (.leaf 0) ∧
    ValidDir stdEnv 19 ∧ ValidDivision stdEnv 19 ∧
    (∃ s', glk_window_open stdEnv 5 rootOnlyState 1 2 (some 0) 19 40 5 7 = some (s', 1) ∧
      s'.root = some 2 ∧
      (∃ pw', s'.heap 2 = some pw' ∧ pw'.wintype = 1 ∧ pw'.parent = none ∧
        pw'.left = some 0 ∧ pw'.right = some 1) ∧
      (∃ ww, s'.heap 1 = some ww ∧ ww.parent = some 2 ∧ ww.left = none ∧
        ww.right = none ∧ ww.method = 19 ∧ ww.size = 40 ∧ ww.wintype = 5 ∧ ww.rock = 7)) ∧
    Shape splitRootState.heap (some 2) (.leaf 1) ∧
    (∃ s', glk_window_open stdEnv 5 splitRootState 3 4 (some 1) 19 10 5 0 = some (s', 3) ∧
      s'.root = some 2 ∧
      (∃ pw', s'.heap 4 = some pw' ∧ pw'.wintype = 1 ∧ pw'.parent = some 2 ∧
        pw'.left = some 1 ∧ pw'.right = some 3) ∧
      (∃ ppw', s'.heap 2 = some ppw' ∧ ppw'.parent = none ∧ ppw'.left = some 0 ∧
        ppw'.right = some 4)) := by
  have hshape : Shape rootOnlyState.heap none (.leaf 0) := by
    simp [Shape, rootOnlyState]
  have hok : TreeOK stdEnv rootOnlyState.heap (.leaf 0) := by
    simp [TreeOK, rootOnlyState, stdEnv]
  have hshape2 : Shape splitRootState.heap (some 2) (.leaf 1) := by
    simp [Shape, splitRootState]
  have hok2 : TreeOK stdEnv splitRootState.heap (.leaf 1) := by
    simp [TreeOK, splitRootState, stdEnv]
  have hd : ValidDir stdEnv 19 := by unfold ValidDir; decide
  have hv : ValidDivision stdEnv 19 := by unfold ValidDivision; decide
  have hthm := glk_window_open_links stdEnv 5 rootOnlyState 1 2 19 40 5 7
  have hinit := (glk_window_open_links stdEnv 5 WinState.init 0 1 0 0 5 0).2.1 rfl
  have hthm2 := glk_window_open_links stdEnv 5 splitRootState 3 4 19 10 5 0
  refine ⟨hthm.1 (by simp [rootOnlyState]), ?_, hshape, hok, hd, hv, ?_, hshape2, ?_⟩
  · obtain ⟨s', h1, h2, -⟩ := hinit
    exact ⟨s', h1, h2⟩
  · obtain ⟨s', h1, h2, h3, -, h5, -⟩ := hthm.2.2 0
      { parent := none, left := none, right := none, method := 0, size := 0,
        wintype := 5, rock := 0, area := ⟨0, 0, 100, 100⟩ } (.leaf 0)
      rfl rfl (by decide) rfl rfl hshape (by decide) hok (by decide) hd hv
      (by intro p hp; cases hp)
    exact ⟨s', h1, h5 rfl, h2, h3⟩
  · obtain ⟨s', h1, h2, -, -, -, h6, -⟩ := hthm2.2.2 1
      { parent := some 2, left := none, right := none, method := 19, size := 40,
        wintype := 5, rock := 0, area := ⟨0, 60, 100, 40⟩ } (.leaf 1)
      rfl rfl (by decide) rfl rfl hshape2 (by decide) hok2 (by decide) hd hv
      (by
        intro p hp
        cases hp
        exact ⟨_, rfl, Or.inr rfl⟩)
    obtain ⟨hroot, ppw', hp1, hp2, -, hp4⟩ := h6 2
      { parent := none, left := some 0, right := some 1, method := 0, size := 0,
        wintype := 1, rock := 0, area := ⟨0, 0, 100, 100⟩ } rfl rfl
    obtain ⟨pw', hq1, hq2, hq3, hq4, hq5⟩ := h2
    have hp5 := hp4 (by decide)
    exact ⟨s', h1, hroot, ⟨pw', hq1, hq2, hq3, hq4, hq5⟩, ppw', hp1, hp2, hp5.1, hp5.2⟩

/-! ### Closing a window: evaluations -/

/-- C3, evaluated: open a root window (address 0), split it (new window 1,
pair 2) and close the new window.  Afterwards the window 0 is live and has no
parent, the windows 1 and 2 have been freed, and the root reference still
holds the address 2 of the freed pair. -/
theorem run_calls_root_dangling :
    (run_calls stdEnv 10 WinState.init
      [.open 0 1 none 0 0 5 0, .open 1 2 (some 0) 19 40 5 0, .close 1]).map
        (fun s => (s.root, s.heap 2, s.heap 1, (s.heap 0).map (fun w => w.parent))) =
      some (some 2, none, none, some none) := by
  decide

/-- C4, evaluated: on a 100 x 100 display open the root window 0, open 1 below
it (40 rows, pair 2), open 3 below 1 (10 rows, pair 4) and open 5 below 1 (5
rows, pair 6), all without border; then close 3.  The pair 6 is promoted
into the place of the pair 4 and gets its rectangle, rows 60 to 99, but its
children 1 and 5 keep the rectangles they had, rows 60 to 84 and 85 to 89:
they do not partition the rectangle of their pair. -/
theorem run_calls_promoted_pair_not_rearranged :
    (run_calls stdEnv 10 WinState.init
      [.open 0 1 none 0 0 5 0, .open 1 2 (some 0) 275 40 5 0, .open 3 4 (some 1) 275 10 5 0,
       .open 5 6 (some 1) 275 5 5 0, .close 3]).map
        (fun s => (s.root, (s.heap 2).map (fun w => (w.left, w.right)))) =
      some (some 2, some (some 0, some 6)) ∧
    (run_calls stdEnv 10 WinState.init
      [.open 0 1 none 0 0 5 0, .open 1 2 (some 0) 275 40 5 0, .open 3 4 (some 1) 275 10 5 0,
       .open 5 6 (some 1) 275 5 5 0, .close 3]).map
        (fun s => (s.heap 6).map (fun w => (w.parent, w.left, w.right, w.area))) =
      some (some (some 2, some 1, some 5, ⟨0, 60, 100, 40⟩)) ∧
    (run_calls stdEnv 10 WinState.init
      [.open 0 1 none 0 0 5 0, .open 1 2 (some 0) 275 40 5 0, .open 3 4 (some 1) 275 10 5 0,
       .open 5 6 (some 1) 275 5 5 0, .close 3]).map
        (fun s => ((s.heap 1).map (fun w => w.area),
          (s.heap 5).map (fun w => (w.method, w.area)))) =
      some (some ⟨0, 60, 100, 25⟩, some (275, ⟨0, 85, 100, 5⟩)) ∧
    window_draw_border_rect stdEnv 275 ⟨0, 85, 100, 5⟩ = none ∧
    ¬ Partitions ⟨0, 60, 100, 40⟩ ⟨0, 60, 100, 25⟩ ⟨0, 85, 100, 5⟩ none := by
  refine ⟨by decide, by decide, by decide, by decide, ?_⟩
  intro h
  have h1 := (h 0 95).1.1 (by unfold SDL_Rect.Contains; decide)
  norm_num [SDL_Rect.Contains, inOptRect] at h1

/-- C5, evaluated: closing the window 1 of `splitRootState` (the state after a
root window has been opened and split), whose parent pair 2 is the root.
The sibling 0 gets the rectangle and the (null) parent of the pair, the
pair and the closed window are freed, but the root reference still holds the
address 2 of the freed pair and not the address 0 of the sibling. -/
theorem glk_window_close_root_pair :
    (run_calls stdEnv 10 WinState.init
      [.open 0 1 none 0 0 5 0, .open 1 2 (some 0) 19 40 5 0]).map
        (fun s => (s.root, s.heap 0, s.heap 1, s.heap 2)) =
      some (splitRootState.root, splitRootState.heap 0, splitRootState.heap 1,
        splitRootState.heap 2) ∧
    (glk_window_close 10 splitRootState 1).map
        (fun s => (s.root, s.heap 2, s.heap 1, s.heap 0)) =
      some (some 2, none, none,
        some { parent := none, left := none, right := none, method := 0, size := 0,
               wintype := 5, rock := 0, area := ⟨0, 0, 100, 100⟩ }) := by
  refine ⟨by decide, by decide⟩

/-! ### The event queue -/

theorem IsQueue.cons_inv {h : EvHeap} {p : Option Nat} {a : Nat} {r : queued_event}
    {l : List (Nat × queued_event)} (hq : IsQueue h p ((a, r) :: l)) :
    p = some a ∧ ∃ e, h a = some e ∧ { e with prev := none } = r ∧ IsQueue h e.prev l := by
  simp only [IsQueue] at hq
  obtain ⟨hp, hm⟩ := hq
  cases he : h a with
  | none => simp [he] at hm
  | some e => simp only [he] at hm; exact ⟨hp, e, rfl, hm⟩

theorem IsQueue.entries_live {h : EvHeap} {p : Option Nat} {l : List (Nat × queued_event)}
    (hq : IsQueue h p l) : ∀ a ∈ l.map Prod.fst, ∃ e, h a = some e := by
  induction l generalizing p with
  | nil => intro a ha; simp at ha
  | cons x l ih =>
    obtain ⟨a0, r⟩ := x
    obtain ⟨-, e, he, -, hrest⟩ := hq.cons_inv
    intro a ha
    simp only [List.map_cons, List.mem_cons] at ha
    rcases ha with ha | ha
    · subst ha; exact ⟨e, he⟩
    · exact ih hrest a ha

theorem IsQueue.heap_frame {h h' : EvHeap} {p : Option Nat} {l : List (Nat × queued_event)}
    (hq : IsQueue h p l) (hfr : ∀ a ∈ l.map Prod.fst, h' a = h a) : IsQueue h' p l := by
  induction l generalizing p with
  | nil => exact hq
  | cons x l ih =>
    obtain ⟨a0, r⟩ := x
    obtain ⟨hp, e, he, hr, hrest⟩ := hq.cons_inv
    have h0 := hfr a0 (by simp)
    simp only [IsQueue, h0, he]
    exact ⟨hp, hr, ih hrest (fun a ha => hfr a (by simp [ha]))⟩

theorem put_event_find_queue {h : EvHeap} (win : Nat) {p : Option Nat}
    {l : List (Nat × queued_event)} (hq : IsQueue h p l) {fuel : Nat} (hf : l.length < fuel) :
    put_event_find h win fuel p = some (decide (∃ r ∈ l.map Prod.snd, r.win = win)) := by
  induction l generalizing p fuel with
  | nil =>
    have hp : p = none := hq
    subst hp
    cases fuel with
    | zero => simp at hf
    | succ f => simp [put_event_find]
  | cons x l ih =>
    obtain ⟨a0, r⟩ := x
    obtain ⟨hp, e, he, hr, hrest⟩ := hq.cons_inv
    subst hp
    cases fuel with
    | zero => simp at hf
    | succ f =>
      have hwin : r.win = e.win := by rw [← hr]
      simp only [put_event_find, he]
      by_cases hw : e.win = win
      · simp [hw, hwin]
      · have hlen : l.length < f := by simp at hf; omega
        rw [if_neg hw, ih hrest hlen]
        simp [hwin, hw]

theorem queue_events_queue {h : EvHeap} {p : Option Nat} {l : List (Nat × queued_event)}
    (hq : IsQueue h p l) (fuel : Nat) (hf : l.length < fuel) :
    queue_events h fuel p = some (l.map Prod.snd) := by
  induction l generalizing p fuel with
  | nil =>
    have hp : p = none := hq
    subst hp
    cases fuel with
    | zero => simp at hf
    | succ f => simp [queue_events]
  | cons x l ih =>
    obtain ⟨a0, r⟩ := x
    obtain ⟨hp, e, he, hr, hrest⟩ := hq.cons_inv
    subst hp
    cases fuel with
    | zero => simp at hf
    | succ f =>
      have hlen : l.length < f := by simp at hf; omega
      simp only [queue_events, he, ih hrest f hlen, Option.map_some', List.map_cons, hr]

theorem IsQueue.snoc {h : EvHeap} {p : Option Nat} {l : List (Nat × queued_event)}
    (hq : IsQueue h p l) (hne : l ≠ []) (hnd : (l.map Prod.fst).Nodup)
    {a f : Nat} {fe qe : queued_event} (hlast : (l.map Prod.fst).getLast? = some f)
    (hfe : h f = some fe) (ha : a ∉ l.map Prod.fst) (hprev : qe.prev = none) :
    IsQueue ((h.set f { fe with prev := some a }).set a qe) p (l ++ [(a, qe)]) := by
  induction l generalizing p with
  | nil => exact absurd rfl hne
  | cons x l ih =>
    obtain ⟨a0, r⟩ := x
    obtain ⟨hp, e, he, hr, hrest⟩ := hq.cons_inv
    simp only [List.map_cons, List.mem_cons, not_or] at ha
    have ha0 : a0 ≠ a := fun h => ha.1 h.symm
    cases l with
    | nil =>
      simp only [List.map_cons, List.map_nil, List.getLast?_singleton,
        Option.some.injEq] at hlast
      subst hlast
      have hee : fe = e := by rw [he] at hfe; exact (Option.some.inj hfe).symm
      rw [hee]
      have hnone : e.prev = none := hrest
      simp only [List.nil_append, IsQueue, EvHeap.set, ha0, if_false, if_true, hp, true_and]
      refine ⟨hr, ?_⟩
      cases qe
      simp only at hprev
      subst hprev
      simp
    | cons y l' =>
      have hnd' : ((y :: l').map Prod.fst).Nodup := (List.nodup_cons.1 hnd).2
      have hnotin : a0 ∉ (y :: l').map Prod.fst := (List.nodup_cons.1 hnd).1
      have hlast' : ((y :: l').map Prod.fst).getLast? = some f := by
        simpa [List.getLast?_cons_cons] using hlast
      have hf0 : a0 ≠ f := by
        intro heq
        apply hnotin
        rw [heq]
        exact List.mem_of_getLast?_eq_some hlast'
      have := ih hrest (by simp) hnd' hlast' ha.2
      simp only [List.cons_append, IsQueue, EvHeap.set, ha0, hf0, if_false, he, hp, true_and]
      exact ⟨hr, this⟩

theorem put_event_queue {s : EvState} {l : List (Nat × queued_event)} (hinv : QueueInv s l)
    {fuel : Nat} (hf : l.length < fuel) (a : Nat) (hfresh : s.heap a = none)
    (r : queued_event) (hr : r.prev = none) :
    ∃ s' l', put_event fuel s a r.type r.uni r.win r.buf r.maxlen r.initlen = some s' ∧
      QueueInv s' l' ∧
      l'.map Prod.snd = (if ∃ q ∈ l.map Prod.snd, q.win = r.win then l.map Prod.snd
        else l.map Prod.snd ++ [r]) ∧
      l'.length ≤ l.length + 1 := by
  have hqe : (⟨none, r.type, r.uni, r.win, r.buf, r.maxlen, r.initlen⟩ : queued_event) = r := by
    cases r; simp only at hr; subst hr; rfl
  have hfind := put_event_find_queue r.win hinv.chain hf
  by_cases hex : ∃ q ∈ l.map Prod.snd, q.win = r.win
  · rw [decide_eq_true hex] at hfind
    refine ⟨s, l, ?_, hinv, ?_, by omega⟩
    · simp only [put_event, hfind]
    · rw [if_pos hex]
  · rw [if_neg hex]
    rw [decide_eq_false hex] at hfind
    simp only [put_event, hfind, hqe]
    have hnotin : a ∉ l.map Prod.fst := by
      intro hmem
      obtain ⟨e, he⟩ := hinv.chain.entries_live a hmem
      rw [hfresh] at he; cases he
    rcases List.eq_nil_or_concat l with hnil | ⟨l0, x, hl⟩
    · subst hnil
      have hfirst : s.first_qe = none := hinv.first
      have hlast : s.last_qe = none := hinv.chain
      simp only [hfirst]
      refine ⟨_, [(a, r)], rfl, ?_, by simp, by simp⟩
      · refine ⟨?_, rfl, by simp, hinv.timer⟩
        simp only [IsQueue, EvHeap.set, if_true, true_and]
        cases r; simp only at hr; subst hr; simp
    · obtain ⟨f, rf⟩ := x
      have hne : l ≠ [] := by rw [hl]; simp
      have hlastf : (l.map Prod.fst).getLast? = some f := by rw [hl]; simp
      have hfirst : s.first_qe = some f := by rw [hinv.first, hlastf]
      obtain ⟨fe, hfe⟩ := hinv.chain.entries_live f (List.mem_of_getLast?_eq_some hlastf)
      have hfa : f ≠ a := fun h => by rw [h, hfresh] at hfe; cases hfe
      have haf : a ≠ f := fun h => hfa h.symm
      have hsn := hinv.chain.snoc hne hinv.nodup hlastf hfe hnotin hr
      have h1f : (s.heap.set a r) f = some fe := by simp [EvHeap.set, hfa, hfe]
      have h2a : ((s.heap.set a r).set f { fe with prev := some a }) a = some r := by
        simp [EvHeap.set, haf]
      simp only [hfirst, h1f, h2a]
      refine ⟨_, l ++ [(a, r)], rfl, ?_, by simp, by simp⟩
      · refine ⟨?_, ?_, ?_, hinv.timer⟩
        · apply IsQueue.heap_frame hsn
          intro b _
          simp only [EvHeap.set, hqe]
          split_ifs <;> rfl
        · simp
        · rw [List.map_append, List.nodup_append]
          refine ⟨hinv.nodup, by simp, ?_⟩
          intro b hb1 hb2
          simp only [List.map_cons, List.map_nil, List.mem_singleton] at hb2
          subst hb2
          exact hnotin hb1

theorem glk_select_queue_nil (E : Env) {s : EvState} (hinv : QueueInv s []) :
    glk_select E s = some ({ type := E.evtype_None, win := none, served := none }, s) := by
  have hlast : s.last_qe = none := hinv.chain
  simp [glk_select, get_event, hlast, hinv.timer]

theorem glk_select_queue_cons (E : Env) {s : EvState} {a : Nat} {r : queued_event}
    {l : List (Nat × queued_event)} (hinv : QueueInv s ((a, r) :: l)) :
    ∃ s', glk_select E s =
        some ({ type := r.type, win := some r.win, served := some r }, s') ∧
      QueueInv s' l := by
  obtain ⟨hp, e, he, hr, hrest⟩ := hinv.chain.cons_inv
  have hnd := hinv.nodup
  simp only [List.map_cons, List.nodup_cons] at hnd
  have hfr : IsQueue (s.heap.free a) e.prev l := by
    apply hrest.heap_frame
    intro b hb
    have : b ≠ a := fun h => hnd.1 (h ▸ hb)
    simp [EvHeap.free, this]
  have hrt : r.type = e.type := by rw [← hr]
  have hrw : r.win = e.win := by rw [← hr]
  cases l with
  | nil =>
    have hnone : e.prev = none := hrest
    refine ⟨{ heap := s.heap.free a, first_qe := none, last_qe := none,
              timer_millisecs := s.timer_millisecs }, ?_, ?_⟩
    · simp [glk_select, get_event, hp, he, hnone, hr, hrt, hrw]
    · exact ⟨rfl, rfl, by simp, hinv.timer⟩
  | cons y l' =>
    obtain ⟨b, rb⟩ := y
    obtain ⟨hpb, -⟩ := hrest.cons_inv
    refine ⟨{ heap := s.heap.free a, first_qe := s.first_qe, last_qe := e.prev,
              timer_millisecs := s.timer_millisecs }, ?_, ?_⟩
    · simp [glk_select, get_event, hp, he, hpb, hr, hrt, hrw]
    · refine ⟨hfr, ?_, hnd.2, hinv.timer⟩
      have := hinv.first
      simpa [List.getLast?_cons_cons] using this

theorem ev_step_request (E : Env) (fuel : Nat) (s : EvState) {c : EvCall} {r : queued_event}
    (hr : c.request E = some r) :
    ∃ a, c.alloc = some a ∧ r.prev = none ∧ c ≠ .select ∧
      ev_step E fuel s c =
        (put_event fuel s a r.type r.uni r.win r.buf r.maxlen r.initlen).map
          (fun s1 => (none, s1)) ∧
      ∀ pending, fifo_step E pending c =
        (none, if ∃ q ∈ pending, q.win = r.win then pending else pending ++ [r]) := by
  cases c with
  | request_char a win =>
    simp only [EvCall.request, Option.some.injEq] at hr; subst hr
    exact ⟨_, rfl, rfl, by simp, rfl, fun _ => rfl⟩
  | request_char_uni a win =>
    simp only [EvCall.request, Option.some.injEq] at hr; subst hr
    exact ⟨_, rfl, rfl, by simp, rfl, fun _ => rfl⟩
  | request_line a win buf maxlen initlen =>
    simp only [EvCall.request, Option.some.injEq] at hr; subst hr
    exact ⟨_, rfl, rfl, by simp, rfl, fun _ => rfl⟩
  | request_line_uni a win buf maxlen initlen =>
    simp only [EvCall.request, Option.some.injEq] at hr; subst hr
    exact ⟨_, rfl, rfl, by simp, rfl, fun _ => rfl⟩
  | select => simp [EvCall.request] at hr
  | cancel_char win => simp [EvCall.request] at hr
  | cancel_line win => simp [EvCall.request] at hr

theorem not_cancel_cases (E : Env) {c : EvCall} (hc : c.isCancel = false) :
    c = .select ∨ ∃ r, c.request E = some r := by
  cases c <;> simp [EvCall.isCancel, EvCall.request] at hc ⊢

theorem ev_run_fifo (E : Env) (fuel : Nat) :
    ∀ (calls : List EvCall) (s : EvState) (l : List (Nat × queued_event)),
      QueueInv s l → (∀ c ∈ calls, c.isCancel = false) → AllocsFresh E fuel s calls = true →
      l.length + calls.length < fuel →
      ∃ s' l', ev_run E fuel s calls = some ((fifo_run E (l.map Prod.snd) calls).1, s') ∧
        QueueInv s' l' ∧ l'.map Prod.snd = (fifo_run E (l.map Prod.snd) calls).2 ∧
        l'.length ≤ l.length + calls.length := by
  intro calls
  induction calls with
  | nil =>
    intro s l hinv _ _ _
    exact ⟨s, l, rfl, hinv, rfl, by simp⟩
  | cons c cs ih =>
    intro s l hinv hnc hfresh hfuel
    have hnc' : ∀ c' ∈ cs, c'.isCancel = false := fun c' hc' => hnc c' (by simp [hc'])
    simp only [List.length_cons] at hfuel
    simp only [AllocsFresh, Bool.and_eq_true] at hfresh
    obtain ⟨hfa, hfrest⟩ := hfresh
    rcases not_cancel_cases E (hnc c (by simp)) with hsel | ⟨r, hr⟩
    · subst hsel
      cases l with
      | nil =>
        have hstep : ev_step E fuel s .select =
            some (some { type := E.evtype_None, win := none, served := none }, s) := by
          simp [ev_step, glk_select_queue_nil E hinv]
        rw [hstep] at hfrest
        obtain ⟨s', l', hrun, hinv', hmap, hlen⟩ := ih s [] hinv hnc' hfrest (by simp; omega)
        refine ⟨s', l', ?_, hinv', ?_, by simp at hlen ⊢; omega⟩
        · simp only [ev_run, hstep, hrun, fifo_run, fifo_step, List.map_nil]
        · rw [hmap]; simp [fifo_run, fifo_step]
      | cons x l0 =>
        obtain ⟨a, r⟩ := x
        obtain ⟨s1, hsel, hinv1⟩ := glk_select_queue_cons E hinv
        have hstep : ev_step E fuel s .select =
            some (some { type := r.type, win := some r.win, served := some r }, s1) := by
          simp [ev_step, hsel]
        rw [hstep] at hfrest
        obtain ⟨s', l', hrun, hinv', hmap, hlen⟩ := ih s1 l0 hinv1 hnc' hfrest
          (by simp at hfuel; omega)
        refine ⟨s', l', ?_, hinv', ?_, by simp at hlen ⊢; omega⟩
        · simp only [ev_run, hstep, hrun, fifo_run, fifo_step, List.map_cons]
        · rw [hmap]; simp [fifo_run, fifo_step]
    · obtain ⟨a, halloc, hprev, -, hstep, hfifo⟩ := ev_step_request E fuel s hr
      have hfr : s.heap a = none := by
        simp only [halloc] at hfa
        simpa using hfa
      obtain ⟨s1, l1, hput, hinv1, hmap1, hlen1⟩ :=
        put_event_queue hinv (by omega : l.length < fuel) a hfr r hprev
      rw [hput] at hstep
      simp only [Option.map_some'] at hstep
      rw [hstep] at hfrest
      obtain ⟨s', l', hrun, hinv', hmap, hlen⟩ := ih s1 l1 hinv1 hnc' hfrest (by omega)
      refine ⟨s', l', ?_, hinv', ?_, by simp; omega⟩
      · simp only [ev_run, hstep, hrun, fifo_run, hfifo, ← hmap1]
      · rw [hmap, hmap1]; simp only [fifo_run, hfifo]

theorem queueInv_init : QueueInv EvState.init [] :=
  ⟨rfl, rfl, List.nodup_nil, rfl⟩

/-- C7: for every sequence of character and line input requests and
`glk_select` calls without cancels, started on the empty queue (every address
returned by `nano_malloc` being free at that time), no call fails and the
events delivered by the `glk_select` calls are those of the first-in
first-out queue of the specification: each `glk_select` on a non-empty queue
delivers and removes the request registered earliest among those still
pending.  The requests left in the queue are those left pending in the
specification, in the order of their registration. -/
theorem glk_select_fifo (E : Env) (fuel : Nat) (calls : List EvCall)
    (hnc : ∀ c ∈ calls, c.isCancel = false)
    (hfresh : AllocsFresh E fuel EvState.init calls = true) (hfuel : calls.length < fuel) :
    ∃ s', ev_run E fuel EvState.init calls = some ((fifo_run E [] calls).1, s') ∧
      queue_events s'.heap fuel s'.last_qe = some (fifo_run E [] calls).2 := by
  obtain ⟨s', l', hrun, hinv', hmap, hlen⟩ :=
    ev_run_fifo E fuel calls EvState.init [] queueInv_init hnc hfresh (by simpa using hfuel)
  refine ⟨s', hrun, ?_⟩
  have hq := queue_events_queue hinv'.chain fuel (by simp at hlen; omega)
  rw [hq, hmap]
  rfl

/-- C7 at a concrete run: the requests for the windows 10, 11 and 12 are
delivered in this order, and the fourth `glk_select` finds the queue empty. -/
theorem glk_select_fifo_witness :
    (∀ c ∈ fifoExampleCalls, c.isCancel = false) ∧
    AllocsFresh stdEnv 8 EvState.init fifoExampleCalls = true ∧
    (ev_run stdEnv 8 EvState.init fifoExampleCalls).map (fun r => r.1.map (fun e => e.win)) =
      some [some 10, some 11, some 12, none] := by
  have hnc : ∀ c ∈ fifoExampleCalls, c.isCancel = false := by decide
  have hfresh : AllocsFresh stdEnv 8 EvState.init fifoExampleCalls = true := by decide
  obtain ⟨s', hrun, -⟩ := glk_select_fifo stdEnv 8 fifoExampleCalls hnc hfresh (by decide)
  refine ⟨hnc, hfresh, ?_⟩
  rw [hrun]
  simp only [Option.map_some']
  decide

theorem put_event_find_of_queue_events {h : EvHeap} {win : Nat} :
    ∀ (fuel : Nat) (p : Option Nat) (q : List queued_event),
      queue_events h fuel p = some q → (∃ r ∈ q, r.win = win) →
      put_event_find h win fuel p = some true := by
  intro fuel
  induction fuel with
  | zero => intro p q hq; simp [queue_events] at hq
  | succ f ih =>
    intro p q hq hex
    cases p with
    | none =>
      simp only [queue_events, Option.some.injEq] at hq
      subst hq
      simp at hex
    | some x =>
      simp only [queue_events] at hq
      cases he : h x with
      | none => simp [he] at hq
      | some e =>
        simp only [he] at hq
        cases hq' : queue_events h f e.prev with
        | none => simp [hq'] at hq
        | some q' =>
          simp only [hq', Option.map_some', Option.some.injEq] at hq
          subst hq
          simp only [put_event_find, he]
          by_cases hw : e.win = win
          · simp [hw]
          · rw [if_neg hw]
            apply ih e.prev q' hq'
            obtain ⟨r, hr, hrw⟩ := hex
            simp only [List.mem_cons] at hr
            rcases hr with hr | hr
            · subst hr; exact absurd hrw hw
            · exact ⟨r, hr, hrw⟩

theorem fifo_step_nodup (E : Env) (pending : List queued_event) (c : EvCall)
    (hnd : (pending.map (fun r => r.win)).Nodup) :
    ((fifo_step E pending c).2.map (fun r => r.win)).Nodup := by
  have hreq : ∀ r : queued_event,
      ((if ∃ q ∈ pending, q.win = r.win then pending else pending ++ [r]).map
        (fun r => r.win)).Nodup := by
    intro r
    split_ifs with hex
    · exact hnd
    · rw [List.map_append, List.nodup_append]
      refine ⟨hnd, by simp, ?_⟩
      intro w hw1 hw2
      simp only [List.map_cons, List.map_nil, List.mem_singleton] at hw2
      subst hw2
      apply hex
      simpa using hw1
  cases c with
  | request_char a win => exact hreq _
  | request_char_uni a win => exact hreq _
  | request_line a win buf maxlen initlen => exact hreq _
  | request_line_uni a win buf maxlen initlen => exact hreq _
  | select =>
    cases pending with
    | nil => simp [fifo_step]
    | cons r rest =>
      simp only [fifo_step]
      exact (List.nodup_cons.1 hnd).2
  | cancel_char win =>
    simp only [fifo_step]
    exact hnd.sublist ((List.filter_sublist _).map _)
  | cancel_line win =>
    simp only [fifo_step]
    exact hnd.sublist ((List.filter_sublist _).map _)

theorem fifo_run_nodup (E : Env) (calls : List EvCall) :
    ∀ pending : List queued_event, (pending.map (fun r => r.win)).Nodup →
      ((fifo_run E pending calls).2.map (fun r => r.win)).Nodup := by
  induction calls with
  | nil => intro pending hnd; exact hnd
  | cons c cs ih =>
    intro pending hnd
    simp only [fifo_run]
    exact ih _ (fifo_step_nodup E pending c hnd)

/-- C9: a request for a window that already has a request in the queue
leaves the state exactly as it was; and in every state reached from the
empty queue by requests and `glk_select` calls, the windows of the requests
in the queue are pairwise distinct. -/
theorem put_event_one_request_per_window (E : Env) (fuel : Nat) :
    (∀ (s : EvState) (q : List queued_event) (a type uni win : Nat) (buf : Option Nat)
        (maxlen initlen : Nat),
      queue_events s.heap fuel s.last_qe = some q → (∃ r ∈ q, r.win = win) →
      put_event fuel s a type uni win buf maxlen initlen = some s) ∧
    (∀ calls : List EvCall, (∀ c ∈ calls, c.isCancel = false) →
      AllocsFresh E fuel EvState.init calls = true → calls.length < fuel →
      ∃ evs s' q, ev_run E fuel EvState.init calls = some (evs, s') ∧
        queue_events s'.heap fuel s'.last_qe = some q ∧
        (q.map (fun r => r.win)).Nodup) := by
  refine ⟨?_, ?_⟩
  · intro s q a type uni win buf maxlen initlen hq hex
    simp only [put_event, put_event_find_of_queue_events fuel s.last_qe q hq hex]
  · intro calls hnc hfresh hfuel
    obtain ⟨s', l', hrun, hinv', hmap, hlen⟩ :=
      ev_run_fifo E fuel calls EvState.init [] queueInv_init hnc hfresh (by simpa using hfuel)
    have hq := queue_events_queue hinv'.chain fuel (by simp at hlen; omega)
    refine ⟨_, s', _, hrun, hq, ?_⟩
    rw [hmap]
    exact fifo_run_nodup E calls [] (by simp)

/-- C9 at concrete inputs: a line input request for the window 10, which has
a pending character request, leaves `oneRequestState` unchanged; and the
queue left by `fifoExampleCalls` holds no window twice. -/
theorem put_event_one_request_per_window_witness :
    queue_events oneRequestState.heap 8 oneRequestState.last_qe =
      some [{ prev := none, type := 2, uni := 0, win := 10, buf := none, maxlen := 0,
              initlen := 0 }] ∧
    (put_event 8 oneRequestState 1 3 0 10 (some 100) 80 0).map
        (fun s => (s.first_qe, s.last_qe, s.heap 0, s.heap 1)) =
      some (some 0, some 0,
        some { prev := none, type := 2, uni := 0, win := 10, buf := none, maxlen := 0,
               initlen := 0 }, none) ∧
    (∃ evs s' q, ev_run stdEnv 8 EvState.init fifoExampleCalls = some (evs, s') ∧
      queue_events s'.heap 8 s'.last_qe = some q ∧ (q.map (fun r => r.win)).Nodup) := by
  have hq : queue_events oneRequestState.heap 8 oneRequestState.last_qe =
      some [{ prev := none, type := 2, uni := 0, win := 10, buf := none, maxlen := 0,
              initlen := 0 }] := by decide
  have hthm := put_event_one_request_per_window stdEnv 8
  have h1 := hthm.1 oneRequestState _ 1 3 0 10 (some 100) 80 0 hq (by decide)
  refine ⟨hq, ?_, hthm.2 fifoExampleCalls (by decide) (by decide) (by decide)⟩
  rw [h1]
  simp only [Option.map_some']
  decide

/-! ### Cancelling a request: evaluations -/

/-- C8, evaluated: three character requests for the windows 10, 11 and 12 are
pending and the newest one (window 12) is cancelled.  Afterwards the queue
reached from `last_qe` holds the request for the window 11 only; the two
following `glk_select` calls deliver the window 11 and then nothing, so the
request for the window 10 is lost, whereas the queue of the specification
delivers the windows 10 and 11.  When the oldest request (window 10) is
cancelled instead, `last_qe` keeps pointing to the entry, which
`glk_cancel_char_event` frees, and the next `glk_select` dereferences it. -/
theorem glk_cancel_char_event_corrupts_queue :
    ((ev_run stdEnv 10 EvState.init (threeRequests ++ [.cancel_char 12])).bind
        (fun r => queue_events r.2.heap 10 r.2.last_qe)).map
        (fun q => q.map (fun r => r.win)) = some [11] ∧
    (ev_run stdEnv 10 EvState.init (threeRequests ++ [.cancel_char 12, .select, .select])).map
        (fun r => r.1.map (fun e => e.win)) = some [some 11, none] ∧
    (fifo_run stdEnv [] (threeRequests ++ [.cancel_char 12, .select, .select])).1.map
        (fun e => e.win) = [some 10, some 11] ∧
    (ev_run stdEnv 10 EvState.init (threeRequests ++ [.cancel_char 10])).map
        (fun r => (r.2.last_qe, r.2.heap 0)) = some (some 0, none) ∧
    (ev_run stdEnv 10 EvState.init (threeRequests ++ [.cancel_char 10, .select])).map
        (fun r => r.1) = none := by
  refine ⟨by decide, by decide, by decide, by decide, by decide⟩

/-! ### Word wrapping in text buffer windows -/

namespace wintextbuffer

theorem ensure_space_frame (win : TextWin) (space : Int) :
    (ensure_space win space).drawn = win.drawn ∧ (ensure_space win space).area = win.area ∧
    (ensure_space win space).tb.cur_x = win.tb.cur_x := by
  unfold ensure_space
  by_cases h1 : win.tb.cur_y + space > win.area.h
  · by_cases h2 : win.tb.cur_y + space - win.area.h > win.tb.read_until
    · simp [h1, h2]
    · simp [h1, h2]
  · simp [h1]

theorem new_line_frame (E : Env) (win : TextWin) :
    (new_line E win).drawn = win.drawn ∧ (new_line E win).area = win.area ∧
    (new_line E win).tb.cur_x = 0 := by
  simp only [new_line]
  refine ⟨(ensure_space_frame win _).1, (ensure_space_frame win _).2.1, trivial⟩

theorem add_word_parts_drawn (word : List Surface) :
    ∀ win : TextWin, ∃ rest, (add_word_parts win word).drawn = win.drawn ++ rest := by
  induction word with
  | nil => intro win; exact ⟨[], by simp [add_word_parts]⟩
  | cons p ps ih =>
    intro win
    simp only [add_word_parts]
    obtain ⟨rest, hrest⟩ := ih
      { ensure_space win p.h with
          drawn := (ensure_space win p.h).drawn ++
            [⟨(ensure_space win p.h).area.x + (ensure_space win p.h).tb.cur_x,
              (ensure_space win p.h).area.y + (ensure_space win p.h).tb.cur_y, p.w, p.h⟩],
          tb := { (ensure_space win p.h).tb with
                    cur_x := (ensure_space win p.h).tb.cur_x + p.w,
                    line_height := max (ensure_space win p.h).tb.line_height p.h } }
    rw [hrest]
    simp only [(ensure_space_frame win p.h).1, List.append_assoc]
    exact ⟨_, rfl⟩

theorem add_word_parts_first (win : TextWin) (p : Surface) (ps : List Surface) :
    ∃ rest, (add_word_parts win (p :: ps)).drawn =
      win.drawn ++ ⟨win.area.x + win.tb.cur_x,
        win.area.y + (ensure_space win p.h).tb.cur_y, p.w, p.h⟩ :: rest := by
  simp only [add_word_parts]
  obtain ⟨rest, hrest⟩ := add_word_parts_drawn ps
      { ensure_space win p.h with
          drawn := (ensure_space win p.h).drawn ++
            [⟨(ensure_space win p.h).area.x + (ensure_space win p.h).tb.cur_x,
              (ensure_space win p.h).area.y + (ensure_space win p.h).tb.cur_y, p.w, p.h⟩],
          tb := { (ensure_space win p.h).tb with
                    cur_x := (ensure_space win p.h).tb.cur_x + p.w,
                    line_height := max (ensure_space win p.h).tb.line_height p.h } }
  rw [hrest]
  obtain ⟨h1, h2, h3⟩ := ensure_space_frame win p.h
  simp only [h1, h2, h3, List.append_assoc, List.singleton_append]
  exact ⟨_, rfl⟩

/-- C10 as stated fails at the start of a line: in a window 100 pixels wide
with the cursor at x = 0 and a space of 5 pixels pending, a word 98 pixels
wide satisfies cursor.x + s + w > W, but `add_word` breaks no line: the word
is drawn at y = 0 on the current line and the cursor stays on that line,
whereas after a line break it would be drawn at y = 10. -/
theorem add_word_line_start_no_break :
    lineStartWin.tb.cur_x + space_width stdEnv lineStartWin + width_word [⟨98, 10⟩] >
      lineStartWin.area.w ∧
    add_word stdEnv lineStartWin [⟨98, 10⟩] = add_word_parts lineStartWin [⟨98, 10⟩] ∧
    (add_word stdEnv lineStartWin [⟨98, 10⟩]).drawn = [⟨0, 0, 98, 10⟩] ∧
    (add_word stdEnv lineStartWin [⟨98, 10⟩]).tb.cur_y = 0 ∧
    (add_word_parts (new_line stdEnv lineStartWin) [⟨98, 10⟩]).drawn = [⟨0, 10, 98, 10⟩] ∧
    add_word stdEnv lineStartWin [⟨98, 10⟩] ≠
      add_word_parts (new_line stdEnv lineStartWin) [⟨98, 10⟩] := by
  refine ⟨by decide, by decide, by decide, by decide, by decide, by decide⟩

/-- C10, amended: when the cursor is not at the start of a line and
cursor.x + s + w > W, where s is the width of the pending space (0 when
there is none) and w the width of the word, `add_word` first breaks the line
with `new_line` and then places the word: the first part of the word is
drawn at x = 0 of the window, on the new line. -/
theorem add_word_breaks_line (E : Env) (win : TextWin) (word : List Surface)
    (hx : win.tb.cur_x ≠ 0)
    (hw : win.tb.cur_x + space_width E win + width_word word > win.area.w) :
    add_word E win word = add_word_parts (new_line E win) word ∧
    (new_line E win).tb.cur_x = 0 ∧
    ∀ p ps, word = p :: ps →
      ∃ rest, (add_word E win word).drawn =
        win.drawn ++ ⟨win.area.x + 0,
          win.area.y + (ensure_space (new_line E win) p.h).tb.cur_y, p.w, p.h⟩ :: rest := by
  have hadd : add_word E win word = add_word_parts (new_line E win) word := by
    simp only [add_word]
    rw [if_pos ⟨hx, hw⟩]
  refine ⟨hadd, (new_line_frame E win).2.2, ?_⟩
  intro p ps hword
  subst hword
  rw [hadd]
  obtain ⟨rest, hrest⟩ := add_word_parts_first (new_line E win) p ps
  obtain ⟨h1, h2, h3⟩ := new_line_frame E win
  rw [h1, h2, h3] at hrest
  exact ⟨rest, hrest⟩

/-- C10, amended, at a concrete input: behind a word 60 pixels wide in a
window 100 pixels wide, with a space of 5 pixels pending, a word 40 pixels
wide does not fit; the line is broken and the word is drawn at x = 0,
y = 10. -/
theorem add_word_breaks_line_witness :
    midLineWin.tb.cur_x ≠ 0 ∧
    midLineWin.tb.cur_x + space_width stdEnv midLineWin + width_word [⟨40, 10⟩] >
      midLineWin.area.w ∧
    add_word stdEnv midLineWin [⟨40, 10⟩] =
      add_word_parts (new_line stdEnv midLineWin) [⟨40, 10⟩] ∧
    (add_word stdEnv midLineWin [⟨40, 10⟩]).drawn = [⟨0, 0, 60, 10⟩, ⟨0, 10, 40, 10⟩] := by
  have h := add_word_breaks_line stdEnv midLineWin [⟨40, 10⟩] (by decide) (by decide)
  exact ⟨by decide, by decide, h.1, by rw [h.1]; decide⟩

end wintextbuffer

namespace wintextbuffer

/-! ### Words at the start of a line -/

theorem width_word_foldl (word : List Surface) (a : Int) :
    word.foldl (fun w p => w + p.w) a = a + width_word word := by
  unfold width_word
  induction word generalizing a with
  | nil => simp
  | cons p ps ih =>
    simp only [List.foldl_cons]
    rw [ih (a + p.w), ih (0 + p.w)]
    omega

theorem width_word_cons (p : Surface) (ps : List Surface) :
    width_word (p :: ps) = p.w + width_word ps := by
  have h := width_word_foldl ps (0 + p.w)
  simp only [width_word, List.foldl_cons] at h ⊢
  rw [h]
  omega

theorem add_word_parts_cur_x (word : List Surface) :
    ∀ win : TextWin, (add_word_parts win word).tb.cur_x = win.tb.cur_x + width_word word := by
  induction word with
  | nil => intro win; simp [add_word_parts, width_word]
  | cons p ps ih =>
    intro win
    simp only [add_word_parts]
    rw [ih, width_word_cons]
    simp only [(ensure_space_frame win p.h).2.2]
    omega

theorem ensure_space_fits (win : TextWin) (space : Int)
    (h : win.tb.cur_y + space ≤ win.area.h) : ensure_space win space = win := by
  unfold ensure_space
  rw [if_neg (by omega)]

theorem add_word_parts_cur_y (word : List Surface) :
    ∀ win : TextWin, (∀ p ∈ word, win.tb.cur_y + p.h ≤ win.area.h) →
      (add_word_parts win word).tb.cur_y = win.tb.cur_y := by
  induction word with
  | nil => intro win _; rfl
  | cons p ps ih =>
    intro win hfit
    simp only [add_word_parts]
    rw [ensure_space_fits win p.h (hfit p (by simp))]
    rw [ih]
    intro q hq
    exact hfit q (by simp [hq])

/-- C11: when the cursor is at the start of a line (cursor.x = 0), `add_word`
breaks no line and adds no space, whether or not a space is pending: the
parts of the word are placed directly from the unchanged cursor, the first
part is drawn at x = 0 of the window on the current line, the cursor stays
on that line when the parts fit below the cursor, and cursor.x becomes the
width of the word.  The same holds for a flush of a pending word. -/
theorem add_word_at_line_start (E : Env) (R : Renderer) (win : TextWin)
    (word : List Surface) (hx : win.tb.cur_x = 0) :
    add_word E win word = add_word_parts win word ∧
    (add_word E win word).tb.cur_x = width_word word ∧
    (∀ p ps, word = p :: ps →
      ∃ rest, (add_word E win word).drawn =
        win.drawn ++ ⟨win.area.x + 0, win.area.y + (ensure_space win p.h).tb.cur_y,
          p.w, p.h⟩ :: rest) ∧
    ((∀ p ∈ word, win.tb.cur_y + p.h ≤ win.area.h) →
      (add_word E win word).tb.cur_y = win.tb.cur_y) ∧
    (win.tb.curword ≠ [] →
      (nanoglk_wintextbuffer_flush E R win).drawn =
        (add_word_parts win (render_word R win)).drawn ∧
      (nanoglk_wintextbuffer_flush E R win).tb.cur_x = width_word (render_word R win)) := by
  have hadd : ∀ w : List Surface, add_word E win w = add_word_parts win w := by
    intro w
    simp only [add_word]
    rw [if_neg (by simp [hx]), if_neg (by simp [hx])]
  refine ⟨hadd word, ?_, ?_, ?_, ?_⟩
  · rw [hadd, add_word_parts_cur_x, hx]; omega
  · intro p ps hword
    subst hword
    rw [hadd]
    obtain ⟨rest, hrest⟩ := add_word_parts_first win p ps
    rw [hx] at hrest
    exact ⟨rest, hrest⟩
  · intro hfit
    rw [hadd]
    exact add_word_parts_cur_y word win hfit
  · intro hcw
    have hlen : win.tb.curword.length > 0 := List.length_pos.2 hcw
    simp only [nanoglk_wintextbuffer_flush, if_pos hlen, hadd]
    refine ⟨trivial, ?_⟩
    rw [add_word_parts_cur_x, hx]
    omega

/-- C11 at a concrete input: at the start of a line of a window 100 pixels
wide, with a space of 5 pixels pending, a word 40 pixels wide is drawn at
x = 0, y = 0 and the cursor moves to x = 40. -/
theorem add_word_at_line_start_witness :
    lineStartWin.tb.cur_x = 0 ∧
    (add_word stdEnv lineStartWin [⟨40, 10⟩]).drawn = [⟨0, 0, 40, 10⟩] ∧
    (add_word stdEnv lineStartWin [⟨40, 10⟩]).tb.cur_x = 40 ∧
    (add_word stdEnv lineStartWin [⟨40, 10⟩]).tb.cur_y = 0 := by
  have h := add_word_at_line_start stdEnv monoRenderer lineStartWin [⟨40, 10⟩] rfl
  refine ⟨rfl, by rw [h.1]; decide, by rw [h.2.1]; decide, ?_⟩
  rw [h.2.2.2.1 (by decide)]
  rfl

end wintextbuffer

namespace wintextbuffer

/-! ### Pagination -/

end wintextbuffer

namespace wintextbuffer

/-! ### Invariants of the text buffer state -/

end wintextbuffer

namespace wintextbuffer

end wintextbuffer

namespace wintextbuffer

/-! ### Three words in a cleared window -/

theorem render_runs_single (s : Nat) (f : Nat → Nat) :
    ∀ cs : List Nat, cs ≠ [] → render_runs (cs.map (fun c => (f c, s))) = [(s, cs.map f)] := by
  intro cs
  induction cs with
  | nil => intro h; exact absurd rfl h
  | cons c rest ih =>
    intro _
    by_cases hr : rest = []
    · subst hr
      simp [render_runs]
    · simp [render_runs, ih hr]

theorem tb_run_append (E : Env) (R : Renderer) (win : TextWin) (a b : List TbOp) :
    tb_run E R win (a ++ b) = tb_run E R (tb_run E R win a) b := by
  simp [tb_run, List.foldl_append]

theorem tb_run_put_chars (E : Env) (R : Renderer) :
    ∀ (cs : List Nat) (win : TextWin), (∀ c ∈ cs, c ≠ 32 ∧ c ≠ 10) →
      win.tb.curword.length + cs.length ≤ MAX_WORD_LEN →
      tb_run E R win (cs.map .put_char) =
        { win with
            tb := { win.tb with
                      curword := win.tb.curword ++ cs.map (fun c => (c % 65536, win.cur_styl)) } } := by
  intro cs
  induction cs with
  | nil => intro win _ _; simp [tb_run]
  | cons c rest ih =>
    intro win hch hlen
    have hc := hch c (List.mem_cons_self c rest)
    have hl : win.tb.curword.length < MAX_WORD_LEN := by
      simp only [List.length_cons] at hlen; omega
    have hstep : nanoglk_wintextbuffer_put_char E R win c =
        { win with tb := { win.tb with curword := win.tb.curword ++ [(c % 65536, win.cur_styl)] } } := by
      unfold nanoglk_wintextbuffer_put_char
      rw [if_neg hc.1, if_neg hc.2, if_pos hl]
    have hrun : tb_run E R win ((c :: rest).map .put_char) =
        tb_run E R (nanoglk_wintextbuffer_put_char E R win c) (rest.map .put_char) := by
      simp [tb_run, tb_step]
    rw [hrun, hstep, ih _ (fun d hd => hch d (List.mem_cons_of_mem c hd))]
    · simp
    · simp only [List.length_append, List.length_cons, List.length_nil] at hlen ⊢
      omega

end wintextbuffer

namespace wintextbuffer

theorem flush_word (E : Env) (R : Renderer) (win : TextWin) (cs : List Nat)
    (hcw : win.tb.curword = []) (hne : cs ≠ []) (hch : ∀ c ∈ cs, c ≠ 32 ∧ c ≠ 10)
    (hlen : cs.length ≤ MAX_WORD_LEN) :
    nanoglk_wintextbuffer_flush E R (tb_run E R win (cs.map .put_char)) =
      { add_word E
          { win with
              tb := { win.tb with curword := cs.map (fun c => (c % 65536, win.cur_styl)) } }
          [R win.cur_styl ((cs.map (fun c => c % 65536)).takeWhile (fun c => c ≠ 0))] with
        tb := { (add_word E
          { win with
              tb := { win.tb with curword := cs.map (fun c => (c % 65536, win.cur_styl)) } }
          [R win.cur_styl ((cs.map (fun c => c % 65536)).takeWhile (fun c => c ≠ 0))]).tb with
            curword := [] } } := by
  rw [tb_run_put_chars E R cs win hch (by rw [hcw]; simpa using hlen), hcw, List.nil_append]
  have hpos : (cs.map (fun c => (c % 65536, win.cur_styl))).length > 0 := by
    rw [List.length_map]
    exact List.length_pos.mpr hne
  unfold nanoglk_wintextbuffer_flush
  simp only []
  rw [if_pos hpos]
  simp only [render_word, render_runs_single win.cur_styl (fun c => c % 65536) cs hne,
    List.map_cons, List.map_nil]

end wintextbuffer

namespace wintextbuffer

/-- C12: in a cleared text buffer window 100 pixels wide whose space is 5
pixels wide, the characters of three words that each render 40 pixels wide,
separated by single spaces and followed by a flush, are displayed as
follows, provided that the two lines fit in the height of the window: the
first word at x = 0 and the second at x = 45 of the first line, with
cursor.x = 85 after the second word; the third word at x = 0 of a second
line whose y is the height of the first line; nothing is scrolled. -/
theorem three_words_wrap (E : Env) (R : Renderer) (win0 : TextWin) (w1 w2 w3 : List Nat)
    (h1 h2 h3 : Int)
    (hw : win0.area.w = 100)
    (hstyl : win0.cur_styl ≠ NO_SPACE)
    (hsp : E.buffer_space_width win0.cur_styl = 5)
    (hne1 : w1 ≠ []) (hne2 : w2 ≠ []) (hne3 : w3 ≠ [])
    (hch1 : ∀ c ∈ w1, c ≠ 32 ∧ c ≠ 10) (hch2 : ∀ c ∈ w2, c ≠ 32 ∧ c ≠ 10)
    (hch3 : ∀ c ∈ w3, c ≠ 32 ∧ c ≠ 10)
    (hlen1 : w1.length ≤ MAX_WORD_LEN) (hlen2 : w2.length ≤ MAX_WORD_LEN)
    (hlen3 : w3.length ≤ MAX_WORD_LEN)
    (hR1 : R win0.cur_styl ((w1.map (fun c => c % 65536)).takeWhile (fun c => c ≠ 0)) = ⟨40, h1⟩)
    (hR2 : R win0.cur_styl ((w2.map (fun c => c % 65536)).takeWhile (fun c => c ≠ 0)) = ⟨40, h2⟩)
    (hR3 : R win0.cur_styl ((w3.map (fun c => c % 65536)).takeWhile (fun c => c ≠ 0)) = ⟨40, h3⟩)
    (hh1 : 0 < h1) (hh3 : 0 < h3)
    (htall : max h1 h2 + h3 ≤ win0.area.h) :
    (tb_run E R (nanoglk_wintextbuffer_clear win0)
        (w1.map .put_char ++ [.put_char 32] ++ w2.map .put_char ++ [.put_char 32])).tb.cur_x = 85 ∧
    (tb_run E R (nanoglk_wintextbuffer_clear win0)
        (w1.map .put_char ++ [.put_char 32] ++ w2.map .put_char ++ [.put_char 32])).tb.cur_y = 0 ∧
    (tb_run E R (nanoglk_wintextbuffer_clear win0) (three_words w1 w2 w3 ++ [.flush])).drawn =
      win0.drawn ++
        [⟨win0.area.x + 0, win0.area.y + 0, 40, h1⟩,
         ⟨win0.area.x + 45, win0.area.y + 0, 40, h2⟩,
         ⟨win0.area.x + 0, win0.area.y + max h1 h2, 40, h3⟩] ∧
    (tb_run E R (nanoglk_wintextbuffer_clear win0) (three_words w1 w2 w3 ++ [.flush])).tb.cur_x
      = 40 ∧
    (tb_run E R (nanoglk_wintextbuffer_clear win0) (three_words w1 w2 w3 ++ [.flush])).tb.cur_y
      = max h1 h2 ∧
    (tb_run E R (nanoglk_wintextbuffer_clear win0) (three_words w1 w2 w3 ++ [.flush])).scrolled
      = win0.scrolled ∧
    (tb_run E R (nanoglk_wintextbuffer_clear win0) (three_words w1 w2 w3 ++ [.flush])).prompts
      = win0.prompts := by
  have hR1n := hR1
  have hR2n := hR2
  have hR3n := hR3
  simp only [ne_eq, decide_not] at hR1n hR2n hR3n
  have hm1 : max (0 : Int) h1 = h1 := max_eq_right (le_of_lt hh1)
  have hmpos : 0 < max h1 h2 := lt_max_of_lt_left hh1
  have hle1 : h1 ≤ win0.area.h := by
    have := le_max_left h1 h2
    omega
  have hle2 : h2 ≤ win0.area.h := by
    have := le_max_right h1 h2
    omega
  -- the state after the first word and the space
  have hS1 : tb_run E R (nanoglk_wintextbuffer_clear win0) (w1.map .put_char ++ [.put_char 32]) =
      ⟨win0.area, win0.cur_styl, ⟨40, 0, h1, 0, 0, [], win0.cur_styl⟩,
        win0.drawn ++ [⟨win0.area.x + 0, win0.area.y + 0, 40, h1⟩], win0.prompts,
        win0.scrolled⟩ := by
    rw [tb_run_append]
    have hf := flush_word E R (nanoglk_wintextbuffer_clear win0) w1 rfl hne1 hch1 hlen1
    simp only [tb_run, List.foldl_cons, List.foldl_nil, tb_step] at hf ⊢
    unfold nanoglk_wintextbuffer_put_char
    rw [if_pos rfl]
    simp only []
    rw [hf]
    simp [nanoglk_wintextbuffer_clear, hR1n, add_word, add_word_parts, ensure_space, space_width,
      width_word, not_lt.mpr hle1, hm1]
  -- the state after the second word and the space
  have hS2 : tb_run E R (nanoglk_wintextbuffer_clear win0)
      (w1.map .put_char ++ [.put_char 32] ++ w2.map .put_char ++ [.put_char 32]) =
      ⟨win0.area, win0.cur_styl, ⟨85, 0, max h1 h2, 0, 0, [], win0.cur_styl⟩,
        win0.drawn ++ [⟨win0.area.x + 0, win0.area.y + 0, 40, h1⟩,
          ⟨win0.area.x + 45, win0.area.y + 0, 40, h2⟩], win0.prompts, win0.scrolled⟩ := by
    rw [tb_run_append, tb_run_append, hS1]
    have hf := flush_word E R
      ⟨win0.area, win0.cur_styl, ⟨40, 0, h1, 0, 0, [], win0.cur_styl⟩,
        win0.drawn ++ [⟨win0.area.x + 0, win0.area.y + 0, 40, h1⟩], win0.prompts,
        win0.scrolled⟩ w2 rfl hne2 hch2 hlen2
    simp only [tb_run, List.foldl_cons, List.foldl_nil, tb_step] at hf ⊢
    unfold nanoglk_wintextbuffer_put_char
    rw [if_pos rfl]
    simp only []
    rw [hf]
    simp [hR2n, add_word, add_word_parts, ensure_space, space_width,
      width_word, not_lt.mpr hle2, hstyl, hsp, hw]
  -- the final state
  have hS3 : tb_run E R (nanoglk_wintextbuffer_clear win0) (three_words w1 w2 w3 ++ [.flush]) =
      ⟨win0.area, win0.cur_styl, ⟨40, max h1 h2, h3, max h1 h2, 0, [], NO_SPACE⟩,
        win0.drawn ++ [⟨win0.area.x + 0, win0.area.y + 0, 40, h1⟩,
          ⟨win0.area.x + 45, win0.area.y + 0, 40, h2⟩,
          ⟨win0.area.x + 0, win0.area.y + max h1 h2, 40, h3⟩], win0.prompts, win0.scrolled⟩ := by
    unfold three_words
    rw [tb_run_append, tb_run_append, hS2]
    have hf := flush_word E R
      ⟨win0.area, win0.cur_styl, ⟨85, 0, max h1 h2, 0, 0, [], win0.cur_styl⟩,
        win0.drawn ++ [⟨win0.area.x + 0, win0.area.y + 0, 40, h1⟩,
          ⟨win0.area.x + 45, win0.area.y + 0, 40, h2⟩], win0.prompts, win0.scrolled⟩
      w3 rfl hne3 hch3 hlen3
    have hle3 : max h1 h2 ≤ win0.area.h := by omega
    simp only [tb_run, List.foldl_cons, List.foldl_nil, tb_step] at hf ⊢
    rw [hf]
    simp [hR3n, add_word, add_word_parts, new_line, ensure_space, space_width,
      width_word, hstyl, hsp, hw, hmpos, not_lt.mpr hle3, not_lt.mpr htall,
      max_eq_right (le_of_lt hh3)]
  rw [hS2, hS3]
  exact ⟨rfl, rfl, rfl, rfl, rfl, rfl, rfl⟩

/-- C12 at a concrete input: the words "ab", "cd" and "ef" in the cleared
window `clearedWin`, every character 20 pixels wide and 10 pixels high. -/
theorem three_words_wrap_witness :
    (tb_run stdEnv monoRenderer (nanoglk_wintextbuffer_clear clearedWin)
      (three_words [97, 98] [99, 100] [101, 102] ++ [.flush])).drawn =
      [⟨0, 0, 40, 10⟩, ⟨45, 0, 40, 10⟩, ⟨0, 10, 40, 10⟩] ∧
    (tb_run stdEnv monoRenderer (nanoglk_wintextbuffer_clear clearedWin)
      ([97, 98].map .put_char ++ [.put_char 32] ++ [99, 100].map .put_char ++
        [.put_char 32])).tb.cur_x = 85 := by
  have h := three_words_wrap stdEnv monoRenderer clearedWin [97, 98] [99, 100] [101, 102]
    10 10 10 (by decide) (by decide) (by decide) (by decide) (by decide) (by decide)
    (by decide) (by decide) (by decide) (by decide) (by decide) (by decide)
    (by decide) (by decide) (by decide) (by decide) (by decide) (by decide)
  exact ⟨h.2.2.1.trans (by decide), h.1⟩

end wintextbuffer

/-! ### Text grid windows -/

namespace wintextgrid

/-- C16 fails in the code: in the text grid window `gridWin 24 0` (10 columns
and 2 rows of cells 8 x 16, cursor in column 3 of row 0), putting a newline
character moves the cursor to column 0 of row 1, then copies a glyph for the
newline character to that cell and advances: the cursor is left at x = 8,
y = 16, not at x = 0. -/
theorem put_char_newline_draws :
    (nanoglk_wintextgrid_put_char stdEnv (gridWin 24 0) 10).tg = ⟨8, 16⟩ ∧
    (nanoglk_wintextgrid_put_char stdEnv (gridWin 24 0) 10).tg.cur_x ≠ 0 ∧
    (nanoglk_wintextgrid_put_char stdEnv (gridWin 24 0) 10).drawn = [(10, ⟨0, 16, 8, 16⟩)] ∧
    new_line stdEnv (gridWin 24 0) = gridWin 0 16 := by
  refine ⟨by decide, by decide, by decide, by decide⟩

end wintextgrid

/-! ### The sizes of a proportional split -/

theorem round_even_err (q : ℚ) : |(round_even q : ℚ) - q| ≤ 1 / 2 := by
  have h1 := Int.floor_le q
  have h2 := Int.lt_floor_add_one q
  unfold round_even
  rw [abs_le]
  split_ifs with ha hb hc
  · constructor <;> linarith
  · push_cast; constructor <;> linarith
  · constructor <;> linarith
  · push_cast; constructor <;> linarith

theorem round_even_intCast (z : Int) : round_even (z : ℚ) = z := by
  unfold round_even
  rw [Int.floor_intCast]
  simp

theorem two_zpow_natCast (k : Int) (hk : 0 ≤ k) :
    (2 : ℚ) ^ k = (((2 : Int) ^ k.toNat : Int) : ℚ) := by
  obtain ⟨n, rfl⟩ := Int.eq_ofNat_of_zero_le hk
  simp

/-- An integer of absolute value below 2^53 is a `double`. -/
theorem to_double_intCast (z : Int) (hz : |z| < 9007199254740992) :
    to_double (z : ℚ) = z := by
  unfold to_double
  by_cases h0 : (z : ℚ) = 0
  · rw [if_pos h0, h0]
  · rw [if_neg h0]
    have hpos : (0 : ℚ) < |(z : ℚ)| := abs_pos.mpr h0
    have hlt : |(z : ℚ)| < ((2 : Nat) : ℚ) ^ (53 : Int) := by
      have : |(z : ℚ)| = ((|z| : Int) : ℚ) := by push_cast; rfl
      rw [this]
      have h53 : (((2 : Nat) : ℚ)) ^ (53 : Int) = ((9007199254740992 : Int) : ℚ) := by norm_num
      rw [h53]
      exact_mod_cast hz
    have he : Int.log 2 |(z : ℚ)| < 53 := (Int.lt_zpow_iff_log_lt (by norm_num) hpos).mp hlt
    generalize Int.log 2 |(z : ℚ)| = e at he
    have hk : 0 ≤ 52 - e := by omega
    rw [two_zpow_natCast (52 - e) hk]
    rw [← Int.cast_mul, round_even_intCast, Int.cast_mul, ← two_zpow_natCast (52 - e) hk,
      mul_assoc, ← zpow_add₀ (by norm_num : (2 : ℚ) ≠ 0)]
    have : 52 - e + (e - 52) = 0 := by ring
    rw [this, zpow_zero, mul_one]

/-- The result of rounding to `double` differs from the exact value by at
most half a unit of the last place. -/
theorem to_double_err (q : ℚ) (hq : q ≠ 0) :
    |to_double q - q| ≤ 2 ^ (Int.log 2 |q| - 53) := by
  unfold to_double
  rw [if_neg hq]
  generalize Int.log 2 |q| = e
  have h2 : (2 : ℚ) ≠ 0 := by norm_num
  have hq2 : q = q * 2 ^ (52 - e) * 2 ^ (e - 52) := by
    rw [mul_assoc, ← zpow_add₀ h2]
    have : 52 - e + (e - 52) = 0 := by ring
    rw [this, zpow_zero, mul_one]
  have hpos : (0 : ℚ) < 2 ^ (e - 52) := zpow_pos (by norm_num) _
  calc |(round_even (q * 2 ^ (52 - e)) : ℚ) * 2 ^ (e - 52) - q|
      = |((round_even (q * 2 ^ (52 - e)) : ℚ) - q * 2 ^ (52 - e)) * 2 ^ (e - 52)| := by
        congr 1
        rw [sub_mul, ← hq2]
    _ = |(round_even (q * 2 ^ (52 - e)) : ℚ) - q * 2 ^ (52 - e)| * 2 ^ (e - 52) := by
        rw [abs_mul, abs_of_pos hpos]
    _ ≤ 1 / 2 * 2 ^ (e - 52) :=
        mul_le_mul_of_nonneg_right (round_even_err _) hpos.le
    _ = 2 ^ (e - 53) := by
        have : e - 52 = (e - 53) + 1 := by ring
        rw [this, zpow_add₀ h2, zpow_one]
        ring

theorem double_to_int_floor (q : ℚ) (h0 : 0 ≤ q) (h1 : q < 2147483648) :
    double_to_int q = ⌊q⌋ := by
  unfold double_to_int
  simp only [if_pos h0]
  have hf0 : 0 ≤ ⌊q⌋ := Int.floor_nonneg.mpr h0
  have hf1 : ⌊q⌋ < 2147483648 := by
    rw [Int.floor_lt]
    exact_mod_cast h1
  rw [if_pos ⟨by omega, hf1⟩]

/-- With the factor 1 the `double` arithmetic of the proportional case rounds
down: an `unsigned int` n gives n / 100, rounded down. -/
theorem scale_proportional_one (n : Nat) (hn : n < 4294967296) :
    scale_proportional 1 n = (n : Int) / 100 := by
  unfold scale_proportional
  have hn1 : to_double (n : ℚ) = n := by
    have := to_double_intCast (n : Int) (by rw [abs_of_nonneg (by positivity)]; omega)
    simpa using this
  rw [hn1, mul_one, hn1]
  have hdm := Nat.div_add_mod n 100
  have hr := Nat.mod_lt n (by norm_num : 100 > 0)
  set k := n / 100 with hk
  set r := n % 100 with hr0
  have hkb : k < 42949673 := by omega
  have hx : (n : ℚ) / 100 = k + (r : ℚ) / 100 := by
    have : (n : ℚ) = 100 * k + r := by exact_mod_cast hdm.symm
    rw [this]; ring
  have hgoal : ((n : Int) / 100) = (k : Int) := by
    rw [hk]; norm_cast
  rw [hgoal]
  by_cases hr1 : r = 0
  · have hxk : (n : ℚ) / 100 = ((k : Int) : ℚ) := by
      rw [hx, hr1]; simp
    rw [hxk, to_double_intCast (k : Int) (by rw [abs_of_nonneg (by positivity)]; omega)]
    rw [double_to_int_floor _ (by positivity) (by exact_mod_cast (by omega : (k : Int) < 2147483648))]
    exact Int.floor_intCast _
  · have hrpos : 1 ≤ r := Nat.one_le_iff_ne_zero.mpr hr1
    have hxlo : (k : ℚ) + 1 / 100 ≤ (n : ℚ) / 100 := by
      rw [hx]
      have : (1 : ℚ) ≤ r := by exact_mod_cast hrpos
      linarith
    have hxhi : (n : ℚ) / 100 ≤ (k : ℚ) + 99 / 100 := by
      rw [hx]
      have : (r : ℚ) ≤ 99 := by exact_mod_cast (by omega : r ≤ 99)
      linarith
    have hk0 : (0 : ℚ) ≤ k := by positivity
    have hxpos : (0 : ℚ) < (n : ℚ) / 100 := by linarith
    have hne : (n : ℚ) / 100 ≠ 0 := ne_of_gt hxpos
    have herr := to_double_err _ hne
    rw [abs_of_pos hxpos] at herr
    have he : Int.log 2 ((n : ℚ) / 100) < 26 := by
      apply (Int.lt_zpow_iff_log_lt (by norm_num) hxpos).mp
      have hkq : (k : ℚ) < 42949673 := by exact_mod_cast hkb
      norm_num
      linarith
    have hpow : (2 : ℚ) ^ (Int.log 2 ((n : ℚ) / 100) - 53) ≤ 2 ^ (-28 : Int) :=
      zpow_le_zpow_right₀ (by norm_num) (by omega)
    have h28 : (2 : ℚ) ^ (-28 : Int) < 1 / 100 := by norm_num
    rw [abs_le] at herr
    obtain ⟨hlo, hhi⟩ := herr
    have hdlo : (k : ℚ) ≤ to_double ((n : ℚ) / 100) := by linarith
    have hdhi : to_double ((n : ℚ) / 100) < (k : ℚ) + 1 := by linarith
    have hkq : (k : ℚ) < 42949673 := by exact_mod_cast hkb
    rw [double_to_int_floor _ (by linarith) (by linarith)]
    rw [Int.floor_eq_iff]
    exact ⟨by exact_mod_cast hdlo, by exact_mod_cast hdhi⟩

/-- With the factor 1 the `double` arithmetic of the fixed case gives the
`unsigned int` itself if it is in the range of `int`, and the least `int`
otherwise. -/
theorem scale_fixed_one (n : Nat) (hn : n < 4294967296) :
    scale_fixed 1 n = if n < 2147483648 then (n : Int) else -2147483648 := by
  unfold scale_fixed
  have hn1 : to_double (n : ℚ) = n := by
    have := to_double_intCast (n : Int) (by rw [abs_of_nonneg (by positivity)]; omega)
    simpa using this
  rw [hn1, mul_one, hn1]
  unfold double_to_int
  have h0 : (0 : ℚ) ≤ n := by positivity
  simp only [if_pos h0, Int.floor_natCast]
  split_ifs with h1 h2 h3
  · rfl
  · omega
  · omega
  · rfl

theorem toU32_lt (z : Int) : toU32 z < 4294967296 := by
  unfold toU32
  have h0 := Int.emod_nonneg z (by norm_num : (4294967296 : Int) ≠ 0)
  have h1 := Int.emod_lt_of_pos z (by norm_num : (0 : Int) < 4294967296)
  omega

theorem toU32_of_range (z : Int) (h0 : 0 ≤ z) (h1 : z < 4294967296) :
    ((toU32 z : Nat) : Int) = z := by
  unfold toU32
  rw [Int.toNat_of_nonneg (Int.emod_nonneg _ (by norm_num))]
  omega

theorem wrap32_scale_proportional_one (n : Nat) (hn : n < 4294967296) :
    wrap32 (scale_proportional 1 n) = (n : Int) / 100 := by
  rw [scale_proportional_one n hn]
  exact wrap32_of_range ⟨by omega, by omega⟩

/-- The fields of `stdEnv` are the `double` arithmetic of the code with all
factors equal to 1, at every value of `unsigned int`. -/
theorem stdEnv_scale_double (n : Nat) (hn : n < 4294967296) :
    stdEnv.scale_vertical_proportional n = scale_proportional 1 n ∧
    stdEnv.scale_horizontal_proportional n = scale_proportional 1 n ∧
    stdEnv.scale_vertical_fixed n = scale_fixed 1 n ∧
    stdEnv.scale_horizontal_fixed n = scale_fixed 1 n :=
  ⟨(scale_proportional_one n hn).symm, (scale_proportional_one n hn).symm,
    (scale_fixed_one n hn).symm, (scale_fixed_one n hn).symm⟩

/-- The proportional size along the vertical axis with the factor 1. -/
theorem window_calc_size_px_vertical (E : Env) (area : SDL_Rect) (right : glk_window_struct)
    (hv : E.scale_vertical_proportional = scale_proportional 1)
    (hfp : E.winmethod_Proportional ≠ E.winmethod_Fixed)
    (hd : right.method &&& E.winmethod_DivisionMask = E.winmethod_Proportional)
    (hab : right.method &&& E.winmethod_DirMask = E.winmethod_Above ∨
      right.method &&& E.winmethod_DirMask = E.winmethod_Below) :
    window_calc_size_px E area right =
      some (((toU32 ((right.size : Int) * area.h) : Nat) : Int) / 100) := by
  unfold window_calc_size_px
  simp only []
  rw [hd, if_neg hfp, if_pos rfl, if_pos hab, hv, wrap32_scale_proportional_one _ (toU32_lt _)]

/-- The proportional size along the horizontal axis with the factor 1. -/
theorem window_calc_size_px_horizontal (E : Env) (area : SDL_Rect)
    (right : glk_window_struct)
    (hh : E.scale_horizontal_proportional = scale_proportional 1)
    (hfp : E.winmethod_Proportional ≠ E.winmethod_Fixed)
    (hd : right.method &&& E.winmethod_DivisionMask = E.winmethod_Proportional)
    (hnab : ¬ (right.method &&& E.winmethod_DirMask = E.winmethod_Above ∨
      right.method &&& E.winmethod_DirMask = E.winmethod_Below))
    (hlr : right.method &&& E.winmethod_DirMask = E.winmethod_Left ∨
      right.method &&& E.winmethod_DirMask = E.winmethod_Right) :
    window_calc_size_px E area right =
      some (((toU32 ((right.size : Int) * area.w) : Nat) : Int) / 100) := by
  unfold window_calc_size_px
  simp only []
  rw [hd, if_neg hfp, if_pos rfl, if_neg hnab, if_pos hlr, hh,
    wrap32_scale_proportional_one _ (toU32_lt _)]

/-- C19 as stated fails where the product of the size and the extent leaves
the range of `glui32`: with the factor 1, the proportional size 10000000 of
a window of the height 480, opened above, is 5050327 pixels, which is
(10000000 * 480 mod 2^32) / 100 and not 10000000 * 480 / 100 = 48000000. -/
theorem window_calc_size_px_wraps :
    window_calc_size_px vgaDoubleEnv ⟨0, 0, 640, 480⟩
      { parent := some 3, left := none, right := none, method := 34, size := 10000000,
        wintype := 4, rock := 0, area := ⟨0, 0, 640, 480⟩ } = some 5050327 ∧
    (5050327 : Int) ≠ 10000000 * 480 / 100 ∧
    (5050327 : Int) = 10000000 * 480 % 4294967296 / 100 := by
  refine ⟨?_, by decide, by decide⟩
  rw [window_calc_size_px_vertical vgaDoubleEnv _ _ rfl (by decide) (by decide) (by decide)]
  decide

/-- C19, amended: with the factors of the window sizes equal to 1 (the scale
functions being the `double` arithmetic of the code) and a display of
640 x 480, opening a root text buffer window and splitting it with a new
window "above, proportional, size 10" gives the new window the rectangle
x = 0, y = 0, width 640, height 48 and the original window x = 0,
y = 48 + border, width 640, height 480 - 48 - border, where border is 1 if
the method requests a border and 0 otherwise.  In general, a proportional
size p gives the new window (p * extent mod 2^32) / 100 pixels, rounded down,
of the height (above, below) or width (left, right) of the window that is
split; this is p * extent / 100, rounded down, whenever the product is in
the range of `glui32`. -/
theorem glk_window_open_proportional (E : Env) (fuel : Nat) (a w p p0 : Nat)
    (method wintype rock method0 size0 rock0 : Nat)
    (hv : E.scale_vertical_proportional = scale_proportional 1)
    (hh : E.scale_horizontal_proportional = scale_proportional 1)
    (htw : E.texture_w = 640) (hth : E.texture_h = 480)
    (hdir : method &&& E.winmethod_DirMask = E.winmethod_Above)
    (hdiv : method &&& E.winmethod_DivisionMask = E.winmethod_Proportional)
    (hfp : E.winmethod_Proportional ≠ E.winmethod_Fixed)
    (haw : a ≠ w) (hap : a ≠ p) (hwp : w ≠ p) (hfuel : 0 < fuel) :
    (∃ s1 s2,
      glk_window_open E fuel WinState.init a p0 none method0 size0 E.wintype_TextBuffer rock0 =
        some (s1, a) ∧
      glk_window_open E fuel s1 w p (some a) method 10 wintype rock = some (s2, w) ∧
      (s2.heap w).map (fun x => x.area) = some ⟨0, 0, 640, 48⟩ ∧
      (s2.heap a).map (fun x => x.area) =
        some ⟨0, 48 + (if method &&& E.winmethod_BorderMask = E.winmethod_Border then 1 else 0),
          640, 480 - 48 - (if method &&& E.winmethod_BorderMask = E.winmethod_Border then 1 else 0)⟩) ∧
    (∀ (area : SDL_Rect) (right : glk_window_struct),
      right.method &&& E.winmethod_DivisionMask = E.winmethod_Proportional →
      (right.method &&& E.winmethod_DirMask = E.winmethod_Above ∨
        right.method &&& E.winmethod_DirMask = E.winmethod_Below) →
      window_calc_size_px E area right =
        some ((right.size : Int) * area.h % 4294967296 / 100) ∧
      (0 ≤ area.h → (right.size : Int) * area.h < 4294967296 →
        window_calc_size_px E area right = some ((right.size : Int) * area.h / 100))) ∧
    (∀ (area : SDL_Rect) (right : glk_window_struct),
      right.method &&& E.winmethod_DivisionMask = E.winmethod_Proportional →
      ¬ (right.method &&& E.winmethod_DirMask = E.winmethod_Above ∨
        right.method &&& E.winmethod_DirMask = E.winmethod_Below) →
      (right.method &&& E.winmethod_DirMask = E.winmethod_Left ∨
        right.method &&& E.winmethod_DirMask = E.winmethod_Right) →
      window_calc_size_px E area right =
        some ((right.size : Int) * area.w % 4294967296 / 100) ∧
      (0 ≤ area.w → (right.size : Int) * area.w < 4294967296 →
        window_calc_size_px E area right = some ((right.size : Int) * area.w / 100))) := by
  have hmod : ∀ z : Int, ((toU32 z : Nat) : Int) = z % 4294967296 := by
    intro z
    unfold toU32
    exact Int.toNat_of_nonneg (Int.emod_nonneg _ (by norm_num))
  refine ⟨?_, ?_, ?_⟩
  · obtain ⟨f, rfl⟩ : ∃ f, fuel = f + 1 := ⟨fuel - 1, by omega⟩
    have hwa : w ≠ a := fun h => haw h.symm
    have hpa : p ≠ a := fun h => hap h.symm
    have hpw : p ≠ w := fun h => hwp h.symm
    have hsz : window_calc_size_px E ⟨0, 0, 640, 480⟩
        { parent := some p, left := none, right := none, method := method, size := 10,
          wintype := wintype, rock := rock, area := ⟨0, 0, 640, 480⟩ } = some 48 := by
      rw [window_calc_size_px_vertical E _ _ hv hfp hdiv (Or.inl hdir), hmod]
      norm_num
    refine ⟨{ heap := WinHeap.set (fun _ => none) a
                { parent := none, left := none, right := none, method := method0,
                  size := size0, wintype := E.wintype_TextBuffer, rock := rock0,
                  area := ⟨0, 0, 640, 480⟩ },
              root := some a, wtg_resize_callcount := 0 }, ?_⟩
    have h431 : wrap32 431 = 431 := by decide
    have h432 : wrap32 432 = 432 := by decide
    have h49 : wrap32 49 = 49 := by decide
    have h48 : wrap32 48 = 48 := by decide
    by_cases hb : method &&& E.winmethod_BorderMask = E.winmethod_Border
    · simp [glk_window_open, WinState.init, WinHeap.set, glk_window_open_replace, htw, hth,
        window_calc_sizes, hwa, hpa, hpw, haw, hap, hwp, hsz, hdir, window_resize,
        WinState.set_area, window_border, BORDER_WIDTH, hb, h431, h49]
    · simp [glk_window_open, WinState.init, WinHeap.set, glk_window_open_replace, htw, hth,
        window_calc_sizes, hwa, hpa, hpw, haw, hap, hwp, hsz, hdir, window_resize,
        WinState.set_area, window_border, BORDER_WIDTH, hb, h432, h48]
  · intro area right hd hab
    have hgen := window_calc_size_px_vertical E area right hv hfp hd hab
    rw [hmod] at hgen
    refine ⟨hgen, fun h0 h1 => ?_⟩
    rw [hgen, Int.emod_eq_of_lt (mul_nonneg (by positivity) h0) h1]
  · intro area right hd hnab hlr
    have hgen := window_calc_size_px_horizontal E area right hh hfp hd hnab hlr
    rw [hmod] at hgen
    refine ⟨hgen, fun h0 h1 => ?_⟩
    rw [hgen, Int.emod_eq_of_lt (mul_nonneg (by positivity) h0) h1]

/-- C19 at a concrete input: the display of 640 x 480 with the `double`
arithmetic of the code, the windows at the addresses 1 and 2 and the pair at
3, the method "above, proportional" with a border. -/
theorem glk_window_open_proportional_witness :
    ∃ s1 s2,
      glk_window_open vgaDoubleEnv 1 WinState.init 1 0 none 0 0
        vgaDoubleEnv.wintype_TextBuffer 0 = some (s1, 1) ∧
      glk_window_open vgaDoubleEnv 1 s1 2 3 (some 1) 34 10 vgaDoubleEnv.wintype_TextGrid 0 =
        some (s2, 2) ∧
      (s2.heap 2).map (fun x => x.area) = some ⟨0, 0, 640, 48⟩ ∧
      (s2.heap 1).map (fun x => x.area) = some ⟨0, 49, 640, 431⟩ := by
  obtain ⟨s1, s2, h1, h2, h3, h4⟩ :=
    (glk_window_open_proportional vgaDoubleEnv 1 1 2 3 0 34 vgaDoubleEnv.wintype_TextGrid
      0 0 0 0 rfl rfl rfl rfl (by decide) (by decide) (by decide) (by decide)
      (by decide) (by decide) (by decide)).1
  exact ⟨s1, s2, h1, h2, h3, h4⟩

/-! ### Style hints and the colours of open windows -/

theorem set_hint_isSome (F : StyleEnv) (styl hint : Nat) (val : Int) (t : HintTables)
    (h : styl < F.style_NUMSTYLES) : ∃ t1, set_hint F styl hint val t = some t1 := by
  unfold set_hint
  simp only [if_pos h]
  split_ifs <;> exact ⟨_, rfl⟩

theorem clear_hint_isSome (F : StyleEnv) (styl hint : Nat) (t : HintTables)
    (font_fg font_bg : Nat → SDL_Color) (h : styl < F.style_NUMSTYLES) :
    ∃ t1, clear_hint F styl hint t font_fg font_bg = some t1 := by
  unfold clear_hint
  simp only [if_pos h]
  split_ifs <;> exact ⟨_, rfl⟩

theorem glk_stylehint_set_windows (E : Env) (F : StyleEnv) (st : StyleState)
    (wintype styl hint : Nat) (val : Int) (h : styl < F.style_NUMSTYLES) :
    ∃ st1, glk_stylehint_set E F st wintype styl hint val = some st1 ∧
      st1.win_fg = st.win_fg ∧ st1.win_bg = st.win_bg := by
  unfold glk_stylehint_set
  by_cases hb : wintype = E.wintype_TextBuffer ∨ wintype = F.wintype_AllTypes
  · obtain ⟨t1, ht1⟩ := set_hint_isSome F styl hint val st.buffer h
    by_cases hg : wintype = E.wintype_TextGrid ∨ wintype = F.wintype_AllTypes
    · obtain ⟨t2, ht2⟩ := set_hint_isSome F styl hint val (st.set_buffer t1).grid h
      simp only [if_pos hb, if_pos hg, ht1, Option.map_some', ht2]
      exact ⟨_, rfl, rfl, rfl⟩
    · simp only [if_pos hb, if_neg hg, ht1, Option.map_some']
      exact ⟨_, rfl, rfl, rfl⟩
  · by_cases hg : wintype = E.wintype_TextGrid ∨ wintype = F.wintype_AllTypes
    · obtain ⟨t2, ht2⟩ := set_hint_isSome F styl hint val st.grid h
      simp only [if_neg hb, if_pos hg, Option.map_some', ht2]
      exact ⟨_, rfl, rfl, rfl⟩
    · simp only [if_neg hb, if_neg hg]
      exact ⟨_, rfl, rfl, rfl⟩

theorem glk_stylehint_clear_windows (E : Env) (F : StyleEnv) (st : StyleState)
    (wintype styl hint : Nat) (h : styl < F.style_NUMSTYLES) :
    ∃ st1, glk_stylehint_clear E F st wintype styl hint = some st1 ∧
      st1.win_fg = st.win_fg ∧ st1.win_bg = st.win_bg := by
  unfold glk_stylehint_clear
  by_cases hb : wintype = E.wintype_TextBuffer ∨ wintype = F.wintype_AllTypes
  · obtain ⟨t1, ht1⟩ := clear_hint_isSome F styl hint st.buffer F.buffer_font_fg
      F.buffer_font_bg h
    by_cases hg : wintype = E.wintype_TextGrid ∨ wintype = F.wintype_AllTypes
    · obtain ⟨t2, ht2⟩ := clear_hint_isSome F styl hint (st.set_buffer t1).grid F.grid_font_fg
        F.grid_font_bg h
      simp only [if_pos hb, if_pos hg, ht1, Option.map_some', ht2]
      exact ⟨_, rfl, rfl, rfl⟩
    · simp only [if_pos hb, if_neg hg, ht1, Option.map_some']
      exact ⟨_, rfl, rfl, rfl⟩
  · by_cases hg : wintype = E.wintype_TextGrid ∨ wintype = F.wintype_AllTypes
    · obtain ⟨t2, ht2⟩ := clear_hint_isSome F styl hint st.grid F.grid_font_fg
        F.grid_font_bg h
      simp only [if_neg hb, if_pos hg, Option.map_some', ht2]
      exact ⟨_, rfl, rfl, rfl⟩
    · simp only [if_neg hb, if_neg hg]
      exact ⟨_, rfl, rfl, rfl⟩

theorem glk_window_open_colors_other (E : Env) (F : StyleEnv) (st : StyleState)
    (win wintype w : Nat) (h : w ≠ win) :
    (glk_window_open_colors E F st win wintype).win_fg w = st.win_fg w ∧
    (glk_window_open_colors E F st win wintype).win_bg w = st.win_bg w := by
  unfold glk_window_open_colors
  split_ifs <;> simp [Function.update, h]

theorem style_step_windows (E : Env) (F : StyleEnv) (st : StyleState) (c : StyleCall)
    (hv : c.StyleValid F) :
    ∃ st1, style_step E F st c = some st1 ∧
      ∀ w, ¬ c.Opens w → st1.win_fg w = st.win_fg w ∧ st1.win_bg w = st.win_bg w := by
  cases c with
  | hint_set wintype styl hint val =>
    obtain ⟨st1, h1, h2, h3⟩ := glk_stylehint_set_windows E F st wintype styl hint val hv
    exact ⟨st1, h1, fun w _ => by rw [h2, h3]; exact ⟨rfl, rfl⟩⟩
  | hint_clear wintype styl hint =>
    obtain ⟨st1, h1, h2, h3⟩ := glk_stylehint_clear_windows E F st wintype styl hint hv
    exact ⟨st1, h1, fun w _ => by rw [h2, h3]; exact ⟨rfl, rfl⟩⟩
  | window_open win wintype =>
    refine ⟨_, rfl, fun w hw => ?_⟩
    exact glk_window_open_colors_other E F st win wintype w (fun h => hw h.symm)

theorem style_run_windows (E : Env) (F : StyleEnv) (calls : List StyleCall) :
    ∀ st : StyleState, (∀ c ∈ calls, c.StyleValid F) →
      ∃ st1, style_run E F st calls = some st1 ∧
        ∀ w, (∀ c ∈ calls, ¬ c.Opens w) →
          st1.win_fg w = st.win_fg w ∧ st1.win_bg w = st.win_bg w := by
  induction calls with
  | nil => intro st _; exact ⟨st, rfl, fun _ _ => ⟨rfl, rfl⟩⟩
  | cons c cs ih =>
    intro st hv
    obtain ⟨st1, h1, hf1⟩ := style_step_windows E F st c (hv c (List.mem_cons_self c cs))
    obtain ⟨st2, h2, hf2⟩ := ih st1 (fun d hd => hv d (List.mem_cons_of_mem c hd))
    refine ⟨st2, by simp only [style_run, h1, h2], fun w hw => ?_⟩
    have a1 := hf1 w (hw c (List.mem_cons_self c cs))
    have a2 := hf2 w (fun d hd => hw d (List.mem_cons_of_mem c hd))
    exact ⟨a2.1.trans a1.1, a2.2.trans a1.2⟩

theorem style_run_append (E : Env) (F : StyleEnv) (a b : List StyleCall) :
    ∀ st st1 : StyleState, style_run E F st a = some st1 →
      style_run E F st (a ++ b) = style_run E F st1 b := by
  induction a with
  | nil => intro st st1 h; simp only [style_run, Option.some.injEq] at h; rw [← h]; rfl
  | cons c cs ih =>
    intro st st1 h
    simp only [style_run, List.cons_append] at h ⊢
    cases hc : style_step E F st c with
    | none => rw [hc] at h; cases h
    | some st2 =>
      rw [hc] at h
      simp only [] at h ⊢
      exact ih st2 st1 h

/-- C20: in a run of calls with valid styles, the calls `before` leave the
colour tables of every window that they do not open as they were, style
hints included; a window opened after them at the address `win` has, for
every style, the colours for the next text buffer window (if it is a text
buffer window) or the next text grid window (if it is a text grid window)
of the moment of opening, and keeps them through the calls `after`, which
do not change the table of any other window that they do not open. -/
theorem stylehint_affects_later_windows (E : Env) (F : StyleEnv) (st : StyleState)
    (before after : List StyleCall) (win wintype : Nat)
    (hvb : ∀ c ∈ before, c.StyleValid F) (hva : ∀ c ∈ after, c.StyleValid F)
    (hfresh : ∀ c ∈ after, ¬ c.Opens win)
    (hlab : E.wintype_TextBuffer ≠ E.wintype_TextGrid) :
    ∃ st1 st2, style_run E F st before = some st1 ∧
      style_run E F st (before ++ .window_open win wintype :: after) = some st2 ∧
      (∀ w, (∀ c ∈ before, ¬ c.Opens w) →
        st1.win_fg w = st.win_fg w ∧ st1.win_bg w = st.win_bg w) ∧
      (∀ w, w ≠ win → (∀ c ∈ after, ¬ c.Opens w) →
        st2.win_fg w = st1.win_fg w ∧ st2.win_bg w = st1.win_bg w) ∧
      (wintype = E.wintype_TextBuffer → ∀ i, i < F.style_NUMSTYLES →
        st2.win_fg win i = st1.next_buffer_fg i ∧ st2.win_bg win i = st1.next_buffer_bg i) ∧
      (wintype = E.wintype_TextGrid → ∀ i, i < F.style_NUMSTYLES →
        st2.win_fg win i = st1.next_grid_fg i ∧ st2.win_bg win i = st1.next_grid_bg i) := by
  obtain ⟨st1, h1, hf1⟩ := style_run_windows E F before st hvb
  obtain ⟨st2, h2, hf2⟩ := style_run_windows E F after
    (glk_window_open_colors E F st1 win wintype) hva
  refine ⟨st1, st2, h1, ?_, hf1, ?_, ?_, ?_⟩
  · rw [style_run_append E F before _ st st1 h1]
    simp only [style_run, style_step]
    exact h2
  · intro w hw hno
    have a1 := hf2 w hno
    have a2 := glk_window_open_colors_other E F st1 win wintype w hw
    exact ⟨a1.1.trans a2.1, a1.2.trans a2.2⟩
  · intro hb i hi
    have a1 := hf2 win hfresh
    rw [a1.1, a1.2]
    unfold glk_window_open_colors
    rw [if_pos hb]
    simp [Function.update, hi]
  · intro hg i hi
    have a1 := hf2 win hfresh
    have hnb : wintype ≠ E.wintype_TextBuffer := fun h => hlab (h.symm.trans hg)
    rw [a1.1, a1.2]
    unfold glk_window_open_colors
    rw [if_neg hnb, if_pos hg]
    simp [Function.update, hi]

/-- C20 at a concrete run: the text colour of style 0 of text buffer windows
is set to red, a text buffer window is opened at the address 1, then the text
colour of style 0 of all windows is set to green and the background hint
cleared; the window keeps red, the next window gets green. -/
theorem stylehint_affects_later_windows_witness :
    (∃ st1 st2,
      style_run stdEnv stdStyleEnv initStyleState [.hint_set 3 0 7 16711680] = some st1 ∧
      style_run stdEnv stdStyleEnv initStyleState
        ([.hint_set 3 0 7 16711680] ++
          .window_open 1 3 :: [.hint_set 0 0 7 65280, .hint_clear 3 0 8]) = some st2 ∧
      st2.win_fg 1 0 = st1.next_buffer_fg 0) ∧
    (style_run stdEnv stdStyleEnv initStyleState
        ([.hint_set 3 0 7 16711680] ++
          .window_open 1 3 :: [.hint_set 0 0 7 65280, .hint_clear 3 0 8])).map
      (fun s => (s.win_fg 1 0, s.next_buffer_fg 0)) =
      some (⟨255, 0, 0, 0⟩, ⟨0, 255, 0, 0⟩) := by
  obtain ⟨st1, st2, h1, h2, -, -, hb, -⟩ :=
    stylehint_affects_later_windows stdEnv stdStyleEnv initStyleState
      [.hint_set 3 0 7 16711680] [.hint_set 0 0 7 65280, .hint_clear 3 0 8] 1 3
      (by decide) (by decide) (by decide) (by decide)
  exact ⟨⟨st1, st2, h1, h2, (hb rfl 0 (by decide)).1⟩, by decide⟩

/-! ### 16-bit strings -/

theorem nano_strcmp16_eq_zero : ∀ (s t : List Nat), NonZero s → NonZero t →
    (nano_strcmp16 s t = 0 ↔ s = t) := by
  intro s
  induction s with
  | nil =>
    intro t _ ht
    cases t with
    | nil => simp [nano_strcmp16]
    | cons b r =>
      have hb : b ≠ 0 := ht b (List.mem_cons_self b r)
      simp only [nano_strcmp16]
      constructor
      · intro h; omega
      · intro h; cases h
  | cons a r ih =>
    intro t hs ht
    have ha : a ≠ 0 := hs a (List.mem_cons_self a r)
    cases t with
    | nil =>
      simp only [nano_strcmp16]
      constructor
      · intro h; omega
      · intro h; cases h
    | cons b r2 =>
      simp only [nano_strcmp16]
      by_cases hab : a = b
      · subst hab
        rw [if_pos ⟨ha, rfl⟩, ih r2 (fun c hc => hs c (List.mem_cons_of_mem a hc))
          (fun c hc => ht c (List.mem_cons_of_mem a hc))]
        simp
      · rw [if_neg (fun h => hab h.2)]
        constructor
        · intro h; omega
        · intro h; exact absurd (List.cons.inj h).1 hab

namespace wintextbuffer

/-! ### The input history -/

/-- The branches of the loop of `nanoglk_wintextbuffer_get_line16` for `SDLK_UP` and
`SDLK_DOWN`, for events handed to the loop: with the history "foo", "bar"
(the oldest entry first) and an empty line, Up, Up, Down would display "bar",
"foo", "bar". -/
theorem line_input_loop_up_up_down :
    (get_line16_history 10 [foo, bar] [] [press .UP, press .UP, press .DOWN]).map
      LineOutcome.shown = some [[], bar, foo, bar] := by
  decide

/-- No turn of the loop of `nano_input_text16` hands back a press of Up or
Down. -/
theorem nano_input_text16_turn_not_up_down (max_len max_char : Nat) (text : List Nat)
    (pos : Nat) (ev : SDL_Event)
    (h : (nano_input_text16_turn max_len max_char text pos ev).2.2 = true) :
    ev.key ≠ some .UP ∧ ev.key ≠ some .DOWN := by
  cases ev with
  | SDL_TEXTINPUT => simp [nano_input_text16_turn] at h
  | other => simp [SDL_Event.key]
  | SDL_KEYDOWN sym c =>
    cases sym <;> simp [nano_input_text16_turn, SDL_Event.key] at h ⊢

/-- The events handed back by `nano_input_text16` leave the position in the
history and the changed entries as they are: whatever events arrive, the
loop of `nanoglk_wintextbuffer_get_line16` stays at the new entry at the end of the
history, and the history itself is as it was as long as the call waits. -/
theorem get_line16_events_history_pos (max_len max_char : Nat) (events : List SDL_Event) :
    ∀ (s : LineInput) (pos : Nat) (s1 : LineInput),
      get_line16_events max_len max_char s pos events = some (.waiting s1) →
      s1.history_pos = s.history_pos ∧ s1.history = s.history ∧
      s1.history_repl = s.history_repl := by
  induction events with
  | nil =>
    intro s pos s1 h
    simp only [get_line16_events, Option.some.injEq, LineOutcome.waiting.injEq] at h
    subst h
    exact ⟨rfl, rfl, rfl⟩
  | cons ev evs ih =>
    intro s pos s1 h
    unfold get_line16_events at h
    have hturn := nano_input_text16_turn_not_up_down max_len max_char s.text pos ev
    rcases hres : nano_input_text16_turn max_len max_char s.text pos ev with ⟨t, p, ret⟩
    rw [hres] at h hturn
    cases ret with
    | false =>
      simp only at h
      exact ih { s with text := t } p s1 h
    | true =>
      simp only at h
      obtain ⟨hup, hdown⟩ := hturn rfl
      have hstep : line_input_step max_len { s with text := t } ⟨some t, ev.key⟩ =
          some (.waiting { s with text := t }) ∨
          ∃ H x, line_input_step max_len { s with text := t } ⟨some t, ev.key⟩ =
            some (.returned H x) := by
        unfold line_input_step
        rcases hk : ev.key with _ | k
        · exact Or.inl rfl
        · cases k with
          | RETURN => exact Or.inr ⟨_, _, rfl⟩
          | UP => exact absurd hk hup
          | DOWN => exact absurd hk hdown
          | other => exact Or.inl rfl
      rcases hstep with hs | ⟨H, x, hs⟩
      · rw [hs] at h
        simp only at h
        exact ih { s with text := t, shown := s.shown ++ [t] } _ s1 h
      · rw [hs] at h
        simp only at h
        cases h

/-- The loop of `get_line16_events` is the loop of `nanoglk_wintextbuffer_get_line16`
around the calls of `nano_input_text16`: the events up to the first one
handed back are read by one call of `nano_input_text16`, the event handed
back goes through `line_input_step`, and the loop goes on with the events
not yet read. -/
theorem get_line16_events_eq (max_len max_char : Nat) (events : List SDL_Event) :
    ∀ (s : LineInput) (pos : Nat),
      get_line16_events max_len max_char s pos events =
        match nano_input_text16 max_len max_char s.text pos events with
        | (none, t, _) => some (.waiting { s with text := t })
        | (some (ev, rest), t, p) =>
          match line_input_step max_len { s with text := t } ⟨some t, ev.key⟩ with
          | none => none
          | some (.returned history text) => some (.returned history text)
          | some (.waiting s1) =>
            get_line16_events max_len max_char { s1 with shown := s1.shown ++ [s1.text] }
              (if state_reset { s with text := t } ev.key then s1.text.length else p) rest := by
  induction events with
  | nil =>
    intro s pos
    simp [get_line16_events, nano_input_text16]
  | cons ev evs ih =>
    intro s pos
    rw [get_line16_events, nano_input_text16]
    rcases hres : nano_input_text16_turn max_len max_char s.text pos ev with ⟨t, p, ret⟩
    cases ret with
    | false =>
      simp only []
      rw [ih { s with text := t } p]
    | true =>
      simp only []

/-- The key Return as SDL delivers it, `SDLK_RETURN` with `SDL_SCANCODE_RETURN`
(40), does not end the line: the scancode is inserted as a character. -/
theorem return_key_inserted :
    (get_line16_input 10 255 [foo, bar] [] [.SDL_KEYDOWN .SDLK_RETURN 40]).map
      LineOutcome.text = some [40] ∧
    (get_line16_input 10 255 [foo, bar] [] [.SDL_KEYDOWN .SDLK_RETURN 40]).map
      LineOutcome.history_pos = some (some 2) := by
  refine ⟨by decide, by decide⟩

/-- C21 on the code: with the history "foo", "bar" and a new, empty line, the
keys Up, Up, Down as SDL delivers them are consumed by `nano_input_text16`:
the call still waits in its first call of `nano_input_text16`, the text of the
line is empty as it was, no entry of the history has been shown, and the
position in the history is that of the new entry. -/
theorem history_keys_consumed :
    (nano_input_text16 10 255 [] 0 [keyUp, keyUp, keyDown]).1 = none ∧
    (get_line16_input 10 255 [foo, bar] [] [keyUp]).map LineOutcome.text =
      some [] ∧
    (get_line16_input 10 255 [foo, bar] [] [keyUp, keyUp]).map
      LineOutcome.text = some [] ∧
    (get_line16_input 10 255 [foo, bar] [] [keyUp, keyUp, keyDown]).map
      LineOutcome.text = some [] ∧
    (get_line16_input 10 255 [foo, bar] [] [keyUp, keyUp, keyDown]).map
      LineOutcome.shown = some [[]] ∧
    (get_line16_input 10 255 [foo, bar] [] [keyUp, keyUp, keyDown]).map
      LineOutcome.history_pos = some (some 2) := by
  refine ⟨by decide, by decide, by decide, by decide, by decide, by decide⟩

end wintextbuffer

namespace wintextbuffer

theorem history_evict_length (history : List (List Nat)) :
    (history_evict history).length < MAX_HISTORY := by
  unfold history_evict
  split_ifs with h
  · simp only [List.length_take, List.length_drop, MAX_HISTORY] at *
    omega
  · omega

theorem history_evict_small (history : List (List Nat)) (h : history.length < MAX_HISTORY) :
    history_evict history = history := by
  unfold history_evict
  rw [if_neg (by omega)]

theorem history_evict_full (history : List (List Nat)) (h : history.length = MAX_HISTORY) :
    history_evict history = history.tail := by
  unfold history_evict
  rw [if_pos (by omega)]
  rw [List.drop_one]
  apply List.take_of_length_le
  simp only [List.length_tail, MAX_HISTORY] at *
  omega

theorem history_submit_iff (H : List (List Nat)) (text : List Nat)
    (hH : ∀ t ∈ H, NonZero t) (ht : NonZero text) :
    history_submit H text =
      if text ≠ [] ∧ H.getLast? ≠ some text then H ++ [text] else H := by
  unfold history_submit
  have hcond : (H.length = 0 ∨ nano_strcmp16 text (H.getD (H.length - 1) []) ≠ 0) ↔
      H.getLast? ≠ some text := by
    rcases List.eq_nil_or_concat H with rfl | ⟨L, x, rfl⟩
    · simp
    · simp only [List.concat_eq_append] at hH ⊢
      have hx : NonZero x := hH x (by simp)
      have hget : (L ++ [x]).getD ((L ++ [x]).length - 1) [] = x := by
        simp [List.getD, List.getElem?_append_right]
      have hlast : (L ++ [x]).getLast? = some x := by simp
      rw [hget, hlast, Ne, nano_strcmp16_eq_zero text x ht hx]
      simp only [List.length_append, List.length_singleton, Ne, Option.some.injEq]
      constructor
      · intro h
        rcases h with h | h
        · omega
        · exact fun e => h e.symm
      · intro h
        exact Or.inr (fun e => h e.symm)
  simp only [hcond]

theorem lineInv_shown {max_len : Nat} {H : List (List Nat)} {s : LineInput}
    (h : LineInv max_len H s) (l : List (List Nat)) :
    LineInv max_len H { s with shown := l } :=
  ⟨h.hist, h.pos_le, h.repl_end, h.text_fit, h.repl_fit, h.text_nz, h.repl_nz⟩

theorem lineInv_start (max_len : Nat) (history : List (List Nat)) (text : List Nat)
    (hfit : text.length ≤ max_len) (hnz : NonZero text) :
    LineInv max_len (history_evict history) (line_input_start history text) :=
  ⟨rfl, le_refl _, fun h => absurd h (lt_irrefl _), hfit, (fun _ _ h => by cases h), hnz,
    (fun _ _ h => by cases h)⟩

end wintextbuffer
namespace wintextbuffer

theorem history_entry_isSome (max_len : Nat) (H : List (List Nat)) (s : LineInput)
    (pos : Nat) (hH : ∀ t ∈ H, t.length ≤ max_len ∧ NonZero t) (hist : s.history = H)
    (repl_fit : ∀ i t, s.history_repl i = some t → t.length ≤ max_len)
    (repl_nz : ∀ i t, s.history_repl i = some t → NonZero t)
    (hpos : pos < H.length ∨ ∃ t, s.history_repl pos = some t) :
    ∃ t, history_entry max_len s pos = some t ∧ t.length ≤ max_len ∧ NonZero t := by
  unfold history_entry
  cases hr : s.history_repl pos with
  | some t =>
    have hf := repl_fit pos t hr
    exact ⟨t, by simp only [if_pos hf], hf, repl_nz pos t hr⟩
  | none =>
    rcases hpos with hp | ⟨t, ht⟩
    · have hg : s.history.get? pos = some (H.get ⟨pos, hp⟩) := by
        rw [hist]; exact List.get?_eq_get hp
      have hm := hH _ (List.get_mem H pos hp)
      refine ⟨H.get ⟨pos, hp⟩, ?_, hm.1, hm.2⟩
      simp only [hg, if_pos hm.1]
    · rw [hr] at ht; cases ht

theorem line_input_step_inv (max_len : Nat) (H : List (List Nat)) (s : LineInput)
    (e : InputEvent) (hH : ∀ t ∈ H, t.length ≤ max_len ∧ NonZero t)
    (hinv : LineInv max_len H s) (he : e.Fits max_len) (hk : e.key ≠ some .RETURN) :
    ∃ s1, line_input_step max_len s e = some (.waiting s1) ∧ LineInv max_len H s1 ∧
      s1.shown = s.shown := by
  have htext : (e.edited.getD s.text).length ≤ max_len ∧ NonZero (e.edited.getD s.text) := by
    cases hed : e.edited with
    | none => exact ⟨hinv.text_fit, hinv.text_nz⟩
    | some t => exact he t hed
  have hinv1 : LineInv max_len H { s with text := e.edited.getD s.text } :=
    ⟨hinv.hist, hinv.pos_le, hinv.repl_end, htext.1, hinv.repl_fit, htext.2, hinv.repl_nz⟩
  have hupd_fit : ∀ i t, Function.update s.history_repl s.history_pos
      (some (e.edited.getD s.text)) i = some t → t.length ≤ max_len ∧ NonZero t := by
    intro i t hi
    by_cases hip : i = s.history_pos
    · subst hip
      rw [Function.update_same] at hi
      cases hi
      exact htext
    · rw [Function.update_noteq hip] at hi
      exact ⟨hinv.repl_fit i t hi, hinv.repl_nz i t hi⟩
  unfold line_input_step
  cases hkey : e.key with
  | none => exact ⟨_, rfl, hinv1, rfl⟩
  | some k =>
    cases k with
    | RETURN => exact absurd hkey hk
    | other => exact ⟨_, rfl, hinv1, rfl⟩
    | UP =>
      simp only []
      by_cases hp : s.history_pos > 0
      · rw [if_pos hp]
        have hlt : s.history_pos - 1 < H.length := by have := hinv.pos_le; omega
        obtain ⟨t, ht, hfit, hnz⟩ := history_entry_isSome max_len H
          { s with text := e.edited.getD s.text,
                   history_repl := Function.update s.history_repl s.history_pos
                     (some (e.edited.getD s.text)),
                   history_pos := s.history_pos - 1 }
          (s.history_pos - 1) hH hinv.hist (fun i u hu => (hupd_fit i u hu).1)
          (fun i u hu => (hupd_fit i u hu).2) (Or.inl hlt)
        simp only [ht]
        refine ⟨_, rfl, ⟨hinv.hist, le_of_lt hlt, ?_, hfit, fun i u hu => (hupd_fit i u hu).1,
          hnz, fun i u hu => (hupd_fit i u hu).2⟩, rfl⟩
        intro _
        by_cases hpl : s.history_pos = H.length
        · refine ⟨e.edited.getD s.text, ?_⟩
          rw [← hpl]
          exact Function.update_same _ _ _
        · obtain ⟨u, hu⟩ := hinv.repl_end (lt_of_le_of_ne hinv.pos_le hpl)
          refine ⟨u, ?_⟩
          show Function.update s.history_repl s.history_pos _ H.length = some u
          rw [Function.update_noteq (Ne.symm hpl), hu]
      · rw [if_neg hp]
        exact ⟨_, rfl, hinv1, rfl⟩
    | DOWN =>
      simp only []
      by_cases hp : s.history_pos < s.history.length
      · rw [if_pos hp]
        have hpH : s.history_pos < H.length := by rw [← hinv.hist]; exact hp
        have hne : H.length ≠ s.history_pos := by omega
        have hsome : s.history_pos + 1 < H.length ∨
            ∃ t, Function.update s.history_repl s.history_pos
              (some (e.edited.getD s.text)) (s.history_pos + 1) = some t := by
          by_cases hq : s.history_pos + 1 < H.length
          · exact Or.inl hq
          · have heq : s.history_pos + 1 = H.length := by omega
            obtain ⟨u, hu⟩ := hinv.repl_end hpH
            exact Or.inr ⟨u, by rw [heq, Function.update_noteq hne, hu]⟩
        obtain ⟨t, ht, hfit, hnz⟩ := history_entry_isSome max_len H
          { s with text := e.edited.getD s.text,
                   history_repl := Function.update s.history_repl s.history_pos
                     (some (e.edited.getD s.text)),
                   history_pos := s.history_pos + 1 }
          (s.history_pos + 1) hH hinv.hist (fun i u hu => (hupd_fit i u hu).1)
          (fun i u hu => (hupd_fit i u hu).2) hsome
        simp only [ht]
        refine ⟨_, rfl, ⟨hinv.hist, hpH, ?_, hfit, fun i u hu => (hupd_fit i u hu).1,
          hnz, fun i u hu => (hupd_fit i u hu).2⟩, rfl⟩
        intro _
        obtain ⟨u, hu⟩ := hinv.repl_end hpH
        refine ⟨u, ?_⟩
        show Function.update s.history_repl s.history_pos _ H.length = some u
        rw [Function.update_noteq hne, hu]
      · rw [if_neg hp]
        exact ⟨_, rfl, hinv1, rfl⟩

theorem line_input_loop_waiting (max_len : Nat) (H : List (List Nat))
    (hH : ∀ t ∈ H, t.length ≤ max_len ∧ NonZero t) :
    ∀ (pre : List InputEvent) (s : LineInput), LineInv max_len H s →
      (∀ ev ∈ pre, ev.Fits max_len ∧ ev.key ≠ some .RETURN) →
      ∃ s1, line_input_loop max_len s pre = some (.waiting s1) ∧ LineInv max_len H s1 := by
  intro pre
  induction pre with
  | nil =>
    intro s hinv _
    exact ⟨_, rfl, lineInv_shown hinv _⟩
  | cons ev evs ih =>
    intro s hinv hpre
    have hev := hpre ev (List.mem_cons_self ev evs)
    obtain ⟨s1, hs1, hinv1, -⟩ := line_input_step_inv max_len H
      { s with shown := s.shown ++ [s.text] } ev hH (lineInv_shown hinv _) hev.1 hev.2
    obtain ⟨s2, hs2, hinv2⟩ := ih s1 hinv1 (fun d hd => hpre d (List.mem_cons_of_mem ev hd))
    refine ⟨s2, ?_, hinv2⟩
    simp only [line_input_loop, hs1, hs2]

theorem line_input_loop_return (max_len : Nat) (H : List (List Nat))
    (hH : ∀ t ∈ H, t.length ≤ max_len ∧ NonZero t) (e : InputEvent) (rest : List InputEvent)
    (he : e.Fits max_len) (hk : e.key = some .RETURN) :
    ∀ (pre : List InputEvent) (s : LineInput), LineInv max_len H s →
      (∀ ev ∈ pre, ev.Fits max_len ∧ ev.key ≠ some .RETURN) →
      ∃ text, NonZero text ∧ text.length ≤ max_len ∧
        line_input_loop max_len s (pre ++ e :: rest) =
          some (.returned (history_submit H text) text) := by
  intro pre
  induction pre with
  | nil =>
    intro s hinv _
    have htext : (e.edited.getD s.text).length ≤ max_len ∧ NonZero (e.edited.getD s.text) := by
      cases hed : e.edited with
      | none => exact ⟨hinv.text_fit, hinv.text_nz⟩
      | some t => exact he t hed
    refine ⟨e.edited.getD s.text, htext.2, htext.1, ?_⟩
    simp only [List.nil_append, line_input_loop, line_input_step, hk, hinv.hist]
  | cons ev evs ih =>
    intro s hinv hpre
    have hev := hpre ev (List.mem_cons_self ev evs)
    obtain ⟨s1, hs1, hinv1, -⟩ := line_input_step_inv max_len H
      { s with shown := s.shown ++ [s.text] } ev hH (lineInv_shown hinv _) hev.1 hev.2
    obtain ⟨text, h1, h2, h3⟩ := ih s1 hinv1
      (fun d hd => hpre d (List.mem_cons_of_mem ev hd))
    refine ⟨text, h1, h2, ?_⟩
    rw [List.cons_append]
    simp only [line_input_loop, hs1]
    exact h3

end wintextbuffer
namespace wintextbuffer

theorem history_evict_mem (history : List (List Nat)) (t : List Nat)
    (h : t ∈ history_evict history) : t ∈ history := by
  unfold history_evict at h
  split_ifs at h
  · exact List.mem_of_mem_drop (List.mem_of_mem_take h)
  · exact h

/-- C22 as stated fails: a line input that starts with a history of 100
entries removes the oldest one although the line that is submitted, an
empty line or a copy of the most recent entry, is not appended; the history
is left with 99 entries. -/
theorem history_evicted_without_append :
    fullHistory.length = MAX_HISTORY ∧
    (get_line16_history 10 fullHistory [] [press .RETURN]).map LineOutcome.history =
      some fullHistory.tail ∧
    (get_line16_history 10 fullHistory [100] [press .RETURN]).map LineOutcome.history =
      some fullHistory.tail ∧
    fullHistory.getLast? = some [100] ∧
    fullHistory.tail.length = 99 ∧
    fullHistory.tail ≠ fullHistory := by
  refine ⟨by decide, by decide, by decide, by decide, by decide, by decide⟩

/-- C22, amended: a line input whose events fit in the buffer and end with
Return returns; the submitted line is appended to the history if and only if
it is not empty and differs from the most recent entry; the history that it
is appended to is the history at the call if that holds fewer than
`MAX_HISTORY` entries, and the history at the call without its oldest entry
if it holds `MAX_HISTORY` entries (the oldest entry is removed at the start
of the call, whether or not a line is appended); the history never holds
more than `MAX_HISTORY` entries; and until Return the stored history is not
changed by the keys and the edits. -/
theorem history_submit_spec (max_len : Nat) (history : List (List Nat)) (text0 : List Nat)
    (pre : List InputEvent) (e : InputEvent) (rest : List InputEvent)
    (hH : ∀ t ∈ history, t.length ≤ max_len ∧ NonZero t)
    (h0 : text0.length ≤ max_len ∧ NonZero text0)
    (hpre : ∀ ev ∈ pre, ev.Fits max_len ∧ ev.key ≠ some .RETURN)
    (he : e.Fits max_len) (hk : e.key = some .RETURN) :
    ∃ text,
      get_line16_history max_len history text0 (pre ++ e :: rest) =
        some (.returned
          (if text ≠ [] ∧ (history_evict history).getLast? ≠ some text then
            history_evict history ++ [text] else history_evict history) text) ∧
      (if text ≠ [] ∧ (history_evict history).getLast? ≠ some text then
        history_evict history ++ [text] else history_evict history).length ≤ MAX_HISTORY ∧
      (history.length < MAX_HISTORY → history_evict history = history) ∧
      (history.length = MAX_HISTORY → history_evict history = history.tail) ∧
      (get_line16_history max_len history text0 pre).map LineOutcome.history =
        some (history_evict history) := by
  have hE : ∀ t ∈ history_evict history, t.length ≤ max_len ∧ NonZero t :=
    fun t ht => hH t (history_evict_mem history t ht)
  have hinv := lineInv_start max_len history text0 h0.1 h0.2
  obtain ⟨text, hnz, -, hrun⟩ := line_input_loop_return max_len (history_evict history) hE e
    rest he hk pre _ hinv hpre
  obtain ⟨s1, hs1, hinv1⟩ := line_input_loop_waiting max_len (history_evict history) hE pre _
    hinv (fun ev hev => hpre ev hev)
  refine ⟨text, ?_, ?_, history_evict_small history, history_evict_full history, ?_⟩
  · unfold get_line16_history
    rw [hrun, history_submit_iff _ text (fun t ht => (hE t ht).2) hnz]
  · have := history_evict_length history
    split_ifs
    · simp only [List.length_append, List.length_singleton]
      omega
    · omega
  · unfold get_line16_history
    rw [hs1]
    simp only [Option.map_some', LineOutcome.history, hinv1.hist]

/-- C22, amended, at a concrete input: with the history "foo", "bar" the
user recalls "bar", changes it to "baz" and submits it. -/
theorem history_submit_spec_witness :
    (∃ text,
      get_line16_history 10 [foo, bar] []
          ([press .UP, ⟨some [98, 97, 122], some .other⟩] ++ press .RETURN :: []) =
        some (.returned
          (if text ≠ [] ∧ (history_evict [foo, bar]).getLast? ≠ some text then
            history_evict [foo, bar] ++ [text] else history_evict [foo, bar]) text)) ∧
    (get_line16_history 10 [foo, bar] []
        [press .UP, ⟨some [98, 97, 122], some .other⟩, press .RETURN]).map
      LineOutcome.history = some [foo, bar, [98, 97, 122]] := by
  obtain ⟨text, h, -⟩ := history_submit_spec 10 [foo, bar] []
    [press .UP, ⟨some [98, 97, 122], some .other⟩] (press .RETURN) []
    (by decide) (by decide) (by decide) (by decide) (by decide)
  exact ⟨⟨text, h⟩, by decide⟩

end wintextbuffer

namespace wintextbuffer

/-! ### Resizing a text buffer window -/

end wintextbuffer

namespace conf

/-! ### The configuration -/

theorem conf_insert_mem (n m : node) (c : List node) :
    m ∈ conf_insert n c ↔ m = n ∨ m ∈ c := by
  induction c with
  | nil => simp [conf_insert]
  | cons i rest ih =>
    unfold conf_insert
    split_ifs
    · simp
    · simp only [List.mem_cons, ih]
      tauto

theorem conf_insert_sorted (n : node) (c : List node)
    (hs : c.Pairwise (fun a b => b.specifity ≤ a.specifity)) :
    (conf_insert n c).Pairwise (fun a b => b.specifity ≤ a.specifity) := by
  induction c with
  | nil => simp [conf_insert]
  | cons i rest ih =>
    rw [List.pairwise_cons] at hs
    unfold conf_insert
    split_ifs with h
    · rw [List.pairwise_cons]
      refine ⟨?_, List.pairwise_cons.mpr hs⟩
      intro m hm
      rcases List.mem_cons.mp hm with rfl | hm
      · exact h
      · exact le_trans (hs.1 m hm) h
    · rw [List.pairwise_cons]
      refine ⟨?_, ih hs.2⟩
      intro m hm
      rcases (conf_insert_mem n m rest).mp hm with rfl | hm
      · omega
      · exact hs.1 m hm

theorem nano_conf_get_insert (n : node) (path : List String) (d : Option String) :
    ∀ c : List node, c.Pairwise (fun a b => b.specifity ≤ a.specifity) →
      nano_conf_get (conf_insert n c) path d =
        if conf_match n.pattern path = true ∧
            ∀ m ∈ c, conf_match m.pattern path = true → m.specifity ≤ n.specifity
        then n.value else nano_conf_get c path d := by
  intro c
  induction c with
  | nil =>
    intro _
    simp [conf_insert, nano_conf_get]
  | cons i rest ih =>
    intro hs
    rw [List.pairwise_cons] at hs
    unfold conf_insert
    by_cases h : i.specifity ≤ n.specifity
    · rw [if_pos h]
      have hall : ∀ m ∈ i :: rest, conf_match m.pattern path = true →
          m.specifity ≤ n.specifity := by
        intro m hm _
        rcases List.mem_cons.mp hm with rfl | hm
        · exact h
        · exact le_trans (hs.1 m hm) h
      by_cases hn : conf_match n.pattern path = true
      · rw [if_pos ⟨hn, hall⟩]
        simp only [nano_conf_get, if_pos hn]
      · rw [if_neg (fun hc => hn hc.1)]
        conv_lhs => unfold nano_conf_get
        rw [if_neg hn]
    · rw [if_neg h]
      by_cases hi : conf_match i.pattern path = true
      · have hno : ¬ (conf_match n.pattern path = true ∧
            ∀ m ∈ i :: rest, conf_match m.pattern path = true →
              m.specifity ≤ n.specifity) :=
          fun hc => h (hc.2 i (List.mem_cons_self i rest) hi)
        rw [if_neg hno]
        simp only [nano_conf_get, if_pos hi]
      · have hiff : (∀ m ∈ i :: rest, conf_match m.pattern path = true →
            m.specifity ≤ n.specifity) ↔
            (∀ m ∈ rest, conf_match m.pattern path = true → m.specifity ≤ n.specifity) := by
          constructor
          · intro hc m hm; exact hc m (List.mem_cons_of_mem i hm)
          · intro hc m hm hmm
            rcases List.mem_cons.mp hm with rfl | hm
            · exact absurd hmm hi
            · exact hc m hm hmm
        conv_lhs => unfold nano_conf_get
        rw [if_neg hi, ih hs.2]
        conv_rhs => unfold nano_conf_get
        rw [if_neg hi]
        simp only [hiff]

theorem conf_of_snoc (puts : List (List Component × Option String))
    (pv : List Component × Option String) :
    conf_of (puts ++ [pv]) = nano_conf_put (conf_of puts) pv.1 pv.2 := by
  simp [conf_of, List.foldl_append]

theorem conf_of_sorted (puts : List (List Component × Option String)) :
    (conf_of puts).Pairwise (fun a b => b.specifity ≤ a.specifity) := by
  induction puts using List.reverseRecOn with
  | nil => simp [conf_of]
  | append_singleton puts pv ih =>
    rw [conf_of_snoc]
    exact conf_insert_sorted _ _ ih

theorem conf_of_mem (puts : List (List Component × Option String)) (m : node) :
    m ∈ conf_of puts ↔ ∃ pv ∈ puts, m = new_node pv.1 pv.2 := by
  induction puts using List.reverseRecOn with
  | nil => simp [conf_of]
  | append_singleton puts pv ih =>
    rw [conf_of_snoc, nano_conf_put, conf_insert_mem, ih]
    constructor
    · rintro (h | ⟨q, hq, h⟩)
      · exact ⟨pv, by simp, h⟩
      · exact ⟨q, by simp [hq], h⟩
    · rintro ⟨q, hq, h⟩
      rcases List.mem_append.mp hq with hq | hq
      · exact Or.inr ⟨q, hq, h⟩
      · simp only [List.mem_singleton] at hq
        subst hq
        exact Or.inl h

end conf
namespace conf

theorem nano_conf_get_decomp (path : List String) (d : Option String)
    (puts : List (List Component × Option String)) :
    ((∀ pv ∈ puts, conf_match pv.1 path = false) ∧ nano_conf_get (conf_of puts) path d = d) ∨
    (∃ pre p v post, puts = pre ++ (p, v) :: post ∧ conf_match p path = true ∧
      nano_conf_get (conf_of puts) path d = v ∧
      (∀ q ∈ pre, conf_match q.1 path = true → specifity q.1 ≤ specifity p) ∧
      (∀ q ∈ post, conf_match q.1 path = true → specifity q.1 < specifity p)) := by
  induction puts using List.reverseRecOn with
  | nil => exact Or.inl ⟨(fun _ h => by cases h), rfl⟩
  | append_singleton puts pv ih =>
    obtain ⟨p1, v1⟩ := pv
    rw [conf_of_snoc, nano_conf_put, nano_conf_get_insert _ _ _ _ (conf_of_sorted puts)]
    by_cases hc : conf_match (new_node p1 v1).pattern path = true ∧
        ∀ m ∈ conf_of puts, conf_match m.pattern path = true →
          m.specifity ≤ (new_node p1 v1).specifity
    · rw [if_pos hc]
      refine Or.inr ⟨puts, p1, v1, [], rfl, hc.1, rfl, ?_, fun _ h => by cases h⟩
      intro q hq hm
      exact hc.2 (new_node q.1 q.2) ((conf_of_mem puts _).mpr ⟨q, hq, rfl⟩) hm
    · rw [if_neg hc]
      rcases ih with ⟨hno, hget⟩ | ⟨pre, p, v, post, hputs, hp, hget, hpre, hpost⟩
      · refine Or.inl ⟨?_, hget⟩
        intro q hq
        rcases List.mem_append.mp hq with hq | hq
        · exact hno q hq
        · simp only [List.mem_singleton] at hq
          subst hq
          by_contra hm
          apply hc
          refine ⟨by simpa [new_node] using hm, ?_⟩
          intro m hmem hmm
          obtain ⟨q, hq, rfl⟩ := (conf_of_mem puts m).mp hmem
          have := hno q hq
          simp only [new_node] at hmm
          rw [this] at hmm
          cases hmm
      · refine Or.inr ⟨pre, p, v, post ++ [(p1, v1)], by rw [hputs]; simp, hp, hget, hpre, ?_⟩
        intro q hq hm
        rcases List.mem_append.mp hq with hq | hq
        · exact hpost q hq hm
        · simp only [List.mem_singleton] at hq
          subst hq
          by_contra hlt
          dsimp only at hlt hm
          apply hc
          refine ⟨hm, ?_⟩
          intro m hmem hmm
          obtain ⟨q, hq, rfl⟩ := (conf_of_mem puts m).mp hmem
          simp only [new_node] at hmm ⊢
          rw [hputs] at hq
          rcases List.mem_append.mp hq with hq | hq
          · have := hpre q hq hmm
            omega
          · rcases List.mem_cons.mp hq with rfl | hq
            · dsimp only
              omega
            · have := hpost q hq hmm
              omega

/-- The choice of `nano_conf_get` in terms of `match`, the matching of the code: after
`nano_conf_init` and any calls of `nano_conf_put`, `nano_conf_get` returns `def` if no pattern
that was put matches the path;
otherwise it returns the value of a pattern that matches, such that no
matching pattern put before it is more specific and every matching pattern
put after it is less specific; the specifity is the sum of 10000 for a
string, 100 for "?" and 1 for "*".  For the definitions of the test, a.x.y.c
gives val1, a.x.c gives val2, a.b.c gives val3 and a.b.x gives `def`. -/
theorem nano_conf_get_most_specific :
    (∀ (puts : List (List Component × Option String)) (path : List String)
        (d : Option String),
      ((∀ pv ∈ puts, conf_match pv.1 path = false) ∧
        nano_conf_get (conf_of puts) path d = d) ∨
      (∃ pre p v post, puts = pre ++ (p, v) :: post ∧ conf_match p path = true ∧
        nano_conf_get (conf_of puts) path d = v ∧
        (∀ q ∈ pre, conf_match q.1 path = true → specifity q.1 ≤ specifity p) ∧
        (∀ q ∈ post, conf_match q.1 path = true → specifity q.1 < specifity p))) ∧
    specifity [.lit "a", .CONF_WILD_ONE, .CONF_WILD_ANY] = 10000 + 100 + 1 ∧
    nano_conf_get (conf_of testPuts) ["a", "x", "y", "c"] (some "unset") = some "val1" ∧
    nano_conf_get (conf_of testPuts) ["a", "x", "c"] (some "unset") = some "val2" ∧
    nano_conf_get (conf_of testPuts) ["a", "b", "c"] (some "unset") = some "val3" ∧
    nano_conf_get (conf_of testPuts) ["a", "b", "x"] (some "unset") = some "unset" := by
  refine ⟨fun puts path d => nano_conf_get_decomp path d puts, by decide, by decide,
    by decide, by decide, by decide⟩

theorem matches_any_all (path : List String) : Matches [.CONF_WILD_ANY] path := by
  induction path with
  | nil => exact Matches.any_none _ _ Matches.nil
  | cons p rest ih => exact Matches.any_more p _ rest ih

theorem match_any_sound (pattern : List Component)
    (ih : ∀ path, conf_match pattern path = true → Matches pattern path) :
    ∀ path, match_any (conf_match pattern) path = true →
      Matches (.CONF_WILD_ANY :: pattern) path := by
  intro path
  induction path with
  | nil => intro h; simp [match_any] at h
  | cons p rest ihp =>
    intro h
    simp only [match_any, Bool.or_eq_true] at h
    rcases h with h | h
    · exact Matches.any_none _ _ (ih _ h)
    · exact Matches.any_more p _ rest (ihp h)

theorem conf_match_sound : ∀ (pattern : List Component) (path : List String),
    conf_match pattern path = true → Matches pattern path := by
  intro pattern
  induction pattern with
  | nil =>
    intro path h
    cases path with
    | nil => exact Matches.nil
    | cons p rest => simp [conf_match] at h
  | cons c pattern ih =>
    intro path h
    cases c with
    | lit s =>
      cases path with
      | nil => simp [conf_match] at h
      | cons p rest =>
        simp only [conf_match, Bool.and_eq_true, decide_eq_true_eq] at h
        rw [h.1]
        exact Matches.lit s _ _ (ih rest h.2)
    | CONF_WILD_ONE =>
      cases path with
      | nil => simp [conf_match] at h
      | cons p rest =>
        simp only [conf_match] at h
        exact Matches.one p _ _ (ih rest h)
    | CONF_WILD_ANY =>
      simp only [conf_match] at h
      by_cases he : pattern.isEmpty = true
      · have : pattern = [] := List.isEmpty_iff.mp he
        subst this
        exact matches_any_all path
      · rw [if_neg he] at h
        exact match_any_sound pattern ih path h

/-- C25 fails in the code: the pattern a.*.* and the path a (and the pattern
*.* and the empty path) match in the sense of the specification, each "*"
consuming no component, but `match` returns 0: its loop for a "*" that is
followed by further components tries the rest of the pattern only against
the non-empty ends of the path. -/
theorem conf_match_two_stars :
    conf_match [.lit "a", .CONF_WILD_ANY, .CONF_WILD_ANY] ["a"] = false ∧
    Matches [.lit "a", .CONF_WILD_ANY, .CONF_WILD_ANY] ["a"] ∧
    conf_match [.CONF_WILD_ANY, .CONF_WILD_ANY] [] = false ∧
    Matches [.CONF_WILD_ANY, .CONF_WILD_ANY] [] := by
  refine ⟨by decide, ?_, by decide, ?_⟩
  · exact Matches.lit "a" _ _ (Matches.any_none _ _ (Matches.any_none _ _ Matches.nil))
  · exact Matches.any_none _ _ (Matches.any_none _ _ Matches.nil)

end conf

/-! ### Requests for closed windows -/

/-- C26 fails in the code: a root text buffer window is opened at the address
0, a character is requested for it, and the window is closed; the window has
been freed and there is no root, but the request is still queued, and
`glk_select` delivers a character input event for the window 0. -/
theorem glk_select_closed_window :
    (glk_run stdEnv 10 WinState.init EvState.init
      [.window (.open 0 1 none 0 0 3 0), .event (.request_char 100 0),
       .window (.close 0), .event .select]).map
        (fun r => (r.1.map (fun e => (e.type, e.win)), r.2.1.heap 0, r.2.1.root)) =
      some ([(stdEnv.evtype_CharInput, some 0)], none, none) := by
  decide

/-! ### Clearing the style hints -/

/-- C27 fails in the code: with the fonts of `stdStyleEnv` (black on white),
the reverse colour hint of style 0 of text buffer windows is set, and then
the hints for the text colour, the background colour and the reverse colour
are cleared, in this order: the colours of style 0 for the next text buffer
window are white on black, the configured colours exchanged.  Cleared in
the order reverse colour, text colour, background colour, the configured
colours are restored. -/
theorem glk_stylehint_clear_swapped :
    (style_run stdEnv stdStyleEnv initStyleState
      [.hint_set 3 0 9 1, .hint_clear 3 0 7, .hint_clear 3 0 8, .hint_clear 3 0 9]).map
        (fun s => (s.next_buffer_fg 0, s.next_buffer_bg 0)) =
      some (stdStyleEnv.buffer_font_bg 0, stdStyleEnv.buffer_font_fg 0) ∧
    stdStyleEnv.buffer_font_fg 0 ≠ stdStyleEnv.buffer_font_bg 0 ∧
    (style_run stdEnv stdStyleEnv initStyleState
      [.hint_set 3 0 9 1, .hint_clear 3 0 9, .hint_clear 3 0 7, .hint_clear 3 0 8]).map
        (fun s => (s.next_buffer_fg 0, s.next_buffer_bg 0)) =
      some (stdStyleEnv.buffer_font_fg 0, stdStyleEnv.buffer_font_bg 0) := by
  refine ⟨by decide, by decide, by decide⟩

namespace stream

/-! ### Memory streams -/

/-- C28 fails in the code: a memory stream over a buffer of 4 characters is
moved by -1 from its position 0 with `seekmode_Current` (or to -1 with
`seekmode_Start`); the character put next is stored at the index -1, before the
buffer, and a character read there is fetched from that index: `put_char_uni`
and `get_char_uni` test `pos < len` but not `pos >= 0`. -/
theorem memory_stream_negative_position :
    (stream_run stdSeekEnv stream4 [.set_position (-1) 1, .put_char 65]).map
      (fun s => (s.stored, s.mem (-1), s.pos)) = some ([-1], 65, 0) ∧
    (stream_run stdSeekEnv stream4 [.set_position (-1) 0, .get_char]).map
      (fun s => (s.fetched, s.pos)) = some ([-1], 0) ∧
    (stream_run stdSeekEnv stream4 [.set_position 6 2, .get_buffer 3]).map
      (fun s => (s.fetched, s.pos)) = some ([-2, -1, 0], 1) ∧
    stream4.len = 4 := by
  refine ⟨by decide, by decide, by decide, by decide⟩

/-- Where the position is not negative, a character is stored and fetched only
inside the buffer, a character put outside is dropped while the position
advances, and a read outside returns -1. -/
theorem put_get_in_range (str : BufStream) (ch : Nat) (h : 0 ≤ str.pos) :
    (∀ i, i ∈ (put_char_uni str ch).stored → i ∈ str.stored ∨ (0 ≤ i ∧ i < str.len)) ∧
    (put_char_uni str ch).pos = str.pos + 1 ∧
    (str.len ≤ str.pos → (put_char_uni str ch).mem = str.mem) ∧
    (∀ i, i ∈ (get_char_uni str).2.fetched → i ∈ str.fetched ∨ (0 ≤ i ∧ i < str.len)) ∧
    (str.len ≤ str.pos → (get_char_uni str).1 = -1) := by
  refine ⟨?_, ?_, ?_, ?_, ?_⟩
  · intro i hi
    unfold put_char_uni at hi
    by_cases hc : str.has_buf = true ∧ str.pos < str.len
    · simp only [if_pos hc, List.mem_append, List.mem_singleton] at hi
      rcases hi with hi | hi
      · exact Or.inl hi
      · exact Or.inr ⟨by omega, by omega⟩
    · simp only [if_neg hc] at hi
      exact Or.inl hi
  · unfold put_char_uni
    split_ifs <;> rfl
  · intro hout
    unfold put_char_uni
    rw [if_neg (fun hc => by omega)]
  · intro i hi
    unfold get_char_uni at hi
    by_cases hc : str.has_buf = true ∧ str.pos < str.len
    · simp only [if_pos hc, List.mem_append, List.mem_singleton] at hi
      rcases hi with hi | hi
      · exact Or.inl hi
      · exact Or.inr ⟨by omega, by omega⟩
    · simp only [if_neg hc] at hi
      exact Or.inl hi
  · intro hout
    unfold get_char_uni
    rw [if_neg (fun hc => by omega)]

end stream

/-! ### The sign of the computed sizes -/

/-- C29 as stated fails: a pair of 100 x 100 whose right child was opened below
with a fixed size of 150 pixels and a border: `window_calc_sizes` gives the left
child the height 100 - 150 - 1 = -51. -/
theorem window_calc_sizes_negative :
    ValidDir stdEnv 19 ∧ ValidDivision stdEnv 19 ∧
    window_calc_sizes stdEnv oversizeHeap 2 ⟨0, 0, 0, 0⟩ ⟨0, 0, 0, 0⟩ =
      some (⟨0, 0, 100, -51⟩, ⟨0, -50, 100, 150⟩) := by
  refine ⟨?_, ?_, by decide⟩
  · unfold ValidDir; decide
  · unfold ValidDivision; decide

/-- C29, amended: for a pair rectangle with non-negative width and height
(values of `int`, so below 2147483648) and a right child with a valid method,
`window_calc_sizes` returns a left and a right rectangle, and the widths and
heights of both are non-negative if and only if the computed size of the
right child is non-negative and, together with the border, at most the extent
of the pair in the direction of the split. -/
theorem window_calc_sizes_nonneg (E : Env) (h : WinHeap) (pair r : Nat)
    (pw right : glk_window_struct) (la ra : SDL_Rect)
    (hE : E.LabelsDistinct) (hp : h pair = some pw) (hr : pw.right = some r)
    (hrw : h r = some right)
    (hdir : ValidDir E right.method) (hdiv : ValidDivision E right.method)
    (hw : 0 ≤ pw.area.w) (hh : 0 ≤ pw.area.h)
    (hwi : pw.area.w < 2147483648) (hhi : pw.area.h < 2147483648) :
    ∃ (size_px : Int) (L R : SDL_Rect),
      window_calc_size_px E pw.area right = some size_px ∧
      window_calc_sizes E h pair la ra = some (L, R) ∧
      ((0 ≤ L.w ∧ 0 ≤ L.h ∧ 0 ≤ R.w ∧ 0 ≤ R.h) ↔
        (0 ≤ size_px ∧
          ((right.method &&& E.winmethod_DirMask = E.winmethod_Above ∨
            right.method &&& E.winmethod_DirMask = E.winmethod_Below) →
              size_px + window_border E right ≤ pw.area.h) ∧
          ((right.method &&& E.winmethod_DirMask = E.winmethod_Left ∨
            right.method &&& E.winmethod_DirMask = E.winmethod_Right) →
              size_px + window_border E right ≤ pw.area.w))) := by
  obtain ⟨hd, hfp, -⟩ := hE
  simp only [List.nodup_cons, List.mem_cons, List.mem_singleton, not_or, List.not_mem_nil,
    not_false_eq_true, List.nodup_nil, and_true] at hd
  obtain ⟨⟨hLR, hLA, hLB⟩, ⟨hRA, hRB⟩, hAB⟩ := hd
  obtain ⟨size_px, hsize⟩ := window_calc_size_px_isSome E pw.area right hdir hdiv
  obtain ⟨⟨L, R⟩, hLRres⟩ := window_calc_sizes_isSome E h pair r pw right la ra hp hr hrw
    hdir hdiv
  have hrange := window_calc_size_px_range E pw.area right size_px hsize
  unfold IntRange at hrange
  have hb : window_border E right = 0 ∨ window_border E right = 1 := by
    unfold window_border BORDER_WIDTH; split <;> simp
  refine ⟨size_px, L, R, hsize, hLRres, ?_⟩
  simp only [window_calc_sizes, hp, hr, hrw, hsize, Option.some.injEq] at hLRres
  generalize window_border E right = border at *
  rcases hdir with hx | hx | hx | hx
  all_goals
    simp only [hx, true_or, or_true, if_true, Ne.symm hLA, Ne.symm hLB, Ne.symm hRA,
      Ne.symm hRB, Ne.symm hAB, Ne.symm hLR, hLR, hLA, hLB, hRA, hRB, hAB, or_self,
      if_false, Prod.mk.injEq] at hLRres
    obtain ⟨hL, hR⟩ := hLRres
    subst hL hR
    simp only [hx, true_or, or_true, Ne.symm hLA, Ne.symm hLB, Ne.symm hRA,
      Ne.symm hRB, Ne.symm hAB, Ne.symm hLR, hLR, hLA, hLB, hRA, hRB, hAB, or_self,
      true_implies, false_implies, and_true, true_and, forall_const, IsEmpty.forall_iff]
    constructor
    · intro hnn
      have e1 : wrap32 (pw.area.h - size_px - border) = pw.area.h - size_px - border :=
        wrap32_of_range ⟨by omega, by omega⟩
      have e2 : wrap32 (pw.area.w - size_px - border) = pw.area.w - size_px - border :=
        wrap32_of_range ⟨by omega, by omega⟩
      omega
    · intro hc
      first
      | (have e1 : wrap32 (pw.area.h - size_px - border) = pw.area.h - size_px - border :=
          wrap32_of_range ⟨by omega, by omega⟩
         omega)
      | (have e2 : wrap32 (pw.area.w - size_px - border) = pw.area.w - size_px - border :=
          wrap32_of_range ⟨by omega, by omega⟩
         omega)

/-- C29, amended, at the pair of `geomExampleHeap`: 100 x 100, split below with
a fixed size of 40 and a border. -/
theorem window_calc_sizes_nonneg_witness :
    ∃ (L R : SDL_Rect),
      window_calc_sizes stdEnv geomExampleHeap 2 ⟨0, 0, 0, 0⟩ ⟨0, 0, 0, 0⟩ = some (L, R) ∧
      0 ≤ L.w ∧ 0 ≤ L.h ∧ 0 ≤ R.w ∧ 0 ≤ R.h := by
  obtain ⟨sz, L, R, hsz, hLR, hiff⟩ :=
    window_calc_sizes_nonneg stdEnv geomExampleHeap 2 1 _ _ ⟨0, 0, 0, 0⟩ ⟨0, 0, 0, 0⟩
      (by decide) rfl rfl rfl (by unfold ValidDir; decide) (by unfold ValidDivision; decide)
      (by decide) (by decide) (by decide) (by decide)
  have h40 : window_calc_size_px stdEnv ⟨0, 0, 100, 100⟩
      { parent := some 2, left := none, right := none, method := 19, size := 40,
        wintype := 5, rock := 0, area := ⟨0, 0, 100, 100⟩ } = some 40 := by decide
  rw [h40] at hsz
  have hsz40 : sz = 40 := (Option.some.inj hsz).symm
  subst hsz40
  exact ⟨L, R, hLR, hiff.mpr ⟨by decide, fun _ => by decide, fun _ => by decide⟩⟩

/-! ### UTF-8 conversion -/

/-- C30 fails in the code: for the 16-bit string U+2014 `nano_strduputf8from16` writes
the bytes e2 80 80 (UTF-8 has e2 80 94; the same bytes are written for
U+201C), which `nano_strdup16fromutf8` converts to U+2000; for U+0800 it writes the
two bytes e0 80, for which `nano_strdup16fromutf8` returns `NULL`.  A string of
characters below U+0800 is converted back to itself. -/
theorem utf8_roundtrip_fails :
    nano_strduputf8from16 [0x2014] = some [0xe2, 0x80, 0x80] ∧
    nano_strduputf8from16 [0x201c] = some [0xe2, 0x80, 0x80] ∧
    nano_strdup16fromutf8 [0xe2, 0x80, 0x80] = some [0x2000] ∧
    nano_strdup16fromutf8 [0xe2, 0x80, 0x94] = some [0x2014] ∧
    nano_strduputf8from16 [0x800] = some [0xe0, 0x80] ∧
    nano_strdup16fromutf8 [0xe0, 0x80] = none ∧
    (nano_strduputf8from16 [0x7ff, 65, 0xe9]).bind nano_strdup16fromutf8 =
      some [0x7ff, 65, 0xe9] := by
  refine ⟨by decide, by decide, by decide, by decide, by decide, by decide, by decide⟩

set_option maxRecDepth 100000 in
theorem twoByteOK_all : ∀ h < 32, ∀ l < 64, 2 ≤ h → twoByteOK (64 * h + l) = true := by
  decide

theorem ascii_high_bit : ∀ c < 128, c &&& 0x80 = 0 := by
  decide

theorem utf8_decode_nil (fuel : Nat) : utf8_decode fuel [] = some [] := by
  cases fuel <;> rfl

theorem utf8_roundtrip_below_800 : ∀ s : List Nat, (∀ c ∈ s, c ≠ 0 ∧ c < 2048) →
    ∃ bytes, nano_strduputf8from16 s = some bytes ∧
      ∀ fuel, bytes.length ≤ fuel → utf8_decode fuel bytes = some s := by
  intro s
  induction s with
  | nil =>
    intro _
    exact ⟨[], rfl, fun fuel _ => utf8_decode_nil fuel⟩
  | cons c rest ih =>
    intro hs
    obtain ⟨more, hmore, hdec⟩ := ih (fun d hd => hs d (List.mem_cons_of_mem c hd))
    obtain ⟨hc0, hc⟩ := hs c (List.mem_cons_self c rest)
    by_cases hlow : c < 0x80
    · refine ⟨[c] ++ more, ?_, ?_⟩
      · simp only [nano_strduputf8from16, if_neg hc0, if_pos hlow, hmore]
      · intro fuel hf
        obtain ⟨f, rfl⟩ : ∃ f, fuel = f + 1 := ⟨fuel - 1, by
          simp only [List.length_append, List.length_singleton] at hf; omega⟩
        have hbit := ascii_high_bit c hlow
        simp only [List.singleton_append, utf8_decode, if_neg hc0, hbit, if_true]
        show Option.map (fun l => c :: l) (utf8_decode f more) = some (c :: rest)
        rw [hdec f (by simp only [List.length_append, List.length_singleton] at hf; omega)]
        rfl
    · have hok := twoByteOK_all (c / 64) (by omega) (c % 64) (Nat.mod_lt _ (by norm_num))
        (by omega)
      rw [Nat.div_add_mod] at hok
      simp only [twoByteOK, Bool.and_eq_true, decide_eq_true_eq] at hok
      obtain ⟨⟨⟨⟨⟨h1, h2⟩, h3⟩, h4⟩, h5⟩, h6⟩ := hok
      refine ⟨[0xc0 ||| (c >>> 6), 0x80 ||| (c &&& 0x3f)] ++ more, ?_, ?_⟩
      · simp only [nano_strduputf8from16, if_neg hc0, if_neg hlow, h1, hmore]
      · intro fuel hf
        simp only [List.length_append, List.length_cons, List.length_nil] at hf
        obtain ⟨f, rfl⟩ : ∃ f, fuel = f + 1 := ⟨fuel - 1, by omega⟩
        simp only [List.cons_append, List.nil_append, utf8_decode, if_neg h2, if_neg h3, h4,
          utf8_cont, if_pos h5, h6]
        show Option.map (fun l => c :: l) (utf8_decode f more) = some (c :: rest)
        rw [hdec f (by omega)]
        rfl

theorem utf8_roundtrip_partial (s : List Nat) (hs : ∀ c ∈ s, c ≠ 0 ∧ c < 2048) :
    (nano_strduputf8from16 s).bind nano_strdup16fromutf8 = some s := by
  obtain ⟨bytes, h1, h2⟩ := utf8_roundtrip_below_800 s hs
  rw [h1]
  show (utf8_decode bytes.length bytes).map (fun dest => dest.takeWhile (fun c => c ≠ 0)) =
    some s
  rw [h2 bytes.length (le_refl _)]
  have hall : s.takeWhile (fun c => decide (c ≠ 0)) = s := by
    rw [List.takeWhile_eq_self_iff]
    intro c hc
    exact decide_eq_true (hs c hc).1
  simp only [Option.map_some', hall]

namespace conf

theorem matches_path_ne_nil {pattern : List Component} {path : List String}
    (h : Matches pattern path) : all_any pattern = false → path ≠ [] := by
  induction h with
  | nil => intro ha; simp [all_any] at ha
  | lit s pattern path _ _ => intro _; exact List.cons_ne_nil _ _
  | one p pattern path _ _ => intro _; exact List.cons_ne_nil _ _
  | any_none pattern path _ ih => intro ha; exact ih (by simpa [all_any] using ha)
  | any_more p pattern path _ _ => intro _; exact List.cons_ne_nil _ _

theorem conf_match_complete {pattern : List Component} {path : List String}
    (h : Matches pattern path) : StarsLeaveRest pattern → conf_match pattern path = true := by
  induction h with
  | nil => intro _; rfl
  | lit s pattern path _ ih =>
    intro hs
    simp only [conf_match, decide_True, Bool.true_and]
    exact ih hs.2
  | one p pattern path _ ih =>
    intro hs
    simp only [conf_match]
    exact ih hs.2
  | any_none pattern path hm ih =>
    intro hs
    simp only [conf_match]
    rcases hs.1 rfl with hnil | hall
    · subst hnil
      rfl
    · have hne : pattern ≠ [] := by
        intro he; subst he; simp [all_any] at hall
      have hemp : ¬ pattern.isEmpty = true := fun he => hne (List.isEmpty_iff.mp he)
      rw [if_neg hemp]
      have hp := matches_path_ne_nil hm hall
      cases path with
      | nil => exact absurd rfl hp
      | cons p rest =>
        simp only [match_any, Bool.or_eq_true]
        exact Or.inl (ih hs.2)
  | any_more p pattern path _ ih =>
    intro hs
    have h1 := ih hs
    simp only [conf_match] at h1 ⊢
    by_cases hemp : pattern.isEmpty = true
    · rw [if_pos hemp]
    · rw [if_neg hemp] at h1 ⊢
      simp only [match_any, Bool.or_eq_true]
      exact Or.inr h1

end conf

namespace conf

/-! ### The most specific pattern -/

theorem specifity_append (p q : List Component) :
    specifity (p ++ q) = specifity p + specifity q := by
  induction p with
  | nil => simp [specifity]
  | cons c rest ih =>
    cases c <;>
      (show specifity (_ :: (rest ++ q)) = _
       simp only [specifity, ih]
       omega)

/-- The specifity of a pattern: 10000 for each string, 100 for each "?" and 1
for each "*". -/
theorem specifity_count (p : List Component) :
    specifity p =
      10000 * p.countP (fun c => decide (c ≠ .CONF_WILD_ONE ∧ c ≠ .CONF_WILD_ANY)) +
      100 * p.count .CONF_WILD_ONE + p.count .CONF_WILD_ANY := by
  induction p with
  | nil => rfl
  | cons c rest ih =>
    cases c with
    | lit s =>
      simp only [specifity, ih, List.countP_cons, List.count_cons]
      simp
      omega
    | CONF_WILD_ONE =>
      simp only [specifity, ih, List.countP_cons, List.count_cons]
      simp
      omega
    | CONF_WILD_ANY =>
      simp only [specifity, ih, List.countP_cons, List.count_cons]
      simp
      omega

/-- For a pattern that does not end with two "*", `match` decides the matching
of the specification. -/
theorem conf_match_iff (pattern : List Component) (path : List String)
    (hs : StarsLeaveRest pattern) : conf_match pattern path = true ↔ Matches pattern path :=
  ⟨conf_match_sound pattern path, fun h => conf_match_complete h hs⟩

/-- Where no pattern that was put ends with two "*", `nano_conf_get` returns `def` if no
pattern that was put matches the path, in the sense of the specification;
otherwise it returns the value of a pattern that matches, such that no
matching pattern put before it is more specific and every matching pattern
put after it is less specific. -/
theorem nano_conf_get_matches (path : List String) (d : Option String)
    (puts : List (List Component × Option String))
    (hs : ∀ pv ∈ puts, StarsLeaveRest pv.1) :
    ((∀ pv ∈ puts, ¬ Matches pv.1 path) ∧ nano_conf_get (conf_of puts) path d = d) ∨
    (∃ pre p v post, puts = pre ++ (p, v) :: post ∧ Matches p path ∧
      nano_conf_get (conf_of puts) path d = v ∧
      (∀ q ∈ pre, Matches q.1 path → specifity q.1 ≤ specifity p) ∧
      (∀ q ∈ post, Matches q.1 path → specifity q.1 < specifity p)) := by
  rcases nano_conf_get_decomp path d puts with
    ⟨hno, hget⟩ | ⟨pre, p, v, post, hputs, hp, hget, hpre, hpost⟩
  · refine Or.inl ⟨?_, hget⟩
    intro pv hpv hm
    have := (conf_match_iff pv.1 path (hs pv hpv)).mpr hm
    rw [hno pv hpv] at this
    cases this
  · refine Or.inr ⟨pre, p, v, post, hputs, conf_match_sound p path hp, hget, ?_, ?_⟩
    · intro q hq hm
      exact hpre q hq ((conf_match_iff q.1 path (hs q (by rw [hputs]; simp [hq]))).mpr hm)
    · intro q hq hm
      exact hpost q hq ((conf_match_iff q.1 path (hs q (by rw [hputs]; simp [hq]))).mpr hm)

/-- C24 fails in the code: after a.*.* = v1 and * = v2 have been put, both
patterns match the path a in the sense of the specification, a.*.* with the
specifity 10002 and * with the specifity 1, and `nano_conf_get` returns v2, the
value of the less specific one; with a.*.* = v1 alone it returns `def`.  The
cause is that of C25: `match` does not find that a.*.* matches a. -/
theorem nano_conf_get_two_stars :
    nano_conf_get (conf_of [([.lit "a", .CONF_WILD_ANY, .CONF_WILD_ANY], some "v1"),
      ([.CONF_WILD_ANY], some "v2")]) ["a"] (some "unset") = some "v2" ∧
    nano_conf_get (conf_of [([.lit "a", .CONF_WILD_ANY, .CONF_WILD_ANY], some "v1")])
      ["a"] (some "unset") = some "unset" ∧
    Matches [.lit "a", .CONF_WILD_ANY, .CONF_WILD_ANY] ["a"] ∧
    Matches [.CONF_WILD_ANY] ["a"] ∧
    specifity [.lit "a", .CONF_WILD_ANY, .CONF_WILD_ANY] = 10002 ∧
    specifity [.CONF_WILD_ANY] = 1 := by
  refine ⟨by decide, by decide, ?_, matches_any_all _, by decide, by decide⟩
  exact Matches.lit "a" _ _ (Matches.any_none _ _ (Matches.any_none _ _ Matches.nil))

end conf

end Nanoglk
